import Mathlib

/-!
Verification of the PaCoRe streaming response transcoder, the tool-intent
parser and the usage-statistics persistence layer of CLIProxyAPI, via a
shallow embedding of the Go source into Lean.

Strings are modelled as `List Char` (Go strings are byte strings; every
recognized tag is ASCII, and byte indices coincide with character indices on
ASCII input; the Go code's 15-byte withhold window becomes a 15-character
window here, which can only shift internal flush boundaries, never content).
`uuid.New()` values (message ids, tool-use ids) are nondeterministic at the
source level and are therefore omitted from the event model; no claim
mentions them.  `encoding/xml` unmarshalling of the tool-call body is host
library behaviour, modelled as an explicit function parameter `xmlParse`
(returning the name and the JSON-marshalled parameters, or `none` on a
decode error); every theorem below holds for every such function.
-/

abbrev Str := List Char

/-- Index of the first occurrence of `needle` as a contiguous substring of
`hay` (Go `strings.Index`), `none` playing the role of Go's `-1`. -/
def firstIdx : Str → Str → Option Nat
  | hay, needle =>
    if needle.isPrefixOf hay then some 0
    else
      match hay with
      | [] => none
      | _ :: t => (firstIdx t needle).map (· + 1)

theorem firstIdx_some_occ {hay needle : Str} {i : Nat}
    (h : firstIdx hay needle = some i) : needle <+: hay.drop i := by
  induction hay generalizing i with
  | nil =>
    rw [firstIdx] at h
    split at h
    · simp_all [List.isPrefixOf_iff_prefix]
    · simp at h
  | cons a t ih =>
    rw [firstIdx] at h
    split at h
    · rename_i hp
      rw [List.isPrefixOf_iff_prefix] at hp
      obtain rfl : i = 0 := by simpa using h.symm
      simpa using hp
    · cases hfi : firstIdx t needle with
      | none => rw [hfi] at h; simp at h
      | some j =>
        rw [hfi] at h
        simp only [Option.map_some'] at h
        obtain rfl : j + 1 = i := by simpa using h
        simpa using ih hfi

theorem firstIdx_some_min {hay needle : Str} {i : Nat}
    (h : firstIdx hay needle = some i) :
    ∀ j, j < i → ¬ needle <+: hay.drop j := by
  induction hay generalizing i with
  | nil =>
    rw [firstIdx] at h
    split at h
    · obtain rfl : i = 0 := by simpa using h.symm
      omega
    · simp at h
  | cons a t ih =>
    rw [firstIdx] at h
    split at h
    · obtain rfl : i = 0 := by simpa using h.symm
      omega
    · rename_i hp
      rw [List.isPrefixOf_iff_prefix] at hp
      cases hfi : firstIdx t needle with
      | none => rw [hfi] at h; simp at h
      | some k =>
        rw [hfi] at h
        simp only [Option.map_some'] at h
        obtain rfl : k + 1 = i := by simpa using h
        intro j hj
        cases j with
        | zero => simpa using hp
        | succ j => simpa using ih hfi j (by omega)

theorem firstIdx_none {hay needle : Str}
    (h : firstIdx hay needle = none) :
    ∀ j, ¬ needle <+: hay.drop j := by
  induction hay with
  | nil =>
    rw [firstIdx] at h
    split at h
    · simp at h
    · rename_i hp
      rw [List.isPrefixOf_iff_prefix] at hp
      intro j
      simpa using hp
  | cons a t ih =>
    rw [firstIdx] at h
    split at h
    · simp at h
    · rename_i hp
      rw [List.isPrefixOf_iff_prefix] at hp
      have hfi : firstIdx t needle = none := by
        cases hfi : firstIdx t needle with
        | none => rfl
        | some k => rw [hfi] at h; simp at h
      intro j
      cases j with
      | zero => simpa using hp
      | succ j => simpa using ih hfi j

theorem firstIdx_le {hay needle : Str} {i : Nat}
    (hne : needle ≠ []) (h : firstIdx hay needle = some i) :
    i + needle.length ≤ hay.length := by
  have hp := firstIdx_some_occ h
  have hlen : needle.length ≤ (hay.drop i).length := hp.length_le
  rw [List.length_drop] at hlen
  have : i ≤ hay.length := by
    by_contra hgt
    push_neg at hgt
    have : hay.drop i = [] := List.drop_eq_nil_of_le (by omega)
    rw [this] at hp
    exact hne (List.prefix_nil.mp hp)
  omega

theorem firstIdx_of_prefix_first {hay needle : Str} {i : Nat}
    (hp : needle <+: hay.drop i) (hmin : ∀ j, j < i → ¬ needle <+: hay.drop j) :
    firstIdx hay needle = some i := by
  induction hay generalizing i with
  | nil =>
    have : i = 0 := by
      by_contra hne
      exact hmin 0 (by omega) (by simpa using hp)
    subst this
    rw [firstIdx]
    simp only [List.isPrefixOf_iff_prefix]
    rw [if_pos (by simpa using hp)]
  | cons a t ih =>
    rw [firstIdx]
    split
    · rename_i hpre
      rw [List.isPrefixOf_iff_prefix] at hpre
      have : i = 0 := by
        by_contra hne
        exact hmin 0 (by omega) (by simpa using hpre)
      simp [this]
    · rename_i hpre
      rw [List.isPrefixOf_iff_prefix] at hpre
      cases i with
      | zero => exact absurd (by simpa using hp) hpre
      | succ i =>
        have := ih (i := i) (by simpa using hp)
          (fun j hj => by simpa using hmin (j + 1) (by omega))
        simp [this]

/-- Occurrences transfer to a right-extended haystack. -/
theorem prefix_drop_append {x c needle : Str} {i : Nat}
    (hi : i ≤ x.length) (hp : needle <+: x.drop i) : needle <+: (x ++ c).drop i := by
  rw [List.drop_append_eq_append_drop, Nat.sub_eq_zero_of_le hi, List.drop_zero]
  exact hp.trans (List.prefix_append _ _)

/-- An occurrence in `x ++ c` that fits inside `x` is an occurrence in `x`. -/
theorem prefix_drop_append_fit {x c needle : Str} {j : Nat}
    (hfit : j + needle.length ≤ x.length) (hp : needle <+: (x ++ c).drop j) :
    needle <+: x.drop j := by
  rw [List.drop_append_eq_append_drop, Nat.sub_eq_zero_of_le (by omega),
    List.drop_zero] at hp
  have hneed : needle = (x.drop j ++ c).take needle.length :=
    List.prefix_iff_eq_take.mp hp
  have hx : (x.drop j ++ c).take needle.length = (x.drop j).take needle.length := by
    rw [List.take_append_eq_append_take, Nat.sub_eq_zero_of_le (by simp; omega)]
    simp
  rw [hneed, hx]
  exact List.take_prefix _ _

/-! ## The PaCoRe streaming transcoder
    (src/internal/translator/openai/pacore/pacore_claude_response.go) -/

namespace Pacore

/-- Parser state (`State` in the Go source, `StateNormal` / `StateInThinking`
/ `StateInToolCall`). -/
inductive PState where
  | normal
  | inThinking
  | inToolCall
deriving DecidableEq, Repr

/-- Recognized tags (the closed vocabulary of the transcoder). -/
def thinkOpen : Str := "<thinking>".toList

def thinkClose : Str := "</thinking>".toList

def toolOpen : Str := "<tool_call>".toList

def toolClose : Str := "</tool_call>".toList

def pacoreTags : List Str := [thinkOpen, thinkClose, toolOpen, toolClose]

theorem thinkOpen_length : thinkOpen.length = 10 := rfl

theorem thinkClose_length : thinkClose.length = 11 := rfl

theorem toolOpen_length : toolOpen.length = 11 := rfl

theorem toolClose_length : toolClose.length = 12 := rfl

/-- Translation of `isPartialTag`: some non-empty proper prefix of a
recognized tag is a suffix of `s` (the Go loop runs `i = 1 .. len(tag)-1`
over `tag[:i]`). -/
def isPartialTag (s : Str) : Bool :=
  pacoreTags.any fun tag =>
    (List.range tag.length).any fun i => decide (0 < i) && (tag.take i).isSuffixOf s

/-- Translation of `PaCoReConvertParams`.  The nondeterministic `MessageID`
(a fresh UUID) is omitted; `ToolCallBlockIndexes` is declared in the Go
struct but never read or written, so it is omitted as well.  The
accumulators `ThinkingAccumulator` / `ToolCallAccumulator` are likewise
declared but never used by the translated functions. -/
structure Params where
  state : PState
  buffer : Str
  messageStarted : Bool
  model : Str
  nextContentBlockIndex : Int
  textContentBlockIndex : Int
  thinkingContentBlockIndex : Int
  textContentBlockStarted : Bool
  thinkingContentBlockStarted : Bool
deriving DecidableEq, Repr

/-- The fresh state installed by `PaCoReToClaudeResponse` when `*param` is
nil. -/
def initParams : Params where
  state := PState.normal
  buffer := []
  messageStarted := false
  model := []
  nextContentBlockIndex := 0
  textContentBlockIndex := -1
  thinkingContentBlockIndex := -1
  textContentBlockStarted := false
  thinkingContentBlockStarted := false

/-- Downstream Claude events, keeping exactly the payload fields the Go code
sets (random ids omitted, see the file header). -/
inductive Event where
  | messageStart (model : Str)
  | blockStartText (index : Int)
  | blockStartThinking (index : Int)
  | blockStartToolUse (index : Int) (name : Str)
  | deltaText (index : Int) (text : Str)
  | deltaThinking (index : Int) (text : Str)
  | deltaInputJson (index : Int) (argsJson : Str)
  | blockStop (index : Int)
  | messageDelta (stopReason : Str)
  | messageStop
deriving DecidableEq, Repr

/-- Translation of `emitTextDelta`. -/
def emitTextDelta (p : Params) (text : Str) : Params × List Event :=
  if text = [] then (p, [])
  else
    let p1 :=
      if p.textContentBlockStarted then p
      else if p.textContentBlockIndex = -1 then
        { p with
          textContentBlockIndex := p.nextContentBlockIndex
          nextContentBlockIndex := p.nextContentBlockIndex + 1
          textContentBlockStarted := true }
      else { p with textContentBlockStarted := true }
    let startEvs :=
      if p.textContentBlockStarted then []
      else [Event.blockStartText p1.textContentBlockIndex]
    (p1, startEvs ++ [Event.deltaText p1.textContentBlockIndex text])

/-- Translation of `stopTextBlock`. -/
def stopTextBlock (p : Params) : Params × List Event :=
  if p.textContentBlockStarted then
    ({ p with textContentBlockStarted := false, textContentBlockIndex := -1 },
      [Event.blockStop p.textContentBlockIndex])
  else (p, [])

/-- Translation of `stopThinkingBlock`. -/
def stopThinkingBlock (p : Params) : Params × List Event :=
  if p.thinkingContentBlockStarted then
    ({ p with thinkingContentBlockStarted := false, thinkingContentBlockIndex := -1 },
      [Event.blockStop p.thinkingContentBlockIndex])
  else (p, [])

/-- Translation of `startThinkingBlock`. -/
def startThinkingBlock (p : Params) : Params × List Event :=
  let r1 := if p.textContentBlockStarted then stopTextBlock p else (p, [])
  let p1 := r1.1
  let p2 :=
    if p1.thinkingContentBlockIndex = -1 then
      { p1 with
        thinkingContentBlockIndex := p1.nextContentBlockIndex
        nextContentBlockIndex := p1.nextContentBlockIndex + 1 }
    else p1
  ({ p2 with thinkingContentBlockStarted := true },
    r1.2 ++ [Event.blockStartThinking p2.thinkingContentBlockIndex])

/-- Translation of `emitThinkingDelta`. -/
def emitThinkingDelta (p : Params) (text : Str) : Params × List Event :=
  if text = [] then (p, [])
  else
    let r1 := if p.thinkingContentBlockStarted then (p, ([] : List Event))
              else startThinkingBlock p
    (r1.1, r1.2 ++ [Event.deltaThinking r1.1.thinkingContentBlockIndex text])

/-- Translation of `emitToolCall` (`name` / `argsJson` are the XML name and
the JSON-marshalled parameters the Go code obtains from the decoded
`ToolCallXML`; the random `call_` id is omitted). -/
def emitToolCall (p : Params) (name argsJson : Str) : Params × List Event :=
  let r1 := if p.textContentBlockStarted then stopTextBlock p else (p, [])
  let r2 := if r1.1.thinkingContentBlockStarted then stopThinkingBlock r1.1 else (r1.1, [])
  let idx := r2.1.nextContentBlockIndex
  ({ r2.1 with nextContentBlockIndex := idx + 1 },
    r1.2 ++ r2.2 ++
      [Event.blockStartToolUse idx name,
        Event.deltaInputJson idx argsJson,
        Event.blockStop idx])

/-- Translation of `handleFinish` (note: the Go function builds a fresh
`results` slice, so events accumulated earlier in the same call are
discarded by the caller's `return handleFinish(...)`). -/
def handleFinish (p : Params) (reason : Str) : Params × List Event :=
  let r1 := if p.thinkingContentBlockStarted then stopThinkingBlock p else (p, [])
  let r2 := if r1.1.textContentBlockStarted then stopTextBlock r1.1 else (r1.1, [])
  let stopReason :=
    if reason = "tool_calls".toList then "tool_use".toList else "end_turn".toList
  (r2.1, r1.2 ++ r2.2 ++ [Event.messageDelta stopReason, Event.messageStop])

theorem emitTextDelta_buffer (p : Params) (t : Str) :
    (emitTextDelta p t).1.buffer = p.buffer := by
  unfold emitTextDelta
  split
  · rfl
  · dsimp only
    split
    · rfl
    · split <;> rfl

theorem emitTextDelta_state (p : Params) (t : Str) :
    (emitTextDelta p t).1.state = p.state := by
  unfold emitTextDelta
  split
  · rfl
  · dsimp only
    split
    · rfl
    · split <;> rfl

theorem stopTextBlock_buffer (p : Params) : (stopTextBlock p).1.buffer = p.buffer := by
  unfold stopTextBlock
  split <;> rfl

theorem stopTextBlock_state (p : Params) : (stopTextBlock p).1.state = p.state := by
  unfold stopTextBlock
  split <;> rfl

theorem stopThinkingBlock_buffer (p : Params) :
    (stopThinkingBlock p).1.buffer = p.buffer := by
  unfold stopThinkingBlock
  split <;> rfl

theorem stopThinkingBlock_state (p : Params) :
    (stopThinkingBlock p).1.state = p.state := by
  unfold stopThinkingBlock
  split <;> rfl

theorem startThinkingBlock_buffer (p : Params) :
    (startThinkingBlock p).1.buffer = p.buffer := by
  unfold startThinkingBlock
  dsimp only
  split
  · split <;> simp [stopTextBlock_buffer]
  · split <;> rfl

theorem startThinkingBlock_state (p : Params) :
    (startThinkingBlock p).1.state = p.state := by
  unfold startThinkingBlock
  dsimp only
  split
  · split <;> simp [stopTextBlock_state]
  · split <;> rfl

theorem emitThinkingDelta_buffer (p : Params) (t : Str) :
    (emitThinkingDelta p t).1.buffer = p.buffer := by
  unfold emitThinkingDelta
  split
  · rfl
  · dsimp only
    split
    · rfl
    · simp [startThinkingBlock_buffer]

theorem emitThinkingDelta_state (p : Params) (t : Str) :
    (emitThinkingDelta p t).1.state = p.state := by
  unfold emitThinkingDelta
  split
  · rfl
  · dsimp only
    split
    · rfl
    · simp [startThinkingBlock_state]

theorem emitToolCall_buffer (p : Params) (n a : Str) :
    (emitToolCall p n a).1.buffer = p.buffer := by
  unfold emitToolCall
  dsimp only
  split <;> split <;>
    simp [stopTextBlock_buffer, stopThinkingBlock_buffer]

theorem emitToolCall_state (p : Params) (n a : Str) :
    (emitToolCall p n a).1.state = p.state := by
  unfold emitToolCall
  dsimp only
  split <;> split <;>
    simp [stopTextBlock_state, stopThinkingBlock_state]

/-- The tag-selection logic at the top of `processBuffer`'s `StateNormal`
case: Go computes `firstTagIdx`/`tagType` from `thinkIdx`/`toolIdx` (with
`-1` for "absent") and proceeds with the tag that comes first; the boolean
is `true` for `"thinking"` and `false` for `"tool"`. -/
def pickTag (thinkIdx toolIdx : Option Nat) : Option (Nat × Bool) :=
  match thinkIdx, toolIdx with
  | some ti, some oi => if ti < oi then some (ti, true) else some (oi, false)
  | some ti, none => some (ti, true)
  | none, some oi => some (oi, false)
  | none, none => none

/-- Translation of `processBuffer`.  `xmlParse` stands for
`xml.Unmarshal(fullXML, &ToolCallXML{...})` followed by
`json.Marshal(toolCall.Parameters)` (host library behaviour, see the file
header); it receives the reconstructed `fullXML` and returns the tool name
and the marshalled arguments, or `none` when unmarshalling fails. -/
def processBuffer (xmlParse : Str → Option (Str × Str)) (p : Params) :
    Params × List Event :=
  if hb : p.buffer = [] then (p, [])
  else
    match p.state with
    | PState.normal =>
      match pickTag (firstIdx p.buffer thinkOpen) (firstIdx p.buffer toolOpen) with
      | some (ti, true) =>
        let r1 := if 0 < ti then emitTextDelta p (p.buffer.take ti) else (p, [])
        let p2 := { r1.1 with
          state := PState.inThinking
          buffer := p.buffer.drop (ti + thinkOpen.length) }
        let r2 := startThinkingBlock p2
        let r3 := processBuffer xmlParse r2.1
        (r3.1, r1.2 ++ r2.2 ++ r3.2)
      | some (oi, false) =>
        let r1 := if 0 < oi then emitTextDelta p (p.buffer.take oi) else (p, [])
        let p2 := { r1.1 with
          state := PState.inToolCall
          buffer := p.buffer.drop (oi + toolOpen.length) }
        let r2 := processBuffer xmlParse p2
        (r2.1, r1.2 ++ r2.2)
      | none =>
        if isPartialTag p.buffer then
          if 15 < p.buffer.length then
            let r1 := emitTextDelta p (p.buffer.take (p.buffer.length - 15))
            ({ r1.1 with buffer := p.buffer.drop (p.buffer.length - 15) }, r1.2)
          else (p, [])
        else
          let r1 := emitTextDelta p p.buffer
          ({ r1.1 with buffer := [] }, r1.2)
    | PState.inThinking =>
      match firstIdx p.buffer thinkClose with
      | some ei =>
        let r1 := emitThinkingDelta p (p.buffer.take ei)
        let r2 := stopThinkingBlock r1.1
        let p3 := { r2.1 with
          state := PState.normal
          buffer := p.buffer.drop (ei + thinkClose.length) }
        let r3 := processBuffer xmlParse p3
        (r3.1, r1.2 ++ r2.2 ++ r3.2)
      | none =>
        if isPartialTag p.buffer then
          if 15 < p.buffer.length then
            let r1 := emitThinkingDelta p (p.buffer.take (p.buffer.length - 15))
            ({ r1.1 with buffer := p.buffer.drop (p.buffer.length - 15) }, r1.2)
          else (p, [])
        else
          let r1 := emitThinkingDelta p p.buffer
          ({ r1.1 with buffer := [] }, r1.2)
    | PState.inToolCall =>
      match firstIdx p.buffer toolClose with
      | some ei =>
        let fullXML := toolOpen ++ p.buffer.take ei ++ toolClose
        let r1 :=
          match xmlParse fullXML with
          | some na => emitToolCall p na.1 na.2
          | none => (p, [])
        let p2 := { r1.1 with
          state := PState.normal
          buffer := p.buffer.drop (ei + toolClose.length) }
        let r2 := processBuffer xmlParse p2
        (r2.1, r1.2 ++ r2.2)
      | none => (p, [])
termination_by p.buffer.length
decreasing_by
  all_goals
    have hlen : 0 < p.buffer.length := List.length_pos.mpr hb
    simp only [startThinkingBlock_buffer, List.length_drop, thinkOpen_length,
      toolOpen_length, thinkClose_length, toolClose_length]
    omega

/-- The shape of one upstream chunk as seen through the `gjson` probes in
`PaCoReToClaudeResponse`: a chunk that is valid JSON contributes the string
at `choices.0.delta.content` (empty when absent) and the string at
`choices.0.finish_reason`; invalid JSON contributes its raw bytes as text
(and `gjson` queries on it yield the empty string). -/
inductive Chunk where
  | json (content : Str) (finishReason : Str)
  | raw (text : Str)
deriving DecidableEq, Repr

def chunkContentOf : Chunk → Str
  | Chunk.json c _ => c
  | Chunk.raw t => t

def finishReasonOf : Chunk → Str
  | Chunk.json _ f => f
  | Chunk.raw _ => []

/-- A chunk that takes the finish path of `PaCoReToClaudeResponse`: its
content string is empty and its finish reason is non-empty. -/
def isFinishChunk (c : Chunk) : Bool :=
  chunkContentOf c = [] && finishReasonOf c ≠ []

/-- Translation of `PaCoReToClaudeResponse` (one invocation).  The caller's
`*param == nil` initialisation is represented by starting from
`initParams`; the random `msg_` UUID is omitted (no claim mentions it). -/
def PaCoReToClaudeResponse (xmlParse : Str → Option (Str × Str)) (model : Str)
    (chunk : Chunk) (p : Params) : Params × List Event :=
  let r0 : Params × List Event :=
    if p.messageStarted then (p, [])
    else ({ p with model := model, messageStarted := true },
      [Event.messageStart model])
  let p1 := r0.1
  let chunkContent := chunkContentOf chunk
  if chunkContent = [] then
    let finishReason := finishReasonOf chunk
    if finishReason ≠ [] then
      -- Go: `return handleFinish(p, finishReason)` — the events accumulated
      -- in `results` so far (a possible message_start) are discarded.
      handleFinish p1 finishReason
    else (p1, r0.2)
  else
    let p2 := { p1 with buffer := p1.buffer ++ chunkContent }
    let r1 := processBuffer xmlParse p2
    (r1.1, r0.2 ++ r1.2)

/-- One invocation applied to an accumulated (state, events) pair. -/
def stepChunk (xmlParse : Str → Option (Str × Str)) (model : Str)
    (acc : Params × List Event) (ch : Chunk) : Params × List Event :=
  let r := PaCoReToClaudeResponse xmlParse model ch acc.1
  (r.1, acc.2 ++ r.2)

/-- One stream: fold `PaCoReToClaudeResponse` over a chunk sequence starting
from the nil (fresh) state, concatenating the returned event slices. -/
def runChunks (xmlParse : Str → Option (Str × Str)) (model : Str)
    (chunks : List Chunk) : Params × List Event :=
  chunks.foldl (stepChunk xmlParse model) (initParams, [])

/-- Concatenation of the `delta.text` payloads of all `text_delta` events. -/
def concatTextDeltas : List Event → Str
  | [] => []
  | Event.deltaText _ t :: es => t ++ concatTextDeltas es
  | _ :: es => concatTextDeltas es

/-- Concatenation of the `delta.thinking` payloads of all `thinking_delta`
events. -/
def concatThinkingDeltas : List Event → Str
  | [] => []
  | Event.deltaThinking _ t :: es => t ++ concatThinkingDeltas es
  | _ :: es => concatThinkingDeltas es

/-- An `xmlParse` that always fails (as Go `encoding/xml` does on the
`map[string]string` field of `ToolCallXML` whenever a `<parameter>` element
is present); used for concrete evaluations. -/
def xmlParseNone : Str → Option (Str × Str) := fun _ => none

/-- Bound used for termination: the index picked by `pickTag` leaves at
least one tag inside the string. -/
theorem pickTag_fst_le {s : Str} {i : Nat} {k : Bool}
    (h : pickTag (firstIdx s thinkOpen) (firstIdx s toolOpen) = some (i, k)) :
    (k = true → i + thinkOpen.length ≤ s.length) ∧
      (k = false → i + toolOpen.length ≤ s.length) := by
  cases ht : firstIdx s thinkOpen with
  | none =>
    cases ho : firstIdx s toolOpen with
    | none => rw [ht, ho] at h; simp [pickTag] at h
    | some oi =>
      rw [ht, ho] at h
      simp only [pickTag, Option.some.injEq, Prod.mk.injEq] at h
      obtain ⟨rfl, rfl⟩ := h
      exact ⟨(fun hk => nomatch hk), (fun _ => firstIdx_le (by decide) ho)⟩
  | some ti =>
    cases ho : firstIdx s toolOpen with
    | none =>
      rw [ht, ho] at h
      simp only [pickTag, Option.some.injEq, Prod.mk.injEq] at h
      obtain ⟨rfl, rfl⟩ := h
      exact ⟨(fun _ => firstIdx_le (by decide) ht), (fun hk => nomatch hk)⟩
    | some oi =>
      rw [ht, ho] at h
      simp only [pickTag] at h
      by_cases hlt : ti < oi
      · rw [if_pos hlt] at h
        simp only [Option.some.injEq, Prod.mk.injEq] at h
        obtain ⟨rfl, rfl⟩ := h
        exact ⟨(fun _ => firstIdx_le (by decide) ht), (fun hk => nomatch hk)⟩
      · rw [if_neg hlt] at h
        simp only [Option.some.injEq, Prod.mk.injEq] at h
        obtain ⟨rfl, rfl⟩ := h
        exact ⟨(fun hk => nomatch hk), (fun _ => firstIdx_le (by decide) ho)⟩

/-- Uniform shift of both candidate indices commutes with the tag pick. -/
theorem pickTag_map_shift (x y : Option Nat) (n : Nat) :
    pickTag (x.map (· + n)) (y.map (· + n))
      = (pickTag x y).map (fun ik => (ik.1 + n, ik.2)) := by
  cases x with
  | none => cases y <;> simp [pickTag]
  | some ti =>
    cases y with
    | none => simp [pickTag]
    | some oi =>
      by_cases h : ti < oi
      · simp [pickTag, h, Nat.add_lt_add_iff_right]
      · simp [pickTag, h, Nat.add_lt_add_iff_right]

/-- Specification-side reference (formalising the claim's words, not the
code): scan the whole input once, splitting it into the text lying outside
`<thinking>…</thinking>` and `<tool_call>…</tool_call>` regions (first
component) and the text inside `<thinking>…</thinking>` regions (second
component).  A region starts at the earliest occurrence of its opening tag
and ends at the first occurrence of the matching closing tag after it.
Content of a region left unterminated at the end of the input belongs to
that region (this convention is immaterial for the theorems below, whose
hypotheses force every region to be terminated). -/
def specScan : PState → Str → Str × Str
  | PState.normal, s =>
    match h12 : pickTag (firstIdx s thinkOpen) (firstIdx s toolOpen) with
    | some (ti, true) =>
      let r := specScan PState.inThinking (s.drop (ti + thinkOpen.length))
      (s.take ti ++ r.1, r.2)
    | some (oi, false) =>
      let r := specScan PState.inToolCall (s.drop (oi + toolOpen.length))
      (s.take oi ++ r.1, r.2)
    | none => (s, [])
  | PState.inThinking, s =>
    match h : firstIdx s thinkClose with
    | some ei =>
      let r := specScan PState.normal (s.drop (ei + thinkClose.length))
      (r.1, s.take ei ++ r.2)
    | none => ([], s)
  | PState.inToolCall, s =>
    match h : firstIdx s toolClose with
    | some ei => specScan PState.normal (s.drop (ei + toolClose.length))
    | none => ([], [])
termination_by _ s => s.length
decreasing_by
  all_goals
    first
      | (have hle := (pickTag_fst_le h12).1 rfl
         simp only [List.length_drop, thinkOpen_length] at *
         omega)
      | (have hle := (pickTag_fst_le h12).2 rfl
         simp only [List.length_drop, toolOpen_length] at *
         omega)
      | (have hle := firstIdx_le (by decide : thinkClose ≠ []) h
         simp only [List.length_drop, thinkClose_length] at *
         omega)
      | (have hle := firstIdx_le (by decide : toolClose ≠ []) h
         simp only [List.length_drop, toolClose_length] at *
         omega)

/-- Outside-of-regions text of a whole input (claim-side reference). -/
def specOutside (s : Str) : Str := (specScan PState.normal s).1

/-- Inside-of-thinking-regions text of a whole input (claim-side
reference). -/
def specThinking (s : Str) : Str := (specScan PState.normal s).2

theorem drop_append_of_le {B c : Str} {n : Nat} (h : n ≤ B.length) :
    (B ++ c).drop n = B.drop n ++ c := by
  rw [List.drop_append_eq_append_drop, Nat.sub_eq_zero_of_le h, List.drop_zero]

theorem take_append_of_le {B c : Str} {n : Nat} (h : n ≤ B.length) :
    (B ++ c).take n = B.take n := by
  rw [List.take_append_eq_append_take, Nat.sub_eq_zero_of_le h, List.take_zero,
    List.append_nil]

/-- A `firstIdx` hit in `B` is the first hit in any right extension. -/
theorem firstIdx_append_some {B c needle : Str} {i : Nat} (hne : needle ≠ [])
    (h : firstIdx B needle = some i) : firstIdx (B ++ c) needle = some i := by
  have hle := firstIdx_le hne h
  apply firstIdx_of_prefix_first
  · exact prefix_drop_append (by omega) (firstIdx_some_occ h)
  · intro j hj hpre
    have hfit : j + needle.length ≤ B.length := by omega
    exact firstIdx_some_min h j hj (prefix_drop_append_fit hfit hpre)

/-- If `needle` does not occur in `B`, every occurrence in `B ++ c` sticks
out past the end of `B`. -/
theorem firstIdx_append_none_straddles {B c needle : Str} {j : Nat}
    (h : firstIdx B needle = none) (hp : needle <+: (B ++ c).drop j) :
    B.length < j + needle.length := by
  by_contra hle
  push_neg at hle
  exact firstIdx_none h j (prefix_drop_append_fit hle hp)

/-- A recognized tag straddling the boundary of `B ++ c` forces
`isPartialTag B`. -/
theorem straddle_isPartialTag {B c tag : Str} {j : Nat} (htag : tag ∈ pacoreTags)
    (hp : tag <+: (B ++ c).drop j) (hj : j < B.length)
    (hstr : B.length < j + tag.length) : isPartialTag B = true := by
  have hdropj : (B ++ c).drop j = B.drop j ++ c := drop_append_of_le (by omega)
  rw [hdropj] at hp
  have hlenBj : (B.drop j).length = B.length - j := List.length_drop ..
  have hpre : B.drop j <+: tag :=
    List.prefix_of_prefix_length_le (List.prefix_append _ _) hp
      (by rw [hlenBj]; omega)
  have htake : tag.take (B.length - j) = B.drop j := by
    have e1 := List.prefix_iff_eq_take.mp hpre
    rw [hlenBj] at e1
    exact e1.symm
  have hsuf : (tag.take (B.length - j)).isSuffixOf B = true := by
    rw [List.isSuffixOf_iff_suffix, htake]
    exact List.drop_suffix _ _
  rw [isPartialTag, List.any_eq_true]
  refine ⟨tag, htag, ?_⟩
  rw [List.any_eq_true]
  refine ⟨B.length - j, List.mem_range.mpr (by omega), ?_⟩
  rw [Bool.and_eq_true, decide_eq_true_eq]
  exact ⟨by omega, hsuf⟩

/-- Shift lemma: when `needle` has no occurrence before position `n`, the
first occurrence is the first occurrence in the tail shifted by `n`. -/
theorem firstIdx_drop_shift {s needle : Str} {n : Nat}
    (hno : ∀ j, j < n → ¬ needle <+: s.drop j) :
    firstIdx s needle = (firstIdx (s.drop n) needle).map (· + n) := by
  cases h : firstIdx (s.drop n) needle with
  | some k =>
    simp only [Option.map_some']
    apply firstIdx_of_prefix_first
    · have := firstIdx_some_occ h
      rwa [List.drop_drop, Nat.add_comm] at this
    · intro j hj hpre
      rcases Nat.lt_or_ge j n with hlt | hge
      · exact hno j hlt hpre
      · have : needle <+: (s.drop n).drop (j - n) := by
          rwa [List.drop_drop, Nat.add_comm, Nat.sub_add_cancel hge]
        exact firstIdx_some_min h (j - n) (by omega) this
  | none =>
    simp only [Option.map_none']
    cases hfi : firstIdx s needle with
    | none => rfl
    | some i =>
      exfalso
      have hpre := firstIdx_some_occ hfi
      rcases Nat.lt_or_ge i n with hlt | hge
      · exact hno i hlt hpre
      · refine firstIdx_none h (i - n) ?_
        rwa [List.drop_drop, Nat.add_comm, Nat.sub_add_cancel hge]

/-- Decomposition of the reference scan in `normal` state: if neither
opening tag occurs before position `n ≤ |B|` in `B ++ c`, the first `n`
characters of `B` are outside text and scanning continues on the rest. -/
theorem specScan_normal_skip {B c : Str} {n : Nat} (hn : n ≤ B.length)
    (hno1 : ∀ j, j < n → ¬ thinkOpen <+: (B ++ c).drop j)
    (hno2 : ∀ j, j < n → ¬ toolOpen <+: (B ++ c).drop j) :
    specScan PState.normal (B ++ c)
      = (B.take n ++ (specScan PState.normal (B.drop n ++ c)).1,
         (specScan PState.normal (B.drop n ++ c)).2) := by
  have hdrop : (B ++ c).drop n = B.drop n ++ c := drop_append_of_le hn
  have h1 := @firstIdx_drop_shift (B ++ c) thinkOpen _ hno1
  have h2 := @firstIdx_drop_shift (B ++ c) toolOpen _ hno2
  rw [hdrop] at h1 h2
  have hpick : pickTag (firstIdx (B ++ c) thinkOpen) (firstIdx (B ++ c) toolOpen)
      = (pickTag (firstIdx (B.drop n ++ c) thinkOpen)
          (firstIdx (B.drop n ++ c) toolOpen)).map (fun ik => (ik.1 + n, ik.2)) := by
    rw [h1, h2, pickTag_map_shift]
  conv_lhs => rw [specScan]
  conv_rhs => rw [specScan]
  rw [hpick]
  cases hp : pickTag (firstIdx (B.drop n ++ c) thinkOpen)
      (firstIdx (B.drop n ++ c) toolOpen) with
  | none =>
    simp only [Option.map_none']
    rw [← take_append_of_le (c := c) hn, ← hdrop, List.take_append_drop]
  | some ik =>
    obtain ⟨i, k⟩ := ik
    simp only [Option.map_some']
    have e1 : (B ++ c).take (i + n) = B.take n ++ (B.drop n ++ c).take i := by
      rw [Nat.add_comm i n, List.take_add, take_append_of_le hn, hdrop]
    cases k with
    | false =>
      have e2 : (B ++ c).drop (i + n + toolOpen.length)
          = (B.drop n ++ c).drop (i + toolOpen.length) := by
        rw [Nat.add_right_comm i n toolOpen.length, ← hdrop, List.drop_drop,
          Nat.add_comm n (i + toolOpen.length)]
      simp only [e1, e2, List.append_assoc]
    | true =>
      have e2 : (B ++ c).drop (i + n + thinkOpen.length)
          = (B.drop n ++ c).drop (i + thinkOpen.length) := by
        rw [Nat.add_right_comm i n thinkOpen.length, ← hdrop, List.drop_drop,
          Nat.add_comm n (i + thinkOpen.length)]
      simp only [e1, e2, List.append_assoc]

/-- Decomposition of the reference scan in `inThinking` state. -/
theorem specScan_inThinking_skip {B c : Str} {n : Nat} (hn : n ≤ B.length)
    (hno : ∀ j, j < n → ¬ thinkClose <+: (B ++ c).drop j) :
    specScan PState.inThinking (B ++ c)
      = ((specScan PState.inThinking (B.drop n ++ c)).1,
         B.take n ++ (specScan PState.inThinking (B.drop n ++ c)).2) := by
  have hdrop : (B ++ c).drop n = B.drop n ++ c := drop_append_of_le hn
  have h1 := @firstIdx_drop_shift (B ++ c) thinkClose _ hno
  rw [hdrop] at h1
  conv_lhs => rw [specScan]
  conv_rhs => rw [specScan]
  rw [h1]
  cases ht : firstIdx (B.drop n ++ c) thinkClose with
  | none =>
    simp only [Option.map_none']
    rw [← take_append_of_le (c := c) hn, ← hdrop, List.take_append_drop]
  | some ei =>
    simp only [Option.map_some']
    have e1 : (B ++ c).take (ei + n) = B.take n ++ (B.drop n ++ c).take ei := by
      rw [Nat.add_comm ei n, List.take_add, take_append_of_le hn, hdrop]
    have e2 : (B ++ c).drop (ei + n + thinkClose.length)
        = (B.drop n ++ c).drop (ei + thinkClose.length) := by
      rw [Nat.add_right_comm ei n thinkClose.length, ← hdrop, List.drop_drop,
        Nat.add_comm n (ei + thinkClose.length)]
    simp only [e1, e2, List.append_assoc]

theorem concatTextDeltas_append (a b : List Event) :
    concatTextDeltas (a ++ b) = concatTextDeltas a ++ concatTextDeltas b := by
  induction a with
  | nil => simp [concatTextDeltas]
  | cons e es ih => cases e <;> simp [concatTextDeltas, ih]

theorem concatThinkingDeltas_append (a b : List Event) :
    concatThinkingDeltas (a ++ b) = concatThinkingDeltas a ++ concatThinkingDeltas b := by
  induction a with
  | nil => simp [concatThinkingDeltas]
  | cons e es ih => cases e <;> simp [concatThinkingDeltas, ih]

theorem concatTextDeltas_emitTextDelta (p : Params) (t : Str) :
    concatTextDeltas (emitTextDelta p t).2 = t := by
  unfold emitTextDelta
  split
  · simp_all [concatTextDeltas]
  · dsimp only
    split <;> simp [concatTextDeltas, concatTextDeltas_append]

theorem concatThinkingDeltas_emitTextDelta (p : Params) (t : Str) :
    concatThinkingDeltas (emitTextDelta p t).2 = [] := by
  unfold emitTextDelta
  split
  · simp [concatThinkingDeltas]
  · dsimp only
    split <;> simp [concatThinkingDeltas, concatThinkingDeltas_append]

theorem concatTextDeltas_stopTextBlock (p : Params) :
    concatTextDeltas (stopTextBlock p).2 = [] := by
  unfold stopTextBlock
  split <;> simp [concatTextDeltas]

theorem concatThinkingDeltas_stopTextBlock (p : Params) :
    concatThinkingDeltas (stopTextBlock p).2 = [] := by
  unfold stopTextBlock
  split <;> simp [concatThinkingDeltas]

theorem concatTextDeltas_stopThinkingBlock (p : Params) :
    concatTextDeltas (stopThinkingBlock p).2 = [] := by
  unfold stopThinkingBlock
  split <;> simp [concatTextDeltas]

theorem concatThinkingDeltas_stopThinkingBlock (p : Params) :
    concatThinkingDeltas (stopThinkingBlock p).2 = [] := by
  unfold stopThinkingBlock
  split <;> simp [concatThinkingDeltas]

theorem concatTextDeltas_startThinkingBlock (p : Params) :
    concatTextDeltas (startThinkingBlock p).2 = [] := by
  unfold startThinkingBlock
  dsimp only
  split
  · split <;>
      simp [concatTextDeltas_append, concatTextDeltas, concatTextDeltas_stopTextBlock]
  · split <;> simp [concatTextDeltas_append, concatTextDeltas]

theorem concatThinkingDeltas_startThinkingBlock (p : Params) :
    concatThinkingDeltas (startThinkingBlock p).2 = [] := by
  unfold startThinkingBlock
  dsimp only
  split
  · split <;>
      simp [concatThinkingDeltas_append, concatThinkingDeltas,
        concatThinkingDeltas_stopTextBlock]
  · split <;> simp [concatThinkingDeltas_append, concatThinkingDeltas]

theorem concatThinkingDeltas_emitThinkingDelta (p : Params) (t : Str) :
    concatThinkingDeltas (emitThinkingDelta p t).2 = t := by
  unfold emitThinkingDelta
  split
  · simp_all [concatThinkingDeltas]
  · dsimp only
    split <;>
      simp [concatThinkingDeltas_append, concatThinkingDeltas,
        concatThinkingDeltas_startThinkingBlock]

theorem concatTextDeltas_emitThinkingDelta (p : Params) (t : Str) :
    concatTextDeltas (emitThinkingDelta p t).2 = [] := by
  unfold emitThinkingDelta
  split
  · simp [concatTextDeltas]
  · dsimp only
    split <;>
      simp [concatTextDeltas_append, concatTextDeltas,
        concatTextDeltas_startThinkingBlock]

theorem concatTextDeltas_emitToolCall (p : Params) (n a : Str) :
    concatTextDeltas (emitToolCall p n a).2 = [] := by
  unfold emitToolCall
  dsimp only
  split <;> split <;>
    simp [concatTextDeltas_append, concatTextDeltas, concatTextDeltas_stopTextBlock,
      concatTextDeltas_stopThinkingBlock]

theorem concatThinkingDeltas_emitToolCall (p : Params) (n a : Str) :
    concatThinkingDeltas (emitToolCall p n a).2 = [] := by
  unfold emitToolCall
  dsimp only
  split <;> split <;>
    simp [concatThinkingDeltas_append, concatThinkingDeltas,
      concatThinkingDeltas_stopTextBlock, concatThinkingDeltas_stopThinkingBlock]

theorem concatTextDeltas_handleFinish (p : Params) (r : Str) :
    concatTextDeltas (handleFinish p r).2 = [] := by
  unfold handleFinish
  dsimp only
  split <;> split <;>
    simp [concatTextDeltas_append, concatTextDeltas, concatTextDeltas_stopTextBlock,
      concatTextDeltas_stopThinkingBlock]

theorem concatThinkingDeltas_handleFinish (p : Params) (r : Str) :
    concatThinkingDeltas (handleFinish p r).2 = [] := by
  unfold handleFinish
  dsimp only
  split <;> split <;>
    simp [concatThinkingDeltas_append, concatThinkingDeltas,
      concatThinkingDeltas_stopTextBlock, concatThinkingDeltas_stopThinkingBlock]

theorem pickTag_eq_none {x y : Option Nat} (h : pickTag x y = none) :
    x = none ∧ y = none := by
  cases x with
  | none =>
    cases y with
    | none => exact ⟨rfl, rfl⟩
    | some oi => simp [pickTag] at h
  | some ti =>
    cases y with
    | none => simp [pickTag] at h
    | some oi =>
      rw [pickTag] at h
      split at h <;> simp at h

theorem thinkOpen_toolOpen_not_both {s : Str} (h1 : thinkOpen <+: s)
    (h2 : toolOpen <+: s) : False := by
  have e1 := List.prefix_iff_eq_take.mp h1
  have e2 := List.prefix_iff_eq_take.mp h2
  have e3 : thinkOpen.take 3 = toolOpen.take 3 := by
    rw [e1, e2, List.take_take, List.take_take, thinkOpen_length, toolOpen_length]
    norm_num
  exact absurd e3 (by decide)

theorem no_occ_of_none_notPartial {B c needle : Str} (htag : needle ∈ pacoreTags)
    (hnone : firstIdx B needle = none) (hnp : isPartialTag B = false) :
    ∀ j, j < B.length → ¬ needle <+: (B ++ c).drop j := by
  intro j hj hp
  have hstr := firstIdx_append_none_straddles hnone hp
  have := straddle_isPartialTag htag hp hj hstr
  rw [hnp] at this
  exact Bool.false_ne_true this

theorem no_occ_of_none_window {B c needle : Str} (hnl : needle.length ≤ 15)
    (hnone : firstIdx B needle = none) :
    ∀ j, j < B.length - 15 → ¬ needle <+: (B ++ c).drop j := by
  intro j hj hp
  have hstr := firstIdx_append_none_straddles hnone hp
  omega

theorem pickTag_some_true {x y : Option Nat} {i : Nat}
    (h : pickTag x y = some (i, true)) : x = some i := by
  cases x with
  | none =>
    cases y with
    | none => simp [pickTag] at h
    | some oi => simp [pickTag] at h
  | some ti =>
    cases y with
    | none => simpa [pickTag] using h
    | some oi =>
      rw [pickTag] at h
      split at h <;> simp_all

theorem pickTag_some_false {x y : Option Nat} {i : Nat}
    (h : pickTag x y = some (i, false)) : y = some i := by
  cases x with
  | none =>
    cases y with
    | none => simp [pickTag] at h
    | some oi => simpa [pickTag] using h
  | some ti =>
    cases y with
    | none => simp [pickTag] at h
    | some oi =>
      rw [pickTag] at h
      split at h <;> simp_all

theorem pickTag_append_some {B c : Str} {i : Nat} {k : Bool}
    (h : pickTag (firstIdx B thinkOpen) (firstIdx B toolOpen) = some (i, k)) :
    pickTag (firstIdx (B ++ c) thinkOpen) (firstIdx (B ++ c) toolOpen)
      = some (i, k) := by
  cases ht : firstIdx B thinkOpen with
  | some ti =>
    have ht2 := firstIdx_append_some (c := c) (by decide : thinkOpen ≠ []) ht
    cases ho : firstIdx B toolOpen with
    | some oi =>
      have ho2 := firstIdx_append_some (c := c) (by decide : toolOpen ≠ []) ho
      rw [ht, ho] at h
      rw [ht2, ho2]
      exact h
    | none =>
      rw [ht, ho] at h
      simp only [pickTag, Option.some.injEq, Prod.mk.injEq] at h
      obtain ⟨rfl, rfl⟩ := h
      rw [ht2]
      cases ho2 : firstIdx (B ++ c) toolOpen with
      | none => rfl
      | some oj =>
        have hp1 : thinkOpen <+: (B ++ c).drop ti := firstIdx_some_occ ht2
        have hp2 : toolOpen <+: (B ++ c).drop oj := firstIdx_some_occ ho2
        have hstr := firstIdx_append_none_straddles ho hp2
        have hle := firstIdx_le (by decide : thinkOpen ≠ []) ht
        have hlt : ti < oj := by
          have hne : ti ≠ oj := by
            intro heq
            rw [← heq] at hp2
            exact thinkOpen_toolOpen_not_both hp1 hp2
          simp only [thinkOpen_length] at hle
          simp only [toolOpen_length] at hstr
          omega
        simp [pickTag, hlt]
  | none =>
    cases ho : firstIdx B toolOpen with
    | none => rw [ht, ho] at h; simp [pickTag] at h
    | some oi =>
      rw [ht, ho] at h
      simp only [pickTag, Option.some.injEq, Prod.mk.injEq] at h
      obtain ⟨rfl, rfl⟩ := h
      have ho2 := firstIdx_append_some (c := c) (by decide : toolOpen ≠ []) ho
      rw [ho2]
      cases ht2 : firstIdx (B ++ c) thinkOpen with
      | none => rfl
      | some tj =>
        have hp1 : thinkOpen <+: (B ++ c).drop tj := firstIdx_some_occ ht2
        have hstr := firstIdx_append_none_straddles ht hp1
        have hle := firstIdx_le (by decide : toolOpen ≠ []) ho
        have hnlt : ¬ tj < oi := by
          simp only [thinkOpen_length] at hstr
          simp only [toolOpen_length] at hle
          omega
        simp [pickTag, hnlt]

set_option maxHeartbeats 1000000 in
theorem processBuffer_specScan (xmlParse : Str → Option (Str × Str)) (p : Params) :
    ∀ c : Str,
    specScan p.state (p.buffer ++ c)
      = (concatTextDeltas (processBuffer xmlParse p).2
           ++ (specScan (processBuffer xmlParse p).1.state
             ((processBuffer xmlParse p).1.buffer ++ c)).1,
         concatThinkingDeltas (processBuffer xmlParse p).2
           ++ (specScan (processBuffer xmlParse p).1.state
             ((processBuffer xmlParse p).1.buffer ++ c)).2) := by
  induction p using processBuffer.induct with
  | xmlParse a => exact xmlParse a
  | case1 p hb =>
    intro c
    have hm : processBuffer xmlParse p = (p, []) := by
      rw [processBuffer]
      simp [hb]
    rw [hm]
    simp [concatTextDeltas, concatThinkingDeltas]
  | case6 p hb hst hpk hnp =>
    intro c
    rw [Bool.not_eq_true] at hnp
    obtain ⟨htn, hon⟩ := pickTag_eq_none hpk
    have hm : processBuffer xmlParse p
        = ({ (emitTextDelta p p.buffer).1 with buffer := [] },
           (emitTextDelta p p.buffer).2) := by
      rw [processBuffer]
      simp only [dif_neg hb, hst, hpk, hnp, Bool.false_eq_true, if_false]
    rw [hm]
    rw [hst]
    rw [specScan_normal_skip (n := p.buffer.length) le_rfl
      (no_occ_of_none_notPartial (by simp [pacoreTags]) htn hnp)
      (no_occ_of_none_notPartial (by simp [pacoreTags]) hon hnp)]
    simp [concatTextDeltas_emitTextDelta, concatThinkingDeltas_emitTextDelta,
      emitTextDelta_state, hst]
  | case2 p hb hst ti hpk r1 p2 r2 ih =>
    intro c
    have hti : firstIdx p.buffer thinkOpen = some ti := pickTag_some_true hpk
    have hle := firstIdx_le (by decide : thinkOpen ≠ []) hti
    have hm : processBuffer xmlParse p
        = ((processBuffer xmlParse r2.1).1,
           r1.2 ++ r2.2 ++ (processBuffer xmlParse r2.1).2) := by
      rw [processBuffer]
      simp only [dif_neg hb, hst, hpk]
      rfl
    have hs : specScan PState.normal (p.buffer ++ c)
        = (p.buffer.take ti
             ++ (specScan PState.inThinking
                  (p.buffer.drop (ti + thinkOpen.length) ++ c)).1,
           (specScan PState.inThinking
             (p.buffer.drop (ti + thinkOpen.length) ++ c)).2) := by
      rw [specScan, pickTag_append_some (c := c) hpk]
      simp only [take_append_of_le (show ti ≤ p.buffer.length by omega),
        drop_append_of_le hle]
    have hr2s : r2.1.state = PState.inThinking := by
      unfold_let r2
      rw [startThinkingBlock_state]
    have hr2b : r2.1.buffer = p.buffer.drop (ti + thinkOpen.length) := by
      unfold_let r2
      rw [startThinkingBlock_buffer]
    have hr1t : concatTextDeltas r1.2 = p.buffer.take ti := by
      unfold_let r1
      by_cases h0 : 0 < ti
      · rw [dif_pos h0, concatTextDeltas_emitTextDelta]
      · rw [dif_neg h0]
        have hti0 : ti = 0 := by omega
        simp [hti0, concatTextDeltas]
    have hr1k : concatThinkingDeltas r1.2 = [] := by
      unfold_let r1
      by_cases h0 : 0 < ti
      · rw [dif_pos h0, concatThinkingDeltas_emitTextDelta]
      · rw [dif_neg h0]
        simp [concatThinkingDeltas]
    have hr2t : concatTextDeltas r2.2 = [] := by
      unfold_let r2
      rw [concatTextDeltas_startThinkingBlock]
    have hr2k : concatThinkingDeltas r2.2 = [] := by
      unfold_let r2
      rw [concatThinkingDeltas_startThinkingBlock]
    have ihc := ih c
    rw [hr2s, hr2b] at ihc
    rw [hst, hs, hm]
    simp only [concatTextDeltas_append, concatThinkingDeltas_append,
      hr1t, hr1k, hr2t, hr2k, ihc]
    simp [List.append_assoc]
  | case3 p hb hst oi hpk r1 p2 ih =>
    intro c
    have hoi : firstIdx p.buffer toolOpen = some oi := pickTag_some_false hpk
    have hle := firstIdx_le (by decide : toolOpen ≠ []) hoi
    have hm : processBuffer xmlParse p
        = ((processBuffer xmlParse p2).1,
           r1.2 ++ (processBuffer xmlParse p2).2) := by
      rw [processBuffer]
      simp only [dif_neg hb, hst, hpk]
      rfl
    have hs : specScan PState.normal (p.buffer ++ c)
        = (p.buffer.take oi
             ++ (specScan PState.inToolCall
                  (p.buffer.drop (oi + toolOpen.length) ++ c)).1,
           (specScan PState.inToolCall
             (p.buffer.drop (oi + toolOpen.length) ++ c)).2) := by
      rw [specScan, pickTag_append_some (c := c) hpk]
      simp only [take_append_of_le (show oi ≤ p.buffer.length by omega),
        drop_append_of_le hle]
    have hp2s : p2.state = PState.inToolCall := rfl
    have hp2b : p2.buffer = p.buffer.drop (oi + toolOpen.length) := rfl
    have hr1t : concatTextDeltas r1.2 = p.buffer.take oi := by
      unfold_let r1
      by_cases h0 : 0 < oi
      · rw [dif_pos h0, concatTextDeltas_emitTextDelta]
      · rw [dif_neg h0]
        have hoi0 : oi = 0 := by omega
        simp [hoi0, concatTextDeltas]
    have hr1k : concatThinkingDeltas r1.2 = [] := by
      unfold_let r1
      by_cases h0 : 0 < oi
      · rw [dif_pos h0, concatThinkingDeltas_emitTextDelta]
      · rw [dif_neg h0]
        simp [concatThinkingDeltas]
    have ihc := ih c
    rw [hp2s, hp2b] at ihc
    rw [hst, hs, hm]
    simp only [concatTextDeltas_append, concatThinkingDeltas_append,
      hr1t, hr1k, ihc]
    simp [List.append_assoc]
  | case4 p hb hst hpk hpart hlen =>
    intro c
    obtain ⟨htn, hon⟩ := pickTag_eq_none hpk
    have hm : processBuffer xmlParse p
        = ({ (emitTextDelta p (p.buffer.take (p.buffer.length - 15))).1 with
              buffer := p.buffer.drop (p.buffer.length - 15) },
           (emitTextDelta p (p.buffer.take (p.buffer.length - 15))).2) := by
      rw [processBuffer]
      simp only [dif_neg hb, hst, hpk]
      rw [if_pos hpart, if_pos hlen]
    rw [hst, specScan_normal_skip (n := p.buffer.length - 15) (by omega)
      (no_occ_of_none_window (by decide) htn)
      (no_occ_of_none_window (by decide) hon), hm]
    simp [concatTextDeltas_emitTextDelta, concatThinkingDeltas_emitTextDelta,
      emitTextDelta_state, hst]
  | case5 p hb hst hpk hpart hlen =>
    intro c
    have hm : processBuffer xmlParse p = (p, []) := by
      rw [processBuffer]
      simp only [dif_neg hb, hst, hpk]
      rw [if_pos hpart, if_neg hlen]
    rw [hm]
    simp [concatTextDeltas, concatThinkingDeltas]
  | case7 p hb hst ei he r1 r2 p3 ih =>
    intro c
    have hle := firstIdx_le (by decide : thinkClose ≠ []) he
    have hm : processBuffer xmlParse p
        = ((processBuffer xmlParse p3).1,
           r1.2 ++ r2.2 ++ (processBuffer xmlParse p3).2) := by
      rw [processBuffer]
      simp only [dif_neg hb, hst, he]
      try rfl
    have hs : specScan PState.inThinking (p.buffer ++ c)
        = ((specScan PState.normal
             (p.buffer.drop (ei + thinkClose.length) ++ c)).1,
           p.buffer.take ei
             ++ (specScan PState.normal
                  (p.buffer.drop (ei + thinkClose.length) ++ c)).2) := by
      conv_lhs => rw [specScan]
      rw [firstIdx_append_some (c := c) (by decide : thinkClose ≠ []) he]
      simp only [take_append_of_le (show ei ≤ p.buffer.length by omega),
        drop_append_of_le hle]
      try rfl
    have hp3s : p3.state = PState.normal := rfl
    have hp3b : p3.buffer = p.buffer.drop (ei + thinkClose.length) := rfl
    have hr1t : concatTextDeltas r1.2 = [] := by
      unfold_let r1
      rw [concatTextDeltas_emitThinkingDelta]
    have hr1k : concatThinkingDeltas r1.2 = p.buffer.take ei := by
      unfold_let r1
      rw [concatThinkingDeltas_emitThinkingDelta]
    have hr2t : concatTextDeltas r2.2 = [] := by
      unfold_let r2
      rw [concatTextDeltas_stopThinkingBlock]
    have hr2k : concatThinkingDeltas r2.2 = [] := by
      unfold_let r2
      rw [concatThinkingDeltas_stopThinkingBlock]
    have ihc := ih c
    rw [hp3s, hp3b] at ihc
    rw [hst, hs, hm]
    simp only [concatTextDeltas_append, concatThinkingDeltas_append,
      hr1t, hr1k, hr2t, hr2k, ihc]
    simp [List.append_assoc]
  | case8 p hb hst he hpart hlen =>
    intro c
    have hm : processBuffer xmlParse p
        = ({ (emitThinkingDelta p (p.buffer.take (p.buffer.length - 15))).1 with
              buffer := p.buffer.drop (p.buffer.length - 15) },
           (emitThinkingDelta p (p.buffer.take (p.buffer.length - 15))).2) := by
      rw [processBuffer]
      simp only [dif_neg hb, hst, he]
      rw [if_pos hpart, if_pos hlen]
    rw [hst, specScan_inThinking_skip (n := p.buffer.length - 15) (by omega)
      (no_occ_of_none_window (by decide) he), hm]
    simp [concatTextDeltas_emitThinkingDelta, concatThinkingDeltas_emitThinkingDelta,
      emitThinkingDelta_state, hst]
  | case9 p hb hst he hpart hlen =>
    intro c
    have hm : processBuffer xmlParse p = (p, []) := by
      rw [processBuffer]
      simp only [dif_neg hb, hst, he]
      rw [if_pos hpart, if_neg hlen]
    rw [hm]
    simp [concatTextDeltas, concatThinkingDeltas]
  | case10 p hb hst he hnp =>
    intro c
    rw [Bool.not_eq_true] at hnp
    have hm : processBuffer xmlParse p
        = ({ (emitThinkingDelta p p.buffer).1 with buffer := [] },
           (emitThinkingDelta p p.buffer).2) := by
      rw [processBuffer]
      simp only [dif_neg hb, hst, he, hnp, Bool.false_eq_true, if_false]
    rw [hst, specScan_inThinking_skip (n := p.buffer.length) le_rfl
      (no_occ_of_none_notPartial (by simp [pacoreTags]) he hnp), hm]
    simp [concatTextDeltas_emitThinkingDelta, concatThinkingDeltas_emitThinkingDelta,
      emitThinkingDelta_state, hst]
  | case11 p hb hst ei he fullXML r1 p2 ih =>
    intro c
    have hle := firstIdx_le (by decide : toolClose ≠ []) he
    have hm : processBuffer xmlParse p
        = ((processBuffer xmlParse p2).1,
           r1.2 ++ (processBuffer xmlParse p2).2) := by
      rw [processBuffer]
      simp only [dif_neg hb, hst, he]
      try rfl
    have hs : specScan PState.inToolCall (p.buffer ++ c)
        = specScan PState.normal (p.buffer.drop (ei + toolClose.length) ++ c) := by
      conv_lhs => rw [specScan]
      rw [firstIdx_append_some (c := c) (by decide : toolClose ≠ []) he]
      show specScan PState.normal ((p.buffer ++ c).drop (ei + toolClose.length))
        = specScan PState.normal (p.buffer.drop (ei + toolClose.length) ++ c)
      rw [drop_append_of_le hle]
    have hp2s : p2.state = PState.normal := rfl
    have hp2b : p2.buffer = p.buffer.drop (ei + toolClose.length) := rfl
    have hr1t : concatTextDeltas r1.2 = [] := by
      unfold_let r1
      cases hx : xmlParse fullXML with
      | some na => simp [concatTextDeltas_emitToolCall]
      | none => simp [concatTextDeltas]
    have hr1k : concatThinkingDeltas r1.2 = [] := by
      unfold_let r1
      cases hx : xmlParse fullXML with
      | some na => simp [concatThinkingDeltas_emitToolCall]
      | none => simp [concatThinkingDeltas]
    have ihc := ih c
    rw [hp2s, hp2b] at ihc
    rw [hst, hs, hm]
    simp only [concatTextDeltas_append, concatThinkingDeltas_append,
      hr1t, hr1k, ihc]
    simp [List.append_assoc]
  | case12 p hb hst he =>
    intro c
    have hm : processBuffer xmlParse p = (p, []) := by
      rw [processBuffer]
      simp only [dif_neg hb, hst, he]
    rw [hm]
    simp [concatTextDeltas, concatThinkingDeltas]

theorem handleFinish_state (p : Params) (r : Str) :
    (handleFinish p r).1.state = p.state := by
  unfold handleFinish
  dsimp only
  split <;> split <;>
    simp [stopTextBlock_state, stopThinkingBlock_state]

theorem handleFinish_buffer (p : Params) (r : Str) :
    (handleFinish p r).1.buffer = p.buffer := by
  unfold handleFinish
  dsimp only
  split <;> split <;>
    simp [stopTextBlock_buffer, stopThinkingBlock_buffer]

/-- A content chunk of the stream (OpenAI-shaped JSON with a
`choices.0.delta.content` string and no finish reason). -/
def contentChunk (c : Str) : Chunk := Chunk.json c []

/-- The run invariant tying the machine to the reference scan: after
consuming `u`, for every possible continuation `c` the reference scan of
`u ++ c` is what was already emitted plus the scan of the pending buffer
(from the current parser state) extended by `c`. -/
def ContentInv (p : Params) (evs : List Event) (u : Str) : Prop :=
  ∀ c : Str,
    specScan PState.normal (u ++ c)
      = (concatTextDeltas evs ++ (specScan p.state (p.buffer ++ c)).1,
         concatThinkingDeltas evs ++ (specScan p.state (p.buffer ++ c)).2)

theorem contentInv_init : ContentInv initParams [] [] := by
  intro c
  simp [initParams, concatTextDeltas, concatThinkingDeltas]

theorem contentInv_step (xmlParse : Str → Option (Str × Str)) (model : Str)
    (c0 : Str) (p : Params) (evs : List Event) (u : Str)
    (h : ContentInv p evs u) :
    ContentInv (stepChunk xmlParse model (p, evs) (contentChunk c0)).1
      (stepChunk xmlParse model (p, evs) (contentChunk c0)).2 (u ++ c0) := by
  intro c
  by_cases hms : p.messageStarted
  · by_cases hc0 : c0 = []
    · subst hc0
      simp only [stepChunk, PaCoReToClaudeResponse, contentChunk, chunkContentOf,
        finishReasonOf, hms, if_true, List.append_nil]
      simp only [concatTextDeltas_append, concatThinkingDeltas_append]
      simpa [concatTextDeltas, concatThinkingDeltas] using h c
    · simp only [stepChunk, PaCoReToClaudeResponse, contentChunk, chunkContentOf,
        finishReasonOf, hms, if_true, if_neg hc0]
      have hpb := processBuffer_specScan xmlParse
        { p with buffer := p.buffer ++ c0 } c
      dsimp only at hpb
      simp only [hms] at hpb
      rw [List.append_assoc p.buffer c0 c] at hpb
      have hmain := h (c0 ++ c)
      rw [hpb] at hmain
      rw [List.append_assoc u c0 c, hmain]
      simp [concatTextDeltas_append, concatThinkingDeltas_append,
        concatTextDeltas, concatThinkingDeltas, List.append_assoc]
  · by_cases hc0 : c0 = []
    · subst hc0
      simp only [stepChunk, PaCoReToClaudeResponse, contentChunk, chunkContentOf,
        finishReasonOf, hms, Bool.false_eq_true, if_false, List.append_nil]
      simp only [concatTextDeltas_append, concatThinkingDeltas_append]
      simpa [concatTextDeltas, concatThinkingDeltas] using h c
    · simp only [stepChunk, PaCoReToClaudeResponse, contentChunk, chunkContentOf,
        finishReasonOf, hms, Bool.false_eq_true, if_false, if_neg hc0]
      have hpb := processBuffer_specScan xmlParse
        { p with buffer := p.buffer ++ c0, messageStarted := true, model := model } c
      dsimp only at hpb
      rw [List.append_assoc p.buffer c0 c] at hpb
      have hmain := h (c0 ++ c)
      rw [hpb] at hmain
      rw [List.append_assoc u c0 c, hmain]
      simp [concatTextDeltas_append, concatThinkingDeltas_append,
        concatTextDeltas, concatThinkingDeltas, List.append_assoc]

theorem contentInv_fold (xmlParse : Str → Option (Str × Str)) (model : Str)
    (cs : List Str) (p : Params) (evs : List Event) (u : Str)
    (h : ContentInv p evs u) :
    ContentInv ((cs.map contentChunk).foldl (stepChunk xmlParse model) (p, evs)).1
      ((cs.map contentChunk).foldl (stepChunk xmlParse model) (p, evs)).2
      (u ++ cs.join) := by
  induction cs generalizing p evs u with
  | nil => simpa using h
  | cons c0 cs ih =>
    simp only [List.map_cons, List.foldl_cons, List.join_cons]
    have h1 := contentInv_step xmlParse model c0 p evs u h
    have h2 := ih (stepChunk xmlParse model (p, evs) (contentChunk c0)).1
      (stepChunk xmlParse model (p, evs) (contentChunk c0)).2 (u ++ c0) h1
    rw [List.append_assoc] at h2
    exact h2

theorem run_contentInv (xmlParse : Str → Option (Str × Str)) (model : Str)
    (cs : List Str) :
    ContentInv (runChunks xmlParse model (cs.map contentChunk)).1
      (runChunks xmlParse model (cs.map contentChunk)).2 cs.join := by
  have := contentInv_fold xmlParse model cs initParams [] [] contentInv_init
  simpa [runChunks] using this

theorem specScan_normal_nil : specScan PState.normal [] = ([], []) := by
  rw [specScan]
  rfl

theorem runChunks_snoc (xmlParse : Str → Option (Str × Str)) (model : Str)
    (l : List Chunk) (ch : Chunk) :
    runChunks xmlParse model (l ++ [ch])
      = stepChunk xmlParse model (runChunks xmlParse model l) ch := by
  simp [runChunks, List.foldl_append]

theorem PaCoRe_finish (xmlParse : Str → Option (Str × Str)) (model : Str)
    (r : Str) (p : Params) (hr : r ≠ []) :
    PaCoReToClaudeResponse xmlParse model (Chunk.json [] r) p
      = handleFinish
          (if p.messageStarted then p
           else { p with model := model, messageStarted := true }) r := by
  by_cases hms : p.messageStarted <;>
    simp [PaCoReToClaudeResponse, chunkContentOf, finishReasonOf, hms, hr]

/-- CLAIM C1 (corrected form).  Streaming transcoder content fidelity holds
for every stream whose content portion leaves the parser fully flushed: if
after feeding the content chunks the parser is back in `Normal` state with
an empty buffer, then — with the stream terminated by a finish chunk — the
concatenation of all `text_delta` payloads equals the input text lying
outside `<thinking>…</thinking>` and `<tool_call>…</tool_call>` regions,
and the concatenation of all `thinking_delta` payloads equals the text
inside the `<thinking>…</thinking>` regions.  (The unamended claim is
refuted by `pacore_stream_fidelity_cex`: bytes withheld in the buffer when
the finish chunk arrives are dropped.) -/
theorem pacore_stream_fidelity (xmlParse : Str → Option (Str × Str)) (model : Str)
    (cs : List Str) (r : Str) (hr : r ≠ [])
    (hnorm : (runChunks xmlParse model (cs.map contentChunk)).1.state
      = PState.normal)
    (hbuf : (runChunks xmlParse model (cs.map contentChunk)).1.buffer = []) :
    concatTextDeltas (runChunks xmlParse model
        (cs.map contentChunk ++ [Chunk.json [] r])).2 = specOutside cs.join
      ∧ concatThinkingDeltas (runChunks xmlParse model
        (cs.map contentChunk ++ [Chunk.json [] r])).2 = specThinking cs.join := by
  have h0 := run_contentInv xmlParse model cs []
  rw [hnorm, hbuf] at h0
  simp only [List.append_nil, specScan_normal_nil] at h0
  rw [runChunks_snoc]
  simp only [stepChunk, PaCoRe_finish xmlParse model r _ hr]
  simp only [concatTextDeltas_append, concatThinkingDeltas_append,
    concatTextDeltas_handleFinish, concatThinkingDeltas_handleFinish,
    List.append_nil]
  rw [specOutside, specThinking, h0]
  exact ⟨rfl, rfl⟩

/-- CLAIM C4 (corrected form).  Chunk-splitting invariance of delivered
content: for any two chunkings of the same input string whose runs both
leave the parser in `Normal` state with an empty buffer, the concatenated
`text_delta` payloads agree and the concatenated `thinking_delta` payloads
agree (both equal the reference split of the common input).  (The unamended
claim — identical event sequences — is refuted by
`pacore_chunking_invariance_cex`: chunk boundaries split deltas, and a
trailing withheld suffix can be flushed by one chunking and retained by the
other.) -/
theorem pacore_chunking_invariance (xmlParse : Str → Option (Str × Str))
    (model : Str) (cs1 cs2 : List Str) (hjoin : cs1.join = cs2.join)
    (h1n : (runChunks xmlParse model (cs1.map contentChunk)).1.state
      = PState.normal)
    (h1b : (runChunks xmlParse model (cs1.map contentChunk)).1.buffer = [])
    (h2n : (runChunks xmlParse model (cs2.map contentChunk)).1.state
      = PState.normal)
    (h2b : (runChunks xmlParse model (cs2.map contentChunk)).1.buffer = []) :
    concatTextDeltas (runChunks xmlParse model (cs1.map contentChunk)).2
        = concatTextDeltas (runChunks xmlParse model (cs2.map contentChunk)).2
      ∧ concatThinkingDeltas (runChunks xmlParse model (cs1.map contentChunk)).2
        = concatThinkingDeltas (runChunks xmlParse model (cs2.map contentChunk)).2 := by
  have e1 := run_contentInv xmlParse model cs1 []
  rw [h1n, h1b] at e1
  simp only [List.append_nil, specScan_normal_nil] at e1
  have e2 := run_contentInv xmlParse model cs2 []
  rw [h2n, h2b] at e2
  simp only [List.append_nil, specScan_normal_nil] at e2
  rw [hjoin] at e1
  rw [e1] at e2
  exact ⟨congrArg Prod.fst e2, congrArg Prod.snd e2⟩

theorem processBuffer_eq_empty (xmlParse : Str → Option (Str × Str)) (p : Params)
    (hb : p.buffer = []) : processBuffer xmlParse p = (p, []) := by
  rw [processBuffer]
  simp [hb]

theorem processBuffer_eq_wait (xmlParse : Str → Option (Str × Str)) (p : Params)
    (hb : ¬ p.buffer = []) (hst : p.state = PState.normal)
    (hpk : pickTag (firstIdx p.buffer thinkOpen) (firstIdx p.buffer toolOpen) = none)
    (hpart : isPartialTag p.buffer = true) (hlen : ¬ 15 < p.buffer.length) :
    processBuffer xmlParse p = (p, []) := by
  rw [processBuffer]
  simp only [dif_neg hb, hst, hpk]
  rw [if_pos hpart, if_neg hlen]

theorem processBuffer_eq_flushAll (xmlParse : Str → Option (Str × Str)) (p : Params)
    (hb : ¬ p.buffer = []) (hst : p.state = PState.normal)
    (hpk : pickTag (firstIdx p.buffer thinkOpen) (firstIdx p.buffer toolOpen) = none)
    (hnp : isPartialTag p.buffer = false) :
    processBuffer xmlParse p
      = ({ (emitTextDelta p p.buffer).1 with buffer := [] },
         (emitTextDelta p p.buffer).2) := by
  rw [processBuffer]
  simp only [dif_neg hb, hst, hpk, hnp, Bool.false_eq_true, if_false]

theorem processBuffer_eq_think (xmlParse : Str → Option (Str × Str)) (p : Params)
    (ti : Nat) (hb : ¬ p.buffer = []) (hst : p.state = PState.normal)
    (hpk : pickTag (firstIdx p.buffer thinkOpen) (firstIdx p.buffer toolOpen)
      = some (ti, true)) :
    processBuffer xmlParse p
      = (let r1 := if 0 < ti then emitTextDelta p (p.buffer.take ti) else (p, [])
         let r2 := startThinkingBlock { r1.1 with
           state := PState.inThinking
           buffer := p.buffer.drop (ti + thinkOpen.length) }
         let r3 := processBuffer xmlParse r2.1
         (r3.1, r1.2 ++ r2.2 ++ r3.2)) := by
  rw [processBuffer]
  simp only [dif_neg hb, hst, hpk]

theorem processBuffer_eq_tool (xmlParse : Str → Option (Str × Str)) (p : Params)
    (oi : Nat) (hb : ¬ p.buffer = []) (hst : p.state = PState.normal)
    (hpk : pickTag (firstIdx p.buffer thinkOpen) (firstIdx p.buffer toolOpen)
      = some (oi, false)) :
    processBuffer xmlParse p
      = (let r1 := if 0 < oi then emitTextDelta p (p.buffer.take oi) else (p, [])
         let r2 := processBuffer xmlParse { r1.1 with
           state := PState.inToolCall
           buffer := p.buffer.drop (oi + toolOpen.length) }
         (r2.1, r1.2 ++ r2.2)) := by
  rw [processBuffer]
  simp only [dif_neg hb, hst, hpk]

theorem processBuffer_eq_thinkClose (xmlParse : Str → Option (Str × Str))
    (p : Params) (ei : Nat) (hb : ¬ p.buffer = [])
    (hst : p.state = PState.inThinking)
    (he : firstIdx p.buffer thinkClose = some ei) :
    processBuffer xmlParse p
      = (let r1 := emitThinkingDelta p (p.buffer.take ei)
         let r2 := stopThinkingBlock r1.1
         let r3 := processBuffer xmlParse { r2.1 with
           state := PState.normal
           buffer := p.buffer.drop (ei + thinkClose.length) }
         (r3.1, r1.2 ++ r2.2 ++ r3.2)) := by
  rw [processBuffer]
  simp only [dif_neg hb, hst, he]

theorem processBuffer_eq_thinkWait (xmlParse : Str → Option (Str × Str))
    (p : Params) (hb : ¬ p.buffer = []) (hst : p.state = PState.inThinking)
    (he : firstIdx p.buffer thinkClose = none)
    (hpart : isPartialTag p.buffer = true) (hlen : ¬ 15 < p.buffer.length) :
    processBuffer xmlParse p = (p, []) := by
  rw [processBuffer]
  simp only [dif_neg hb, hst, he]
  rw [if_pos hpart, if_neg hlen]

theorem processBuffer_eq_thinkFlushAll (xmlParse : Str → Option (Str × Str))
    (p : Params) (hb : ¬ p.buffer = []) (hst : p.state = PState.inThinking)
    (he : firstIdx p.buffer thinkClose = none)
    (hnp : isPartialTag p.buffer = false) :
    processBuffer xmlParse p
      = ({ (emitThinkingDelta p p.buffer).1 with buffer := [] },
         (emitThinkingDelta p p.buffer).2) := by
  rw [processBuffer]
  simp only [dif_neg hb, hst, he, hnp, Bool.false_eq_true, if_false]

theorem processBuffer_eq_toolClose (xmlParse : Str → Option (Str × Str))
    (p : Params) (ei : Nat) (hb : ¬ p.buffer = [])
    (hst : p.state = PState.inToolCall)
    (he : firstIdx p.buffer toolClose = some ei) :
    processBuffer xmlParse p
      = (let r1 :=
           match xmlParse (toolOpen ++ p.buffer.take ei ++ toolClose) with
           | some na => emitToolCall p na.1 na.2
           | none => (p, [])
         let r2 := processBuffer xmlParse { r1.1 with
           state := PState.normal
           buffer := p.buffer.drop (ei + toolClose.length) }
         (r2.1, r1.2 ++ r2.2)) := by
  rw [processBuffer]
  simp only [dif_neg hb, hst, he]

theorem processBuffer_eq_toolWait (xmlParse : Str → Option (Str × Str))
    (p : Params) (hb : ¬ p.buffer = []) (hst : p.state = PState.inToolCall)
    (he : firstIdx p.buffer toolClose = none) :
    processBuffer xmlParse p = (p, []) := by
  rw [processBuffer]
  simp only [dif_neg hb, hst, he]

/-- CLAIM C1 counterexample (refuting the unamended claim): the stream
`{"…content":"hello<"}` followed by a finish chunk emits no `text_delta` at
all — the trailing `<` makes `isPartialTag` withhold the whole 6-byte
buffer, and `handleFinish` drops the buffered text — although the whole
input `"hello<"` lies outside every tag region. -/
theorem pacore_stream_fidelity_cex :
    concatTextDeltas (runChunks xmlParseNone "m".toList
        [contentChunk "hello<".toList, Chunk.json [] "stop".toList]).2
      ≠ specOutside "hello<".toList := by
  have h1 : runChunks xmlParseNone "m".toList [contentChunk "hello<".toList]
      = ({ state := PState.normal, buffer := "hello<".toList,
           messageStarted := true, model := "m".toList,
           nextContentBlockIndex := 0, textContentBlockIndex := -1,
           thinkingContentBlockIndex := -1, textContentBlockStarted := false,
           thinkingContentBlockStarted := false },
         [Event.messageStart "m".toList]) := by
    show stepChunk xmlParseNone "m".toList (initParams, [])
      (contentChunk "hello<".toList) = _
    simp [stepChunk, PaCoReToClaudeResponse, contentChunk, chunkContentOf,
      finishReasonOf, initParams]
    rw [processBuffer_eq_wait xmlParseNone _ (by decide) (by rfl) (by rfl)
      (by rfl) (by decide)]
    exact ⟨by decide, rfl⟩
  have h2 : runChunks xmlParseNone "m".toList
      [contentChunk "hello<".toList, Chunk.json [] "stop".toList]
      = stepChunk xmlParseNone "m".toList
          (runChunks xmlParseNone "m".toList [contentChunk "hello<".toList])
          (Chunk.json [] "stop".toList) := by
    rw [show [contentChunk "hello<".toList, Chunk.json [] "stop".toList]
        = [contentChunk "hello<".toList] ++ [Chunk.json [] "stop".toList]
      from rfl, runChunks_snoc]
  have h3 : specOutside "hello<".toList = "hello<".toList := by
    rw [specOutside, specScan]
    rfl
  rw [h2, h1, h3]
  decide

/-- Witness for `pacore_stream_fidelity`: a concrete stream with text,
a split-free thinking region and trailing text, fully flushed before the
finish chunk. -/
theorem pacore_stream_fidelity_witness :
    ("stop".toList ≠ ([] : Str)
      ∧ (runChunks xmlParseNone "m".toList
          (["ab<thinking>cd</thinking>e".toList].map contentChunk)).1.state
          = PState.normal
      ∧ (runChunks xmlParseNone "m".toList
          (["ab<thinking>cd</thinking>e".toList].map contentChunk)).1.buffer
          = [])
    ∧ (concatTextDeltas (runChunks xmlParseNone "m".toList
          (["ab<thinking>cd</thinking>e".toList].map contentChunk
            ++ [Chunk.json [] "stop".toList])).2
        = specOutside ([ "ab<thinking>cd</thinking>e".toList ] : List Str).join
      ∧ concatThinkingDeltas (runChunks xmlParseNone "m".toList
          (["ab<thinking>cd</thinking>e".toList].map contentChunk
            ++ [Chunk.json [] "stop".toList])).2
        = specThinking ([ "ab<thinking>cd</thinking>e".toList ] : List Str).join) := by
  have hrun : runChunks xmlParseNone "m".toList
      (["ab<thinking>cd</thinking>e".toList].map contentChunk)
      = ({ state := PState.normal, buffer := [], messageStarted := true,
           model := "m".toList, nextContentBlockIndex := 3,
           textContentBlockIndex := 2, thinkingContentBlockIndex := -1,
           textContentBlockStarted := true,
           thinkingContentBlockStarted := false },
         [Event.messageStart "m".toList, Event.blockStartText 0,
          Event.deltaText 0 "ab".toList, Event.blockStop 0,
          Event.blockStartThinking 1, Event.deltaThinking 1 "cd".toList,
          Event.blockStop 1, Event.blockStartText 2,
          Event.deltaText 2 "e".toList]) := by
    show stepChunk xmlParseNone "m".toList (initParams, [])
      (contentChunk "ab<thinking>cd</thinking>e".toList) = _
    simp [stepChunk, PaCoReToClaudeResponse, contentChunk, chunkContentOf,
      finishReasonOf, initParams]
    rw [processBuffer_eq_think xmlParseNone _ 2 (by decide) (by rfl) (by rfl)]
    simp [emitTextDelta, startThinkingBlock, stopTextBlock, thinkOpen]
    rw [processBuffer_eq_thinkClose xmlParseNone _ 2 (by decide) (by rfl)
      (by rfl)]
    simp [emitThinkingDelta, stopThinkingBlock, thinkClose]
    rw [processBuffer_eq_flushAll xmlParseNone _ (by decide) (by rfl) (by rfl)
      (by rfl)]
    simp [emitTextDelta]
  have h1 : (runChunks xmlParseNone "m".toList
      (["ab<thinking>cd</thinking>e".toList].map contentChunk)).1.state
      = PState.normal := by
    rw [hrun]
  have h2 : (runChunks xmlParseNone "m".toList
      (["ab<thinking>cd</thinking>e".toList].map contentChunk)).1.buffer
      = [] := by
    rw [hrun]
  exact ⟨⟨by decide, h1, h2⟩,
    pacore_stream_fidelity xmlParseNone "m".toList
      ["ab<thinking>cd</thinking>e".toList] "stop".toList (by decide) h1 h2⟩

/-- CLAIM C4 counterexample (refuting the unamended claim): (i) the same
input `"ab"` fed as one chunk or as two produces different event sequences
(one `text_delta` versus two); (ii) even the concatenated `text_delta`
content differs between chunkings when a trailing potential-partial-tag
suffix is involved: `"a<"` as one chunk withholds everything, while
`"a" , "<"` first flushes `"a"`. -/
theorem pacore_chunking_invariance_cex :
    (runChunks xmlParseNone "m".toList [contentChunk "ab".toList]).2
        ≠ (runChunks xmlParseNone "m".toList
            [contentChunk "a".toList, contentChunk "b".toList]).2
      ∧ concatTextDeltas
          (runChunks xmlParseNone "m".toList [contentChunk "a<".toList]).2
        ≠ concatTextDeltas (runChunks xmlParseNone "m".toList
            [contentChunk "a".toList, contentChunk "<".toList]).2 := by
  have hA : runChunks xmlParseNone "m".toList [contentChunk "ab".toList]
      = ({ state := PState.normal, buffer := [], messageStarted := true,
           model := "m".toList, nextContentBlockIndex := 1,
           textContentBlockIndex := 0, thinkingContentBlockIndex := -1,
           textContentBlockStarted := true,
           thinkingContentBlockStarted := false },
         [Event.messageStart "m".toList, Event.blockStartText 0,
          Event.deltaText 0 "ab".toList]) := by
    show stepChunk xmlParseNone "m".toList (initParams, [])
      (contentChunk "ab".toList) = _
    simp [stepChunk, PaCoReToClaudeResponse, contentChunk, chunkContentOf,
      finishReasonOf, initParams]
    rw [processBuffer_eq_flushAll xmlParseNone _ (by decide) (by rfl) (by rfl)
      (by rfl)]
    simp [emitTextDelta]
  have hB1 : runChunks xmlParseNone "m".toList [contentChunk "a".toList]
      = ({ state := PState.normal, buffer := [], messageStarted := true,
           model := "m".toList, nextContentBlockIndex := 1,
           textContentBlockIndex := 0, thinkingContentBlockIndex := -1,
           textContentBlockStarted := true,
           thinkingContentBlockStarted := false },
         [Event.messageStart "m".toList, Event.blockStartText 0,
          Event.deltaText 0 "a".toList]) := by
    show stepChunk xmlParseNone "m".toList (initParams, [])
      (contentChunk "a".toList) = _
    simp [stepChunk, PaCoReToClaudeResponse, contentChunk, chunkContentOf,
      finishReasonOf, initParams]
    rw [processBuffer_eq_flushAll xmlParseNone _ (by decide) (by rfl) (by rfl)
      (by rfl)]
    simp [emitTextDelta]
  have hB : runChunks xmlParseNone "m".toList
      [contentChunk "a".toList, contentChunk "b".toList]
      = ({ state := PState.normal, buffer := [], messageStarted := true,
           model := "m".toList, nextContentBlockIndex := 1,
           textContentBlockIndex := 0, thinkingContentBlockIndex := -1,
           textContentBlockStarted := true,
           thinkingContentBlockStarted := false },
         [Event.messageStart "m".toList, Event.blockStartText 0,
          Event.deltaText 0 "a".toList, Event.deltaText 0 "b".toList]) := by
    rw [show [contentChunk "a".toList, contentChunk "b".toList]
        = [contentChunk "a".toList] ++ [contentChunk "b".toList] from rfl,
      runChunks_snoc, hB1]
    simp [stepChunk, PaCoReToClaudeResponse, contentChunk, chunkContentOf,
      finishReasonOf]
    rw [processBuffer_eq_flushAll xmlParseNone _ (by decide) (by rfl) (by rfl)
      (by rfl)]
    simp [emitTextDelta]
  have hA2 : runChunks xmlParseNone "m".toList [contentChunk "a<".toList]
      = ({ state := PState.normal, buffer := "a<".toList,
           messageStarted := true, model := "m".toList,
           nextContentBlockIndex := 0, textContentBlockIndex := -1,
           thinkingContentBlockIndex := -1, textContentBlockStarted := false,
           thinkingContentBlockStarted := false },
         [Event.messageStart "m".toList]) := by
    show stepChunk xmlParseNone "m".toList (initParams, [])
      (contentChunk "a<".toList) = _
    simp [stepChunk, PaCoReToClaudeResponse, contentChunk, chunkContentOf,
      finishReasonOf, initParams]
    rw [processBuffer_eq_wait xmlParseNone _ (by decide) (by rfl) (by rfl)
      (by rfl) (by decide)]
    exact ⟨by decide, rfl⟩
  have hB2 : runChunks xmlParseNone "m".toList
      [contentChunk "a".toList, contentChunk "<".toList]
      = ({ state := PState.normal, buffer := "<".toList,
           messageStarted := true, model := "m".toList,
           nextContentBlockIndex := 1, textContentBlockIndex := 0,
           thinkingContentBlockIndex := -1, textContentBlockStarted := true,
           thinkingContentBlockStarted := false },
         [Event.messageStart "m".toList, Event.blockStartText 0,
          Event.deltaText 0 "a".toList]) := by
    rw [show [contentChunk "a".toList, contentChunk "<".toList]
        = [contentChunk "a".toList] ++ [contentChunk "<".toList] from rfl,
      runChunks_snoc, hB1]
    simp [stepChunk, PaCoReToClaudeResponse, contentChunk, chunkContentOf,
      finishReasonOf]
    rw [processBuffer_eq_wait xmlParseNone _ (by decide) (by rfl) (by rfl)
      (by rfl) (by decide)]
    exact ⟨by decide, rfl⟩
  constructor
  · rw [hA, hB]
    decide
  · rw [hA2, hB2]
    decide

/-- Witness for `pacore_chunking_invariance`: `"ab"` delivered as one chunk
or as two, both runs ending fully flushed. -/
theorem pacore_chunking_invariance_witness :
    (("ab".toList :: []).join = ("a".toList :: "b".toList :: []).join
      ∧ (runChunks xmlParseNone "m".toList
          (["ab".toList].map contentChunk)).1.state = PState.normal
      ∧ (runChunks xmlParseNone "m".toList
          (["ab".toList].map contentChunk)).1.buffer = []
      ∧ (runChunks xmlParseNone "m".toList
          (["a".toList, "b".toList].map contentChunk)).1.state = PState.normal
      ∧ (runChunks xmlParseNone "m".toList
          (["a".toList, "b".toList].map contentChunk)).1.buffer = [])
    ∧ (concatTextDeltas (runChunks xmlParseNone "m".toList
          (["ab".toList].map contentChunk)).2
        = concatTextDeltas (runChunks xmlParseNone "m".toList
            (["a".toList, "b".toList].map contentChunk)).2
      ∧ concatThinkingDeltas (runChunks xmlParseNone "m".toList
          (["ab".toList].map contentChunk)).2
        = concatThinkingDeltas (runChunks xmlParseNone "m".toList
            (["a".toList, "b".toList].map contentChunk)).2) := by
  have hA : runChunks xmlParseNone "m".toList (["ab".toList].map contentChunk)
      = ({ state := PState.normal, buffer := [], messageStarted := true,
           model := "m".toList, nextContentBlockIndex := 1,
           textContentBlockIndex := 0, thinkingContentBlockIndex := -1,
           textContentBlockStarted := true,
           thinkingContentBlockStarted := false },
         [Event.messageStart "m".toList, Event.blockStartText 0,
          Event.deltaText 0 "ab".toList]) := by
    show stepChunk xmlParseNone "m".toList (initParams, [])
      (contentChunk "ab".toList) = _
    simp [stepChunk, PaCoReToClaudeResponse, contentChunk, chunkContentOf,
      finishReasonOf, initParams]
    rw [processBuffer_eq_flushAll xmlParseNone _ (by decide) (by rfl) (by rfl)
      (by rfl)]
    simp [emitTextDelta]
  have hB1 : runChunks xmlParseNone "m".toList [contentChunk "a".toList]
      = ({ state := PState.normal, buffer := [], messageStarted := true,
           model := "m".toList, nextContentBlockIndex := 1,
           textContentBlockIndex := 0, thinkingContentBlockIndex := -1,
           textContentBlockStarted := true,
           thinkingContentBlockStarted := false },
         [Event.messageStart "m".toList, Event.blockStartText 0,
          Event.deltaText 0 "a".toList]) := by
    show stepChunk xmlParseNone "m".toList (initParams, [])
      (contentChunk "a".toList) = _
    simp [stepChunk, PaCoReToClaudeResponse, contentChunk, chunkContentOf,
      finishReasonOf, initParams]
    rw [processBuffer_eq_flushAll xmlParseNone _ (by decide) (by rfl) (by rfl)
      (by rfl)]
    simp [emitTextDelta]
  have hB : runChunks xmlParseNone "m".toList
      (["a".toList, "b".toList].map contentChunk)
      = ({ state := PState.normal, buffer := [], messageStarted := true,
           model := "m".toList, nextContentBlockIndex := 1,
           textContentBlockIndex := 0, thinkingContentBlockIndex := -1,
           textContentBlockStarted := true,
           thinkingContentBlockStarted := false },
         [Event.messageStart "m".toList, Event.blockStartText 0,
          Event.deltaText 0 "a".toList, Event.deltaText 0 "b".toList]) := by
    show runChunks xmlParseNone "m".toList
      [contentChunk "a".toList, contentChunk "b".toList] = _
    rw [show [contentChunk "a".toList, contentChunk "b".toList]
        = [contentChunk "a".toList] ++ [contentChunk "b".toList] from rfl,
      runChunks_snoc, hB1]
    simp [stepChunk, PaCoReToClaudeResponse, contentChunk, chunkContentOf,
      finishReasonOf]
    rw [processBuffer_eq_flushAll xmlParseNone _ (by decide) (by rfl) (by rfl)
      (by rfl)]
    simp [emitTextDelta]
  have h1 : (runChunks xmlParseNone "m".toList
      (["ab".toList].map contentChunk)).1.state = PState.normal := by rw [hA]
  have h2 : (runChunks xmlParseNone "m".toList
      (["ab".toList].map contentChunk)).1.buffer = [] := by rw [hA]
  have h3 : (runChunks xmlParseNone "m".toList
      (["a".toList, "b".toList].map contentChunk)).1.state = PState.normal := by
    rw [hB]
  have h4 : (runChunks xmlParseNone "m".toList
      (["a".toList, "b".toList].map contentChunk)).1.buffer = [] := by rw [hB]
  exact ⟨⟨by decide, h1, h2, h3, h4⟩,
    pacore_chunking_invariance xmlParseNone "m".toList
      ["ab".toList] ["a".toList, "b".toList] (by decide) h1 h2 h3 h4⟩

/-- CLAIM C5 (amended): a chunk that is valid JSON but carries neither a
`choices.0.delta.content` string nor a non-empty `choices.0.finish_reason`
is a no-op — no events, state unchanged — PROVIDED `message_start` has
already been emitted for this stream (`p.messageStarted = true`).  (The
original claim, with no proviso, is refuted by
`pacore_contentless_noop_cex`: on the very first chunk the Go code emits
`message_start` and flips `MessageStarted` before ever looking at the
content.) -/
theorem pacore_contentless_noop (xmlParse : Str → Option (Str × Str))
    (model : Str) (p : Params) (hms : p.messageStarted = true) :
    PaCoReToClaudeResponse xmlParse model (Chunk.json [] []) p = (p, []) := by
  simp [PaCoReToClaudeResponse, chunkContentOf, finishReasonOf, hms]

/-- CLAIM C5 counterexample (refuting the unamended claim): fed as the first
chunk of a stream, a contentless finish-less JSON chunk emits a
`message_start` event and changes the transcoder state. -/
theorem pacore_contentless_noop_cex :
    (PaCoReToClaudeResponse xmlParseNone "m".toList (Chunk.json [] [])
        initParams).2 ≠ []
      ∧ (PaCoReToClaudeResponse xmlParseNone "m".toList (Chunk.json [] [])
          initParams).1 ≠ initParams := by
  constructor
  · decide
  · decide

/-- Witness for `pacore_contentless_noop` at a concrete started state. -/
theorem pacore_contentless_noop_witness :
    ({ initParams with messageStarted := true } : Params).messageStarted = true
      ∧ PaCoReToClaudeResponse xmlParseNone "m".toList (Chunk.json [] [])
          { initParams with messageStarted := true }
        = ({ initParams with messageStarted := true }, []) :=
  ⟨rfl, pacore_contentless_noop xmlParseNone "m".toList
    { initParams with messageStarted := true } rfl⟩

/-- Message-lifecycle events (`message_start` / `message_stop`). -/
def isMsgEvent : Event → Bool
  | Event.messageStart _ => true
  | Event.messageStop => true
  | _ => false

/-- An event list containing no `message_start` and no `message_stop`. -/
def NoMsg (evs : List Event) : Prop := ∀ e ∈ evs, isMsgEvent e = false

theorem noMsg_nil : NoMsg [] := by
  intro e he
  cases he

theorem noMsg_append {a b : List Event} (ha : NoMsg a) (hb : NoMsg b) :
    NoMsg (a ++ b) := by
  intro e he
  rcases List.mem_append.mp he with h | h
  · exact ha e h
  · exact hb e h

theorem noMsg_no_start {E : List Event} (h : NoMsg E) (m : Str) :
    Event.messageStart m ∉ E := by
  intro hm
  have := h _ hm
  simp [isMsgEvent] at this

theorem noMsg_no_stop {E : List Event} (h : NoMsg E) :
    Event.messageStop ∉ E := by
  intro hm
  have := h _ hm
  simp [isMsgEvent] at this

theorem emitTextDelta_ms (p : Params) (t : Str) :
    (emitTextDelta p t).1.messageStarted = p.messageStarted := by
  unfold emitTextDelta
  split
  · rfl
  · dsimp only
    split
    · rfl
    · split <;> rfl

theorem stopTextBlock_ms (p : Params) :
    (stopTextBlock p).1.messageStarted = p.messageStarted := by
  unfold stopTextBlock
  split <;> rfl

theorem stopThinkingBlock_ms (p : Params) :
    (stopThinkingBlock p).1.messageStarted = p.messageStarted := by
  unfold stopThinkingBlock
  split <;> rfl

theorem startThinkingBlock_ms (p : Params) :
    (startThinkingBlock p).1.messageStarted = p.messageStarted := by
  unfold startThinkingBlock
  dsimp only
  split
  · split <;> simp [stopTextBlock_ms]
  · split <;> rfl

theorem emitThinkingDelta_ms (p : Params) (t : Str) :
    (emitThinkingDelta p t).1.messageStarted = p.messageStarted := by
  unfold emitThinkingDelta
  split
  · rfl
  · dsimp only
    split
    · rfl
    · simp [startThinkingBlock_ms]

theorem emitToolCall_ms (p : Params) (n a : Str) :
    (emitToolCall p n a).1.messageStarted = p.messageStarted := by
  unfold emitToolCall
  dsimp only
  split <;> split <;>
    simp [stopTextBlock_ms, stopThinkingBlock_ms]

theorem noMsg_emitTextDelta (p : Params) (t : Str) :
    NoMsg (emitTextDelta p t).2 := by
  unfold emitTextDelta
  split
  · exact noMsg_nil
  · dsimp only
    intro e he
    split at he <;> simp at he <;>
      rcases he with rfl | rfl <;> rfl

theorem noMsg_stopTextBlock (p : Params) : NoMsg (stopTextBlock p).2 := by
  unfold stopTextBlock
  split
  · intro e he
    simp at he
    subst he
    rfl
  · exact noMsg_nil

theorem noMsg_stopThinkingBlock (p : Params) : NoMsg (stopThinkingBlock p).2 := by
  unfold stopThinkingBlock
  split
  · intro e he
    simp at he
    subst he
    rfl
  · exact noMsg_nil

theorem noMsg_startThinkingBlock (p : Params) : NoMsg (startThinkingBlock p).2 := by
  unfold startThinkingBlock
  dsimp only
  refine noMsg_append ?_ ?_
  · split
    · exact noMsg_stopTextBlock p
    · exact noMsg_nil
  · intro e he
    simp at he
    subst he
    rfl

theorem noMsg_emitThinkingDelta (p : Params) (t : Str) :
    NoMsg (emitThinkingDelta p t).2 := by
  unfold emitThinkingDelta
  split
  · exact noMsg_nil
  · dsimp only
    refine noMsg_append ?_ ?_
    · split
      · exact noMsg_nil
      · exact noMsg_startThinkingBlock p
    · intro e he
      simp at he
      subst he
      rfl

theorem noMsg_emitToolCall (p : Params) (n a : Str) :
    NoMsg (emitToolCall p n a).2 := by
  unfold emitToolCall
  dsimp only
  refine noMsg_append (noMsg_append ?_ ?_) ?_
  · split
    · exact noMsg_stopTextBlock p
    · exact noMsg_nil
  · split <;> split <;>
      first
        | exact noMsg_stopThinkingBlock _
        | exact noMsg_nil
  · intro e he
    simp at he
    rcases he with rfl | rfl | rfl <;> rfl

theorem handleFinish_ms (p : Params) (r : Str) :
    (handleFinish p r).1.messageStarted = p.messageStarted := by
  unfold handleFinish
  dsimp only
  split <;> split <;>
    simp [stopTextBlock_ms, stopThinkingBlock_ms]

/-- `handleFinish` first closes any open blocks, so its event slice is a
message-event-free prefix followed by exactly `message_delta` and
`message_stop`. -/
theorem handleFinish_decomp (p : Params) (r : Str) :
    ∃ F sr, (handleFinish p r).2 = F ++ [Event.messageDelta sr, Event.messageStop]
      ∧ NoMsg F := by
  unfold handleFinish
  dsimp only
  refine ⟨_, _, rfl, noMsg_append ?_ ?_⟩
  · split
    · exact noMsg_stopThinkingBlock p
    · exact noMsg_nil
  · split <;> split <;>
      first
        | exact noMsg_stopTextBlock _
        | exact noMsg_nil

/-- After `handleFinish` both content blocks are closed. -/
theorem handleFinish_closed (p : Params) (r : Str) :
    (handleFinish p r).1.textContentBlockStarted = false
      ∧ (handleFinish p r).1.thinkingContentBlockStarted = false := by
  unfold handleFinish stopThinkingBlock stopTextBlock
  by_cases h1 : p.thinkingContentBlockStarted <;>
    by_cases h2 : p.textContentBlockStarted <;>
      simp [h1, h2]

/-- `processBuffer` never emits message-lifecycle events and never changes
`MessageStarted`. -/
theorem processBuffer_msg (xmlParse : Str → Option (Str × Str)) (p : Params) :
    (processBuffer xmlParse p).1.messageStarted = p.messageStarted
      ∧ NoMsg (processBuffer xmlParse p).2 := by
  induction p using processBuffer.induct with
  | xmlParse a => exact xmlParse a
  | case1 p hb =>
    rw [processBuffer]
    simp only [dif_pos hb]
    refine ⟨?_, noMsg_nil⟩
    trivial
  | case2 p hb hst ti hpk r1 p2 r2 ih =>
    have hm : processBuffer xmlParse p
        = ((processBuffer xmlParse r2.1).1,
           r1.2 ++ r2.2 ++ (processBuffer xmlParse r2.1).2) := by
      rw [processBuffer]
      simp only [dif_neg hb, hst, hpk]
      rfl
    have h0 : r1.1.messageStarted = p.messageStarted := by
      unfold_let r1
      by_cases h : 0 < ti
      · rw [dif_pos h]
        exact emitTextDelta_ms p _
      · rw [dif_neg h]
    have hn1 : NoMsg r1.2 := by
      unfold_let r1
      by_cases h : 0 < ti
      · rw [dif_pos h]
        exact noMsg_emitTextDelta p _
      · rw [dif_neg h]
        exact noMsg_nil
    have h2 : r2.1.messageStarted = p2.messageStarted := by
      unfold_let r2
      exact startThinkingBlock_ms p2
    have hn2 : NoMsg r2.2 := by
      unfold_let r2
      exact noMsg_startThinkingBlock p2
    rw [hm]
    constructor
    · rw [ih.1, h2]
      exact h0
    · exact noMsg_append (noMsg_append hn1 hn2) ih.2
  | case3 p hb hst oi hpk r1 p2 ih =>
    have hm : processBuffer xmlParse p
        = ((processBuffer xmlParse p2).1,
           r1.2 ++ (processBuffer xmlParse p2).2) := by
      rw [processBuffer]
      simp only [dif_neg hb, hst, hpk]
      rfl
    have h0 : r1.1.messageStarted = p.messageStarted := by
      unfold_let r1
      by_cases h : 0 < oi
      · rw [dif_pos h]
        exact emitTextDelta_ms p _
      · rw [dif_neg h]
    have hn1 : NoMsg r1.2 := by
      unfold_let r1
      by_cases h : 0 < oi
      · rw [dif_pos h]
        exact noMsg_emitTextDelta p _
      · rw [dif_neg h]
        exact noMsg_nil
    rw [hm]
    constructor
    · rw [ih.1]
      exact h0
    · exact noMsg_append hn1 ih.2
  | case4 p hb hst hpk hpart hlen =>
    have hm : processBuffer xmlParse p
        = ({ (emitTextDelta p (p.buffer.take (p.buffer.length - 15))).1 with
              buffer := p.buffer.drop (p.buffer.length - 15) },
           (emitTextDelta p (p.buffer.take (p.buffer.length - 15))).2) := by
      rw [processBuffer]
      simp only [dif_neg hb, hst, hpk]
      rw [if_pos hpart, if_pos hlen]
    rw [hm]
    exact ⟨emitTextDelta_ms p _, noMsg_emitTextDelta p _⟩
  | case5 p hb hst hpk hpart hlen =>
    have hm : processBuffer xmlParse p = (p, []) := by
      rw [processBuffer]
      simp only [dif_neg hb, hst, hpk]
      rw [if_pos hpart, if_neg hlen]
    rw [hm]
    exact ⟨rfl, noMsg_nil⟩
  | case6 p hb hst hpk hnp =>
    rw [Bool.not_eq_true] at hnp
    have hm : processBuffer xmlParse p
        = ({ (emitTextDelta p p.buffer).1 with buffer := [] },
           (emitTextDelta p p.buffer).2) := by
      rw [processBuffer]
      simp only [dif_neg hb, hst, hpk, hnp, Bool.false_eq_true, if_false]
    rw [hm]
    exact ⟨emitTextDelta_ms p _, noMsg_emitTextDelta p _⟩
  | case7 p hb hst ei he r1 r2 p3 ih =>
    have hm : processBuffer xmlParse p
        = ((processBuffer xmlParse p3).1,
           r1.2 ++ r2.2 ++ (processBuffer xmlParse p3).2) := by
      rw [processBuffer]
      simp only [dif_neg hb, hst, he]
      try rfl
    have h0 : r1.1.messageStarted = p.messageStarted := by
      unfold_let r1
      exact emitThinkingDelta_ms p _
    have hn1 : NoMsg r1.2 := by
      unfold_let r1
      exact noMsg_emitThinkingDelta p _
    have h2 : r2.1.messageStarted = r1.1.messageStarted := by
      unfold_let r2
      exact stopThinkingBlock_ms r1.1
    have hn2 : NoMsg r2.2 := by
      unfold_let r2
      exact noMsg_stopThinkingBlock r1.1
    rw [hm]
    constructor
    · rw [ih.1]
      show r2.1.messageStarted = p.messageStarted
      rw [h2, h0]
    · exact noMsg_append (noMsg_append hn1 hn2) ih.2
  | case8 p hb hst he hpart hlen =>
    have hm : processBuffer xmlParse p
        = ({ (emitThinkingDelta p (p.buffer.take (p.buffer.length - 15))).1 with
              buffer := p.buffer.drop (p.buffer.length - 15) },
           (emitThinkingDelta p (p.buffer.take (p.buffer.length - 15))).2) := by
      rw [processBuffer]
      simp only [dif_neg hb, hst, he]
      rw [if_pos hpart, if_pos hlen]
    rw [hm]
    exact ⟨emitThinkingDelta_ms p _, noMsg_emitThinkingDelta p _⟩
  | case9 p hb hst he hpart hlen =>
    have hm : processBuffer xmlParse p = (p, []) := by
      rw [processBuffer]
      simp only [dif_neg hb, hst, he]
      rw [if_pos hpart, if_neg hlen]
    rw [hm]
    exact ⟨rfl, noMsg_nil⟩
  | case10 p hb hst he hnp =>
    rw [Bool.not_eq_true] at hnp
    have hm : processBuffer xmlParse p
        = ({ (emitThinkingDelta p p.buffer).1 with buffer := [] },
           (emitThinkingDelta p p.buffer).2) := by
      rw [processBuffer]
      simp only [dif_neg hb, hst, he, hnp, Bool.false_eq_true, if_false]
    rw [hm]
    exact ⟨emitThinkingDelta_ms p _, noMsg_emitThinkingDelta p _⟩
  | case11 p hb hst ei he fullXML r1 p2 ih =>
    have hm : processBuffer xmlParse p
        = ((processBuffer xmlParse p2).1,
           r1.2 ++ (processBuffer xmlParse p2).2) := by
      rw [processBuffer]
      simp only [dif_neg hb, hst, he]
      try rfl
    have h0 : r1.1.messageStarted = p.messageStarted := by
      unfold_let r1
      cases hx : xmlParse fullXML with
      | some na => exact emitToolCall_ms p _ _
      | none => rfl
    have hn1 : NoMsg r1.2 := by
      unfold_let r1
      cases hx : xmlParse fullXML with
      | some na => exact noMsg_emitToolCall p _ _
      | none => exact noMsg_nil
    rw [hm]
    constructor
    · rw [ih.1]
      exact h0
    · exact noMsg_append hn1 ih.2
  | case12 p hb hst he =>
    have hm : processBuffer xmlParse p = (p, []) := by
      rw [processBuffer]
      simp only [dif_neg hb, hst, he]
    rw [hm]
    exact ⟨rfl, noMsg_nil⟩

/-- Once `message_start` has been emitted, a non-finish chunk emits no
message-lifecycle events and keeps `MessageStarted` set. -/
theorem step_nonfinish_msg (xmlParse : Str → Option (Str × Str)) (model : Str)
    (p : Params) (ch : Chunk) (hms : p.messageStarted = true)
    (hnf : isFinishChunk ch = false) :
    (PaCoReToClaudeResponse xmlParse model ch p).1.messageStarted = true
      ∧ NoMsg (PaCoReToClaudeResponse xmlParse model ch p).2 := by
  unfold PaCoReToClaudeResponse
  simp only [hms, if_true]
  by_cases hc : chunkContentOf ch = []
  · have hf : finishReasonOf ch = [] := by
      simp [isFinishChunk, hc] at hnf
      exact hnf
    simp only [hc, hf, if_pos rfl]
    simp
    exact ⟨hms, noMsg_nil⟩
  · simp only [if_neg hc]
    constructor
    · rw [(processBuffer_msg xmlParse _).1]
    · exact noMsg_append noMsg_nil (processBuffer_msg xmlParse _).2

/-- First invocation of a stream on a non-finish chunk: `message_start` is
emitted first, everything after it is message-event-free, and
`MessageStarted` is set. -/
theorem step_first_msg (xmlParse : Str → Option (Str × Str)) (model : Str)
    (ch : Chunk) (hnf : isFinishChunk ch = false) :
    ∃ E, (PaCoReToClaudeResponse xmlParse model ch initParams).2
        = Event.messageStart model :: E
      ∧ NoMsg E
      ∧ (PaCoReToClaudeResponse xmlParse model ch initParams).1.messageStarted
          = true := by
  unfold PaCoReToClaudeResponse
  simp only [show initParams.messageStarted = false from rfl,
    Bool.false_eq_true, if_false]
  by_cases hc : chunkContentOf ch = []
  · have hf : finishReasonOf ch = [] := by
      simp [isFinishChunk, hc] at hnf
      exact hnf
    simp only [hc, if_pos rfl, hf]
    refine ⟨[], ?_, noMsg_nil, ?_⟩ <;> simp
  · simp only [if_neg hc]
    refine ⟨(processBuffer xmlParse _).2, rfl,
      (processBuffer_msg xmlParse _).2, ?_⟩
    rw [(processBuffer_msg xmlParse _).1]

/-- Folding non-finish chunks over a started state appends only
message-event-free events and keeps `MessageStarted` set. -/
theorem fold_nonfinish_msg (xmlParse : Str → Option (Str × Str)) (model : Str)
    (cs : List Chunk) :
    ∀ p evs, p.messageStarted = true → (∀ c ∈ cs, isFinishChunk c = false) →
      (cs.foldl (stepChunk xmlParse model) (p, evs)).1.messageStarted = true
        ∧ ∃ E, (cs.foldl (stepChunk xmlParse model) (p, evs)).2 = evs ++ E
            ∧ NoMsg E := by
  induction cs with
  | nil =>
    intro p evs hms _
    exact ⟨hms, [], by simp, noMsg_nil⟩
  | cons c cs ih =>
    intro p evs hms hall
    have hstep := step_nonfinish_msg xmlParse model p c hms
      (hall c (List.mem_cons_self c cs))
    simp only [List.foldl_cons]
    have hacc : stepChunk xmlParse model (p, evs) c
        = ((PaCoReToClaudeResponse xmlParse model c p).1,
           evs ++ (PaCoReToClaudeResponse xmlParse model c p).2) := rfl
    rw [hacc]
    obtain ⟨h1, E', hE', hn'⟩ := ih (PaCoReToClaudeResponse xmlParse model c p).1
      (evs ++ (PaCoReToClaudeResponse xmlParse model c p).2) hstep.1
      (fun c' hc' => hall c' (List.mem_cons_of_mem c hc'))
    exact ⟨h1, (PaCoReToClaudeResponse xmlParse model c p).2 ++ E',
      by rw [hE', List.append_assoc], noMsg_append hstep.2 hn'⟩

/-- On an already-started stream a finish chunk reduces to `handleFinish`. -/
theorem step_finish_started (xmlParse : Str → Option (Str × Str)) (model : Str)
    (p : Params) (ch : Chunk) (hms : p.messageStarted = true)
    (hcl : isFinishChunk ch = true) :
    PaCoReToClaudeResponse xmlParse model ch p
      = handleFinish p (finishReasonOf ch) := by
  have hcc : chunkContentOf ch = [] := by
    simp [isFinishChunk] at hcl
    exact hcl.1
  have hcf : finishReasonOf ch ≠ [] := by
    simp [isFinishChunk] at hcl
    exact hcl.2
  unfold PaCoReToClaudeResponse
  simp only [hms, if_true, hcc, if_pos rfl, if_pos hcf]

/-- CLAIM C3 (amended): for a stream whose first chunk is not a finish chunk
and in which a finish chunk may occur only as the last chunk, the
concatenated event sequence starts with `message_start`, `message_start`
occurs exactly once, and `message_stop`, if present, is the single last
event, immediately preceded by `message_delta`.  (The unamended claim is
refuted by `pacore_message_lifecycle_cex`: a finish-first stream loses its
`message_start` entirely, and chunks fed after the finish chunk keep
producing events after `message_stop` — the Go code has no "stream
finished" flag.) -/
theorem pacore_message_lifecycle (xmlParse : Str → Option (Str × Str))
    (model : Str) (c0 : Chunk) (cs : List Chunk)
    (h0 : isFinishChunk c0 = false)
    (hmid : ∀ c ∈ cs.dropLast, isFinishChunk c = false) :
    ∃ rest, (runChunks xmlParse model (c0 :: cs)).2
        = Event.messageStart model :: rest
      ∧ (∀ m, Event.messageStart m ∉ rest)
      ∧ (Event.messageStop ∉ rest
          ∨ ∃ pre sr, rest = pre ++ [Event.messageDelta sr, Event.messageStop]
              ∧ Event.messageStop ∉ pre) := by
  obtain ⟨E0, hE0, hn0, hms0⟩ := step_first_msg xmlParse model c0 h0
  rcases List.eq_nil_or_concat cs with rfl | ⟨cs', clast, rfl⟩
  · refine ⟨E0, ?_, fun m => noMsg_no_start hn0 m, Or.inl (noMsg_no_stop hn0)⟩
    exact hE0
  · rw [List.concat_eq_append] at hmid ⊢
    rw [List.dropLast_concat] at hmid
    have hsplit : runChunks xmlParse model (c0 :: (cs' ++ [clast]))
        = stepChunk xmlParse model (runChunks xmlParse model (c0 :: cs'))
            clast := by
      rw [show c0 :: (cs' ++ [clast]) = (c0 :: cs') ++ [clast] from rfl,
        runChunks_snoc]
    obtain ⟨h1, E1, hE1, hn1⟩ := fold_nonfinish_msg xmlParse model cs'
      (stepChunk xmlParse model (initParams, []) c0).1
      (stepChunk xmlParse model (initParams, []) c0).2 hms0 hmid
    have hB1 : (runChunks xmlParse model (c0 :: cs')).1.messageStarted
        = true := h1
    have hB2 : (runChunks xmlParse model (c0 :: cs')).2
        = (Event.messageStart model :: E0) ++ E1 := by
      show (cs'.foldl (stepChunk xmlParse model)
        ((stepChunk xmlParse model (initParams, []) c0).1,
         (stepChunk xmlParse model (initParams, []) c0).2)).2 = _
      rw [hE1]
      congr 1
    by_cases hcl : isFinishChunk clast = true
    · have hres := step_finish_started xmlParse model
        (runChunks xmlParse model (c0 :: cs')).1 clast hB1 hcl
      obtain ⟨F, sr, hF, hnF⟩ := handleFinish_decomp
        (runChunks xmlParse model (c0 :: cs')).1 (finishReasonOf clast)
      have hev : (runChunks xmlParse model (c0 :: (cs' ++ [clast]))).2
          = Event.messageStart model
              :: (E0 ++ E1
                ++ (F ++ [Event.messageDelta sr, Event.messageStop])) := by
        rw [hsplit]
        show (runChunks xmlParse model (c0 :: cs')).2
            ++ (PaCoReToClaudeResponse xmlParse model clast
                (runChunks xmlParse model (c0 :: cs')).1).2 = _
        rw [hres, hF, hB2]
        simp [List.append_assoc]
      refine ⟨_, hev, ?_,
        Or.inr ⟨E0 ++ E1 ++ F, sr, by simp [List.append_assoc], ?_⟩⟩
      · intro m hm
        rcases List.mem_append.mp hm with h | h
        · rcases List.mem_append.mp h with h' | h'
          · exact noMsg_no_start hn0 m h'
          · exact noMsg_no_start hn1 m h'
        · rcases List.mem_append.mp h with h' | h'
          · exact noMsg_no_start hnF m h'
          · simp at h'
      · exact noMsg_no_stop (noMsg_append (noMsg_append hn0 hn1) hnF)
    · rw [Bool.not_eq_true] at hcl
      have hstep := step_nonfinish_msg xmlParse model
        (runChunks xmlParse model (c0 :: cs')).1 clast hB1 hcl
      have hev : (runChunks xmlParse model (c0 :: (cs' ++ [clast]))).2
          = Event.messageStart model
              :: (E0 ++ E1
                ++ (PaCoReToClaudeResponse xmlParse model clast
                  (runChunks xmlParse model (c0 :: cs')).1).2) := by
        rw [hsplit]
        show (runChunks xmlParse model (c0 :: cs')).2
            ++ (PaCoReToClaudeResponse xmlParse model clast
                (runChunks xmlParse model (c0 :: cs')).1).2 = _
        rw [hB2]
        simp [List.append_assoc]
      have hnr : NoMsg (E0 ++ E1
          ++ (PaCoReToClaudeResponse xmlParse model clast
            (runChunks xmlParse model (c0 :: cs')).1).2) :=
        noMsg_append (noMsg_append hn0 hn1) hstep.2
      exact ⟨_, hev, fun m => noMsg_no_start hnr m, Or.inl (noMsg_no_stop hnr)⟩

/-- CLAIM C3 counterexample (refuting the unamended claim): with the finish
chunk first, `handleFinish`'s fresh `results` slice drops the freshly
emitted `message_start` (no `message_start` at all), and a content chunk
fed after the finish chunk still produces events, so `message_stop` is not
last. -/
theorem pacore_message_lifecycle_cex :
    (runChunks xmlParseNone "m".toList
        [Chunk.json [] "stop".toList, contentChunk "b".toList]).2
      = [Event.messageDelta "end_turn".toList, Event.messageStop,
         Event.blockStartText 0, Event.deltaText 0 "b".toList]
    ∧ (∀ m, Event.messageStart m
        ∉ (runChunks xmlParseNone "m".toList
            [Chunk.json [] "stop".toList, contentChunk "b".toList]).2)
    ∧ (runChunks xmlParseNone "m".toList
        [Chunk.json [] "stop".toList, contentChunk "b".toList]).2.getLast?
      ≠ some Event.messageStop
    ∧ Event.messageStop
        ∈ (runChunks xmlParseNone "m".toList
            [Chunk.json [] "stop".toList, contentChunk "b".toList]).2 := by
  have h1 : runChunks xmlParseNone "m".toList [Chunk.json [] "stop".toList]
      = ({ state := PState.normal, buffer := [], messageStarted := true,
           model := "m".toList, nextContentBlockIndex := 0,
           textContentBlockIndex := -1, thinkingContentBlockIndex := -1,
           textContentBlockStarted := false,
           thinkingContentBlockStarted := false },
         [Event.messageDelta "end_turn".toList, Event.messageStop]) := by
    decide
  have h2 : runChunks xmlParseNone "m".toList
      [Chunk.json [] "stop".toList, contentChunk "b".toList]
      = ({ state := PState.normal, buffer := [], messageStarted := true,
           model := "m".toList, nextContentBlockIndex := 1,
           textContentBlockIndex := 0, thinkingContentBlockIndex := -1,
           textContentBlockStarted := true,
           thinkingContentBlockStarted := false },
         [Event.messageDelta "end_turn".toList, Event.messageStop,
          Event.blockStartText 0, Event.deltaText 0 "b".toList]) := by
    rw [show [Chunk.json ([] : Str) "stop".toList, contentChunk "b".toList]
        = [Chunk.json [] "stop".toList] ++ [contentChunk "b".toList] from rfl,
      runChunks_snoc, h1]
    simp [stepChunk, PaCoReToClaudeResponse, contentChunk, chunkContentOf,
      finishReasonOf]
    rw [processBuffer_eq_flushAll xmlParseNone _ (by decide) (by rfl) (by rfl)
      (by rfl)]
    simp [emitTextDelta]
  refine ⟨by rw [h2], ?_, by rw [h2]; decide, by rw [h2]; decide⟩
  intro m hm
  rw [h2] at hm
  simp at hm

/-- Witness for `pacore_message_lifecycle`: a content chunk followed by a
final finish chunk. -/
theorem pacore_message_lifecycle_witness :
    (isFinishChunk (contentChunk "hi".toList) = false
      ∧ ∀ c ∈ ([Chunk.json [] "stop".toList] : List Chunk).dropLast,
          isFinishChunk c = false)
    ∧ ∃ rest, (runChunks xmlParseNone "m".toList
          (contentChunk "hi".toList :: [Chunk.json [] "stop".toList])).2
        = Event.messageStart "m".toList :: rest
      ∧ (∀ m, Event.messageStart m ∉ rest)
      ∧ (Event.messageStop ∉ rest
          ∨ ∃ pre sr, rest = pre ++ [Event.messageDelta sr, Event.messageStop]
              ∧ Event.messageStop ∉ pre) :=
  ⟨⟨by decide, by decide⟩,
    pacore_message_lifecycle xmlParseNone "m".toList (contentChunk "hi".toList)
      [Chunk.json [] "stop".toList] (by decide) (by decide)⟩

/-- Index carried by a `content_block_start` event, if any. -/
def startIdxOf : Event → Option Int
  | Event.blockStartText i => some i
  | Event.blockStartThinking i => some i
  | Event.blockStartToolUse i _ => some i
  | _ => none

/-- Number of `content_block_stop` events with index `i`. -/
def stopsAfter (i : Int) : List Event → Nat
  | [] => 0
  | Event.blockStop j :: es => (if j = i then 1 else 0) + stopsAfter i es
  | Event.messageStart _ :: es => stopsAfter i es
  | Event.blockStartText _ :: es => stopsAfter i es
  | Event.blockStartThinking _ :: es => stopsAfter i es
  | Event.blockStartToolUse _ _ :: es => stopsAfter i es
  | Event.deltaText _ _ :: es => stopsAfter i es
  | Event.deltaThinking _ _ :: es => stopsAfter i es
  | Event.deltaInputJson _ _ :: es => stopsAfter i es
  | Event.messageDelta _ :: es => stopsAfter i es
  | Event.messageStop :: es => stopsAfter i es

theorem stopsAfter_append (i : Int) (a b : List Event) :
    stopsAfter i (a ++ b) = stopsAfter i a + stopsAfter i b := by
  induction a with
  | nil => simp [stopsAfter]
  | cons e es ih =>
    cases e <;> simp [stopsAfter, ih] <;> omega

/-- The pairing checker: every `content_block_start(index=i)` is followed by
exactly one `content_block_stop(index=i)` before the end of the list. -/
def pairedOK : List Event → Bool
  | [] => true
  | e :: es =>
    (match startIdxOf e with
     | some i => stopsAfter i es == 1
     | none => true) && pairedOK es

theorem pairedOK_iff (evs : List Event) :
    pairedOK evs = true ↔
      ∀ pre e rest, evs = pre ++ e :: rest →
        ∀ i, startIdxOf e = some i → stopsAfter i rest = 1 := by
  induction evs with
  | nil =>
    constructor
    · intro _ pre e rest h
      cases pre <;> simp at h
    · intro _
      rfl
  | cons a es ih =>
    constructor
    · intro h pre e rest hdec i hi
      rw [pairedOK, Bool.and_eq_true] at h
      cases pre with
      | nil =>
        simp at hdec
        obtain ⟨rfl, rfl⟩ := hdec
        have h1 := h.1
        rw [hi] at h1
        simp at h1
        exact h1
      | cons x xs =>
        simp at hdec
        obtain ⟨rfl, hdec'⟩ := hdec
        exact ih.mp h.2 xs e rest hdec' i hi
    · intro h
      rw [pairedOK, Bool.and_eq_true]
      constructor
      · cases hs : startIdxOf a with
        | none => rfl
        | some i =>
          have := h [] a es rfl i hs
          simp [this]
      · refine ih.mpr ?_
        intro pre e rest hdec i hi
        exact h (a :: pre) e rest (by rw [hdec]; rfl) i hi

/-- The indices `p` currently has an open content block at. -/
def isOpen (p : Params) (i : Int) : Bool :=
  (p.textContentBlockStarted && (p.textContentBlockIndex == i))
    || (p.thinkingContentBlockStarted && (p.thinkingContentBlockIndex == i))

/-- Well-formedness of the transcoder's block bookkeeping: a block that is
not started has index `-1`, started blocks have fresh-range indices below
`nextContentBlockIndex`, and simultaneously open blocks have distinct
indices. -/
def WFParams (p : Params) : Prop :=
  (p.textContentBlockStarted = false → p.textContentBlockIndex = -1)
    ∧ (p.thinkingContentBlockStarted = false →
        p.thinkingContentBlockIndex = -1)
    ∧ (p.textContentBlockStarted = true →
        0 ≤ p.textContentBlockIndex
          ∧ p.textContentBlockIndex < p.nextContentBlockIndex)
    ∧ (p.thinkingContentBlockStarted = true →
        0 ≤ p.thinkingContentBlockIndex
          ∧ p.thinkingContentBlockIndex < p.nextContentBlockIndex)
    ∧ 0 ≤ p.nextContentBlockIndex
    ∧ (p.textContentBlockStarted = true → p.thinkingContentBlockStarted = true
        → p.textContentBlockIndex ≠ p.thinkingContentBlockIndex)

/-- Pairing invariant tying the events emitted so far to the bookkeeping:
every emitted `content_block_start(i)` has been followed by exactly one
`content_block_stop(i)` unless the block at `i` is still open, in which
case by none yet. -/
def PairInv (p : Params) (evs : List Event) : Prop :=
  WFParams p
    ∧ ∀ pre e rest i, evs = pre ++ e :: rest → startIdxOf e = some i →
        0 ≤ i ∧ i < p.nextContentBlockIndex
          ∧ stopsAfter i rest = (if isOpen p i then 0 else 1)

theorem append_cons_decomp {α : Type} {xs ys pre rest : List α} {e : α}
    (h : xs ++ ys = pre ++ e :: rest) :
    (∃ r₁, xs = pre ++ e :: r₁ ∧ rest = r₁ ++ ys)
      ∨ (∃ p₂, pre = xs ++ p₂ ∧ ys = p₂ ++ e :: rest) := by
  induction xs generalizing pre with
  | nil =>
    right
    exact ⟨pre, rfl, h⟩
  | cons x xs ih =>
    cases pre with
    | nil =>
      simp at h
      left
      exact ⟨xs, by simp [h.1], h.2.symm⟩
    | cons q pre' =>
      simp at h
      rcases ih h.2 with ⟨r₁, hx, hr⟩ | ⟨p₂, hp, hy⟩
      · left
        exact ⟨r₁, by rw [h.1, hx]; rfl, hr⟩
      · right
        exact ⟨p₂, by rw [h.1, hp]; rfl, hy⟩

/-- Generic step for the pairing invariant: appending a batch of events
`new` that (1) keeps the bookkeeping well-formed, (2) never decreases the
index counter, (3) changes the still-open status of every old index in
lock-step with the stops it contains, and (4) satisfies the invariant for
the starts it contains itself. -/
theorem pairInv_extend {p p' : Params} {evs new : List Event}
    (h : PairInv p evs)
    (hwf : WFParams p')
    (hmono : p.nextContentBlockIndex ≤ p'.nextContentBlockIndex)
    (hold : ∀ i : Int, 0 ≤ i → i < p.nextContentBlockIndex →
      (if isOpen p i then 0 else 1) + stopsAfter i new
        = (if isOpen p' i then 0 else 1))
    (hnew : ∀ pre e rest i, new = pre ++ e :: rest → startIdxOf e = some i →
        0 ≤ i ∧ i < p'.nextContentBlockIndex
          ∧ stopsAfter i rest = (if isOpen p' i then 0 else 1)) :
    PairInv p' (evs ++ new) := by
  refine ⟨hwf, ?_⟩
  intro pre e rest i hdec hi
  rcases append_cons_decomp hdec with ⟨r₁, hx, hr⟩ | ⟨p₂, hp, hy⟩
  · obtain ⟨hi0, hilt, hcnt⟩ := h.2 pre e r₁ i hx hi
    refine ⟨hi0, lt_of_lt_of_le hilt hmono, ?_⟩
    rw [hr, stopsAfter_append, hcnt]
    exact hold i hi0 hilt
  · exact hnew p₂ e rest i hy hi

theorem decomp_mem {α : Type} {xs pre rest : List α} {e : α}
    (h : xs = pre ++ e :: rest) : e ∈ xs := by
  subst h
  exact List.mem_append.mpr (Or.inr (List.mem_cons_self _ _))

theorem hnew_of_noStart {new : List Event}
    (hns : ∀ e ∈ new, startIdxOf e = none) (p' : Params) :
    ∀ pre e rest i, new = pre ++ e :: rest → startIdxOf e = some i →
      0 ≤ i ∧ i < p'.nextContentBlockIndex
        ∧ stopsAfter i rest = (if isOpen p' i then 0 else 1) := by
  intro pre e rest i hdec hi
  rw [hns e (decomp_mem hdec)] at hi
  cases hi

theorem pairInv_emitTextDelta {p : Params} {evs : List Event}
    (h : PairInv p evs) (t : Str) :
    PairInv (emitTextDelta p t).1 (evs ++ (emitTextDelta p t).2) := by
  obtain ⟨hwf, hb⟩ := h
  obtain ⟨w1, w2, w3, w4, w5, w6⟩ := hwf
  by_cases ht : t = []
  · rw [show emitTextDelta p t = (p, []) by unfold emitTextDelta; rw [if_pos ht]]
    simpa using ⟨⟨w1, w2, w3, w4, w5, w6⟩, hb⟩
  · by_cases hs : p.textContentBlockStarted
    · have hval : emitTextDelta p t
          = (p, [Event.deltaText p.textContentBlockIndex t]) := by
        unfold emitTextDelta
        rw [if_neg ht]
        simp [hs]
      rw [hval]
      refine pairInv_extend ⟨⟨w1, w2, w3, w4, w5, w6⟩, hb⟩
        ⟨w1, w2, w3, w4, w5, w6⟩ le_rfl ?_
        (hnew_of_noStart (by intro e he; simp at he; subst he; rfl) _)
      intro i _ _
      simp [stopsAfter]
    · have hs' : p.textContentBlockStarted = false := by
        simpa using hs
      have hidx : p.textContentBlockIndex = -1 := w1 hs'
      have hval : emitTextDelta p t
          = ({ p with
                textContentBlockIndex := p.nextContentBlockIndex
                nextContentBlockIndex := p.nextContentBlockIndex + 1
                textContentBlockStarted := true },
             [Event.blockStartText p.nextContentBlockIndex,
              Event.deltaText p.nextContentBlockIndex t]) := by
        unfold emitTextDelta
        rw [if_neg ht]
        simp [hs', hidx]
      rw [hval]
      refine pairInv_extend ⟨⟨w1, w2, w3, w4, w5, w6⟩, hb⟩ ?_ ?_ ?_ ?_
      · unfold WFParams
        dsimp only
        refine ⟨fun hc => ?_, fun hc => w2 hc, fun _ => ⟨w5, by omega⟩,
          fun hc => ?_, by omega, fun _ hc => ?_⟩
        · cases hc
        · obtain ⟨ha, hbb⟩ := w4 hc
          exact ⟨ha, by omega⟩
        · have := w4 hc
          omega
      · show p.nextContentBlockIndex ≤ p.nextContentBlockIndex + 1
        omega
      · intro i h0 hlt
        have hne : (p.nextContentBlockIndex == i) = false := by
          rw [beq_eq_false_iff_ne]
          omega
        simp [stopsAfter, isOpen, hs', hne]
      · intro pre e rest i hdec hi
        cases pre with
        | nil =>
          simp at hdec
          obtain ⟨rfl, rfl⟩ := hdec
          simp [startIdxOf] at hi
          subst hi
          refine ⟨w5, by show _ < p.nextContentBlockIndex + 1; omega, ?_⟩
          simp [stopsAfter, isOpen]
        | cons x xs =>
          simp at hdec
          obtain ⟨rfl, hdec'⟩ := hdec
          cases xs with
          | nil =>
            simp at hdec'
            obtain ⟨rfl, rfl⟩ := hdec'
            simp [startIdxOf] at hi
          | cons y ys =>
            simp at hdec'

/-- Appending events with no block starts and no block stops preserves the
pairing invariant. -/
theorem pairInv_inert {p : Params} {evs new : List Event} (h : PairInv p evs)
    (hns : ∀ e ∈ new, startIdxOf e = none)
    (hstop : ∀ i, stopsAfter i new = 0) :
    PairInv p (evs ++ new) :=
  pairInv_extend h h.1 le_rfl (fun i _ _ => by simp [hstop i])
    (hnew_of_noStart hns _)

theorem pairInv_stopTextBlock {p : Params} {evs : List Event}
    (h : PairInv p evs) :
    PairInv (stopTextBlock p).1 (evs ++ (stopTextBlock p).2) := by
  obtain ⟨⟨w1, w2, w3, w4, w5, w6⟩, hb⟩ := h
  by_cases hs : p.textContentBlockStarted
  · have hval : stopTextBlock p
        = ({ p with
              textContentBlockStarted := false
              textContentBlockIndex := -1 },
           [Event.blockStop p.textContentBlockIndex]) := by
      unfold stopTextBlock
      rw [if_pos hs]
    rw [hval]
    refine pairInv_extend ⟨⟨w1, w2, w3, w4, w5, w6⟩, hb⟩ ?_ le_rfl ?_
      (hnew_of_noStart (by intro e he; simp at he; subst he; rfl) _)
    · unfold WFParams
      dsimp only
      refine ⟨fun _ => rfl, fun hc => w2 hc, ?_, fun hc => w4 hc, w5, ?_⟩
      · exact fun hc => absurd hc Bool.false_ne_true
      · exact fun hc _ => absurd hc Bool.false_ne_true
    · intro i h0 hlt
      by_cases hti : p.textContentBlockIndex = i
      · have hopen : isOpen p i = true := by
          simp [isOpen, hs, hti]
        have hclosed : isOpen { p with
            textContentBlockStarted := false
            textContentBlockIndex := -1 } i = false := by
          simp only [isOpen]
          simp only [Bool.false_and, Bool.false_or]
          by_cases hts : p.thinkingContentBlockStarted
          · have hd := w6 hs hts
            rw [Bool.and_eq_false_iff]
            right
            rw [beq_eq_false_iff_ne]
            omega
          · simp [hts]
        rw [hopen, hclosed]
        simp [stopsAfter, hti]
      · have hz : stopsAfter i [Event.blockStop p.textContentBlockIndex]
            = 0 := by
          simp [stopsAfter, hti]
        have heq : isOpen { p with
            textContentBlockStarted := false
            textContentBlockIndex := -1 } i = isOpen p i := by
          simp only [isOpen]
          have : (p.textContentBlockIndex == i) = false := by
            rw [beq_eq_false_iff_ne]
            exact hti
          simp [this]
        rw [hz, heq]
        simp
  · have hval : stopTextBlock p = (p, []) := by
      unfold stopTextBlock
      rw [if_neg hs]
    rw [hval]
    simpa using And.intro (And.intro w1 (And.intro w2 (And.intro w3
      (And.intro w4 (And.intro w5 w6))))) hb

theorem pairInv_stopThinkingBlock {p : Params} {evs : List Event}
    (h : PairInv p evs) :
    PairInv (stopThinkingBlock p).1 (evs ++ (stopThinkingBlock p).2) := by
  obtain ⟨⟨w1, w2, w3, w4, w5, w6⟩, hb⟩ := h
  by_cases hs : p.thinkingContentBlockStarted
  · have hval : stopThinkingBlock p
        = ({ p with
              thinkingContentBlockStarted := false
              thinkingContentBlockIndex := -1 },
           [Event.blockStop p.thinkingContentBlockIndex]) := by
      unfold stopThinkingBlock
      rw [if_pos hs]
    rw [hval]
    refine pairInv_extend ⟨⟨w1, w2, w3, w4, w5, w6⟩, hb⟩ ?_ le_rfl ?_
      (hnew_of_noStart (by intro e he; simp at he; subst he; rfl) _)
    · unfold WFParams
      dsimp only
      refine ⟨fun hc => w1 hc, fun _ => rfl, fun hc => w3 hc, ?_, w5, ?_⟩
      · exact fun hc => absurd hc Bool.false_ne_true
      · exact fun _ hc => absurd hc Bool.false_ne_true
    · intro i h0 hlt
      by_cases hti : p.thinkingContentBlockIndex = i
      · have hopen : isOpen p i = true := by
          simp [isOpen, hs, hti]
        have hclosed : isOpen { p with
            thinkingContentBlockStarted := false
            thinkingContentBlockIndex := -1 } i = false := by
          simp only [isOpen]
          simp only [Bool.false_and, Bool.or_false]
          by_cases hts : p.textContentBlockStarted
          · have hd := w6 hts hs
            rw [Bool.and_eq_false_iff]
            right
            rw [beq_eq_false_iff_ne]
            omega
          · simp [hts]
        rw [hopen, hclosed]
        simp [stopsAfter, hti]
      · have hz : stopsAfter i [Event.blockStop p.thinkingContentBlockIndex]
            = 0 := by
          simp [stopsAfter, hti]
        have heq : isOpen { p with
            thinkingContentBlockStarted := false
            thinkingContentBlockIndex := -1 } i = isOpen p i := by
          simp only [isOpen]
          have : (p.thinkingContentBlockIndex == i) = false := by
            rw [beq_eq_false_iff_ne]
            exact hti
          simp [this]
        rw [hz, heq]
        simp
  · have hval : stopThinkingBlock p = (p, []) := by
      unfold stopThinkingBlock
      rw [if_neg hs]
    rw [hval]
    simpa using And.intro (And.intro w1 (And.intro w2 (And.intro w3
      (And.intro w4 (And.intro w5 w6))))) hb

/-- Core of `startThinkingBlock` after the optional text stop: assigning (or
reusing) the thinking index and emitting `content_block_start`. -/
theorem pairInv_thinkStart2 {q : Params} {evs1 : List Event}
    (h : PairInv q evs1) :
    PairInv
      { (if q.thinkingContentBlockIndex = -1 then
           { q with
             thinkingContentBlockIndex := q.nextContentBlockIndex
             nextContentBlockIndex := q.nextContentBlockIndex + 1 }
         else q) with thinkingContentBlockStarted := true }
      (evs1 ++ [Event.blockStartThinking
        (if q.thinkingContentBlockIndex = -1 then
           { q with
             thinkingContentBlockIndex := q.nextContentBlockIndex
             nextContentBlockIndex := q.nextContentBlockIndex + 1 }
         else q).thinkingContentBlockIndex]) := by
  obtain ⟨⟨w1, w2, w3, w4, w5, w6⟩, hb⟩ := h
  by_cases hneg : q.thinkingContentBlockIndex = -1
  · rw [if_pos hneg]
    have hts : q.thinkingContentBlockStarted = false := by
      cases hq : q.thinkingContentBlockStarted
      · rfl
      · have := (w4 hq).1
        omega
    refine pairInv_extend ⟨⟨w1, w2, w3, w4, w5, w6⟩, hb⟩ ?_ ?_ ?_ ?_
    · unfold WFParams
      dsimp only
      refine ⟨fun hc => w1 hc, fun hc => Bool.noConfusion hc, fun hc => ?_,
        fun _ => ⟨w5, by omega⟩, by omega, fun hc _ => ?_⟩
      · obtain ⟨ha, hbb⟩ := w3 hc
        exact ⟨ha, by omega⟩
      · have := w3 hc
        omega
    · show q.nextContentBlockIndex ≤ q.nextContentBlockIndex + 1
      omega
    · intro i h0 hlt
      have hne : (q.nextContentBlockIndex == i) = false := by
        rw [beq_eq_false_iff_ne]
        omega
      simp [stopsAfter, isOpen, hts, hne]
    · intro pre e rest i hdec hi
      cases pre with
      | nil =>
        simp at hdec
        obtain ⟨rfl, rfl⟩ := hdec
        simp [startIdxOf] at hi
        subst hi
        refine ⟨w5, by show _ < q.nextContentBlockIndex + 1; omega, ?_⟩
        simp [stopsAfter, isOpen]
      | cons x xs =>
        simp at hdec
  · rw [if_neg hneg]
    have hts : q.thinkingContentBlockStarted = true := by
      cases hq : q.thinkingContentBlockStarted
      · exact absurd (w2 hq) hneg
      · rfl
    refine pairInv_extend ⟨⟨w1, w2, w3, w4, w5, w6⟩, hb⟩ ?_ le_rfl ?_ ?_
    · unfold WFParams
      dsimp only
      exact ⟨fun hc => w1 hc, fun hc => Bool.noConfusion hc, fun hc => w3 hc,
        fun _ => w4 hts, w5, fun hc _ => w6 hc hts⟩
    · intro i h0 hlt
      simp [stopsAfter, isOpen, hts]
    · intro pre e rest i hdec hi
      cases pre with
      | nil =>
        simp at hdec
        obtain ⟨rfl, rfl⟩ := hdec
        simp [startIdxOf] at hi
        subst hi
        refine ⟨(w4 hts).1, (w4 hts).2, ?_⟩
        simp [stopsAfter, isOpen]
      | cons x xs =>
        simp at hdec

theorem pairInv_startThinkingBlock {p : Params} {evs : List Event}
    (h : PairInv p evs) :
    PairInv (startThinkingBlock p).1 (evs ++ (startThinkingBlock p).2) := by
  have h1 : PairInv
      (if p.textContentBlockStarted then stopTextBlock p
        else (p, ([] : List Event))).1
      (evs ++ (if p.textContentBlockStarted then stopTextBlock p
        else (p, ([] : List Event))).2) := by
    by_cases hs : p.textContentBlockStarted
    · rw [if_pos hs]
      exact pairInv_stopTextBlock h
    · rw [if_neg hs]
      simpa using h
  have h2 := pairInv_thinkStart2 h1
  rw [List.append_assoc] at h2
  exact h2

theorem pairInv_emitThinkingDelta {p : Params} {evs : List Event}
    (h : PairInv p evs) (t : Str) :
    PairInv (emitThinkingDelta p t).1 (evs ++ (emitThinkingDelta p t).2) := by
  by_cases ht : t = []
  · rw [show emitThinkingDelta p t = (p, []) by
      unfold emitThinkingDelta; rw [if_pos ht]]
    simpa using h
  · by_cases hs : p.thinkingContentBlockStarted
    · have hval : emitThinkingDelta p t
          = (p, [Event.deltaThinking p.thinkingContentBlockIndex t]) := by
        unfold emitThinkingDelta
        rw [if_neg ht]
        simp [hs]
      rw [hval]
      exact pairInv_inert h (by intro e he; simp at he; subst he; rfl)
        (fun i => by simp [stopsAfter])
    · have hval : emitThinkingDelta p t
          = ((startThinkingBlock p).1,
             (startThinkingBlock p).2
               ++ [Event.deltaThinking
                 (startThinkingBlock p).1.thinkingContentBlockIndex t]) := by
        unfold emitThinkingDelta
        rw [if_neg ht]
        simp [hs]
      rw [hval]
      have h2 : PairInv (startThinkingBlock p).1
          ((evs ++ (startThinkingBlock p).2)
            ++ [Event.deltaThinking
              (startThinkingBlock p).1.thinkingContentBlockIndex t]) :=
        pairInv_inert (pairInv_startThinkingBlock h)
          (by intro e he; simp at he; subst he; rfl)
          (fun i => by simp [stopsAfter])
      rw [List.append_assoc] at h2
      exact h2

/-- Core of `emitToolCall` after the optional stops: a fresh index, one
`content_block_start`, the arguments delta and the immediate
`content_block_stop`. -/
theorem pairInv_toolEmit {q : Params} {evs1 : List Event} (h : PairInv q evs1)
    (name argsJson : Str) :
    PairInv { q with nextContentBlockIndex := q.nextContentBlockIndex + 1 }
      (evs1 ++ [Event.blockStartToolUse q.nextContentBlockIndex name,
                Event.deltaInputJson q.nextContentBlockIndex argsJson,
                Event.blockStop q.nextContentBlockIndex]) := by
  obtain ⟨⟨w1, w2, w3, w4, w5, w6⟩, hb⟩ := h
  refine pairInv_extend ⟨⟨w1, w2, w3, w4, w5, w6⟩, hb⟩ ?_ ?_ ?_ ?_
  · unfold WFParams
    dsimp only
    refine ⟨fun hc => w1 hc, fun hc => w2 hc, fun hc => ?_, fun hc => ?_,
      by omega, fun hc hc' => w6 hc hc'⟩
    · obtain ⟨ha, hbb⟩ := w3 hc
      exact ⟨ha, by omega⟩
    · obtain ⟨ha, hbb⟩ := w4 hc
      exact ⟨ha, by omega⟩
  · show q.nextContentBlockIndex ≤ q.nextContentBlockIndex + 1
    omega
  · intro i h0 hlt
    have hne : q.nextContentBlockIndex ≠ i := by omega
    have hz : stopsAfter i
        [Event.blockStartToolUse q.nextContentBlockIndex name,
         Event.deltaInputJson q.nextContentBlockIndex argsJson,
         Event.blockStop q.nextContentBlockIndex] = 0 := by
      simp [stopsAfter, hne]
    rw [hz]
    have heq : isOpen
        { q with nextContentBlockIndex := q.nextContentBlockIndex + 1 } i
        = isOpen q i := by
      simp [isOpen]
    rw [heq]
    simp
  · intro pre e rest i hdec hi
    have hopen : isOpen
        { q with nextContentBlockIndex := q.nextContentBlockIndex + 1 }
        q.nextContentBlockIndex = false := by
      simp only [isOpen]
      rw [Bool.or_eq_false_iff]
      constructor
      · rw [Bool.and_eq_false_iff]
        by_cases hts : q.textContentBlockStarted
        · right
          rw [beq_eq_false_iff_ne]
          have := w3 hts
          omega
        · left
          simpa using hts
      · rw [Bool.and_eq_false_iff]
        by_cases hts : q.thinkingContentBlockStarted
        · right
          rw [beq_eq_false_iff_ne]
          have := w4 hts
          omega
        · left
          simpa using hts
    cases pre with
    | nil =>
      simp at hdec
      obtain ⟨rfl, rfl⟩ := hdec
      simp [startIdxOf] at hi
      subst hi
      refine ⟨w5, by show _ < q.nextContentBlockIndex + 1; omega, ?_⟩
      rw [hopen]
      simp [stopsAfter]
    | cons x xs =>
      simp at hdec
      obtain ⟨rfl, hdec'⟩ := hdec
      cases xs with
      | nil =>
        simp at hdec'
        obtain ⟨rfl, rfl⟩ := hdec'
        simp [startIdxOf] at hi
      | cons y ys =>
        simp at hdec'
        obtain ⟨rfl, hdec''⟩ := hdec'
        cases ys with
        | nil =>
          simp at hdec''
          obtain ⟨rfl, rfl⟩ := hdec''
          simp [startIdxOf] at hi
        | cons z zs =>
          simp at hdec''

theorem pairInv_emitToolCall {p : Params} {evs : List Event}
    (h : PairInv p evs) (name argsJson : Str) :
    PairInv (emitToolCall p name argsJson).1
      (evs ++ (emitToolCall p name argsJson).2) := by
  obtain ⟨r1, hr1⟩ : ∃ r1, (if p.textContentBlockStarted then stopTextBlock p
      else (p, ([] : List Event))) = r1 := ⟨_, rfl⟩
  obtain ⟨r2, hr2⟩ : ∃ r2, (if r1.1.thinkingContentBlockStarted then
      stopThinkingBlock r1.1 else (r1.1, ([] : List Event))) = r2 := ⟨_, rfl⟩
  have h1 : PairInv r1.1 (evs ++ r1.2) := by
    rw [← hr1]
    by_cases hs : p.textContentBlockStarted
    · rw [if_pos hs]
      exact pairInv_stopTextBlock h
    · rw [if_neg hs]
      simpa using h
  have h2 : PairInv r2.1 ((evs ++ r1.2) ++ r2.2) := by
    rw [← hr2]
    by_cases hs : r1.1.thinkingContentBlockStarted
    · rw [if_pos hs]
      exact pairInv_stopThinkingBlock h1
    · rw [if_neg hs]
      simpa using h1
  have h3 := pairInv_toolEmit h2 name argsJson
  unfold emitToolCall
  dsimp only
  rw [hr1, hr2]
  rw [List.append_assoc evs r1.2 r2.2] at h3
  rw [List.append_assoc] at h3
  exact h3

theorem pairInv_handleFinish {p : Params} {evs : List Event}
    (h : PairInv p evs) (r : Str) :
    PairInv (handleFinish p r).1 (evs ++ (handleFinish p r).2) := by
  obtain ⟨r1, hr1⟩ : ∃ r1, (if p.thinkingContentBlockStarted then
      stopThinkingBlock p else (p, ([] : List Event))) = r1 := ⟨_, rfl⟩
  obtain ⟨r2, hr2⟩ : ∃ r2, (if r1.1.textContentBlockStarted then
      stopTextBlock r1.1 else (r1.1, ([] : List Event))) = r2 := ⟨_, rfl⟩
  have h1 : PairInv r1.1 (evs ++ r1.2) := by
    rw [← hr1]
    by_cases hs : p.thinkingContentBlockStarted
    · rw [if_pos hs]
      exact pairInv_stopThinkingBlock h
    · rw [if_neg hs]
      simpa using h
  have h2 : PairInv r2.1 ((evs ++ r1.2) ++ r2.2) := by
    rw [← hr2]
    by_cases hs : r1.1.textContentBlockStarted
    · rw [if_pos hs]
      exact pairInv_stopTextBlock h1
    · rw [if_neg hs]
      simpa using h1
  have h3 : PairInv r2.1 (((evs ++ r1.2) ++ r2.2)
      ++ [Event.messageDelta (if r = "tool_calls".toList then
            "tool_use".toList else "end_turn".toList), Event.messageStop]) :=
    pairInv_inert h2 (by intro e he; simp at he; rcases he with rfl | rfl <;> rfl)
      (fun i => by simp [stopsAfter])
  unfold handleFinish
  dsimp only
  rw [hr1, hr2]
  rw [List.append_assoc evs r1.2 r2.2] at h3
  rw [List.append_assoc] at h3
  exact h3

/-- The pairing invariant only depends on the block bookkeeping fields, not
on `state`, `buffer`, `messageStarted` or `model`. -/
theorem pairInv_congr {p q : Params} {evs : List Event} (h : PairInv p evs)
    (h1 : q.textContentBlockStarted = p.textContentBlockStarted)
    (h2 : q.thinkingContentBlockStarted = p.thinkingContentBlockStarted)
    (h3 : q.textContentBlockIndex = p.textContentBlockIndex)
    (h4 : q.thinkingContentBlockIndex = p.thinkingContentBlockIndex)
    (h5 : q.nextContentBlockIndex = p.nextContentBlockIndex) :
    PairInv q evs := by
  obtain ⟨⟨w1, w2, w3, w4, w5, w6⟩, hb⟩ := h
  constructor
  · unfold WFParams
    rw [h1, h2, h3, h4, h5]
    exact ⟨w1, w2, w3, w4, w5, w6⟩
  · intro pre e rest i hdec hi
    have hres := hb pre e rest i hdec hi
    have hopen : isOpen q i = isOpen p i := by
      unfold isOpen
      rw [h1, h2, h3, h4]
    rw [h5, hopen]
    exact hres

/-- `processBuffer` preserves the pairing invariant. -/
theorem processBuffer_pairInv (xmlParse : Str → Option (Str × Str))
    (p : Params) :
    ∀ evs, PairInv p evs →
      PairInv (processBuffer xmlParse p).1
        (evs ++ (processBuffer xmlParse p).2) := by
  induction p using processBuffer.induct with
  | xmlParse a => exact xmlParse a
  | case1 p hb =>
    intro evs h
    rw [processBuffer]
    simp only [dif_pos hb]
    simpa using h
  | case2 p hb hst ti hpk r1 p2 r2 ih =>
    intro evs h
    have hm : processBuffer xmlParse p
        = ((processBuffer xmlParse r2.1).1,
           r1.2 ++ r2.2 ++ (processBuffer xmlParse r2.1).2) := by
      rw [processBuffer]
      simp only [dif_neg hb, hst, hpk]
      rfl
    rw [hm]
    have h1 : PairInv r1.1 (evs ++ r1.2) := by
      unfold_let r1
      by_cases h0 : 0 < ti
      · rw [dif_pos h0]
        exact pairInv_emitTextDelta h _
      · rw [dif_neg h0]
        simpa using h
    have h2 : PairInv p2 (evs ++ r1.2) := by
      unfold_let p2
      exact pairInv_congr h1 rfl rfl rfl rfl rfl
    have h3 : PairInv r2.1 ((evs ++ r1.2) ++ r2.2) := by
      unfold_let r2
      exact pairInv_startThinkingBlock h2
    have h4 := ih ((evs ++ r1.2) ++ r2.2) h3
    rw [List.append_assoc evs r1.2 r2.2] at h4
    rw [List.append_assoc] at h4
    exact h4
  | case3 p hb hst oi hpk r1 p2 ih =>
    intro evs h
    have hm : processBuffer xmlParse p
        = ((processBuffer xmlParse p2).1,
           r1.2 ++ (processBuffer xmlParse p2).2) := by
      rw [processBuffer]
      simp only [dif_neg hb, hst, hpk]
      rfl
    rw [hm]
    have h1 : PairInv r1.1 (evs ++ r1.2) := by
      unfold_let r1
      by_cases h0 : 0 < oi
      · rw [dif_pos h0]
        exact pairInv_emitTextDelta h _
      · rw [dif_neg h0]
        simpa using h
    have h2 : PairInv p2 (evs ++ r1.2) := by
      unfold_let p2
      exact pairInv_congr h1 rfl rfl rfl rfl rfl
    have h3 := ih (evs ++ r1.2) h2
    rw [List.append_assoc] at h3
    exact h3
  | case4 p hb hst hpk hpart hlen =>
    intro evs h
    have hm : processBuffer xmlParse p
        = ({ (emitTextDelta p (p.buffer.take (p.buffer.length - 15))).1 with
              buffer := p.buffer.drop (p.buffer.length - 15) },
           (emitTextDelta p (p.buffer.take (p.buffer.length - 15))).2) := by
      rw [processBuffer]
      simp only [dif_neg hb, hst, hpk]
      rw [if_pos hpart, if_pos hlen]
    rw [hm]
    exact pairInv_congr (pairInv_emitTextDelta h _) rfl rfl rfl rfl rfl
  | case5 p hb hst hpk hpart hlen =>
    intro evs h
    have hm : processBuffer xmlParse p = (p, []) := by
      rw [processBuffer]
      simp only [dif_neg hb, hst, hpk]
      rw [if_pos hpart, if_neg hlen]
    rw [hm]
    simpa using h
  | case6 p hb hst hpk hnp =>
    intro evs h
    rw [Bool.not_eq_true] at hnp
    have hm : processBuffer xmlParse p
        = ({ (emitTextDelta p p.buffer).1 with buffer := [] },
           (emitTextDelta p p.buffer).2) := by
      rw [processBuffer]
      simp only [dif_neg hb, hst, hpk, hnp, Bool.false_eq_true, if_false]
    rw [hm]
    exact pairInv_congr (pairInv_emitTextDelta h _) rfl rfl rfl rfl rfl
  | case7 p hb hst ei he r1 r2 p3 ih =>
    intro evs h
    have hm : processBuffer xmlParse p
        = ((processBuffer xmlParse p3).1,
           r1.2 ++ r2.2 ++ (processBuffer xmlParse p3).2) := by
      rw [processBuffer]
      simp only [dif_neg hb, hst, he]
      try rfl
    rw [hm]
    have h1 : PairInv r1.1 (evs ++ r1.2) := by
      unfold_let r1
      exact pairInv_emitThinkingDelta h _
    have h2 : PairInv r2.1 ((evs ++ r1.2) ++ r2.2) := by
      unfold_let r2
      exact pairInv_stopThinkingBlock h1
    have h3 : PairInv p3 ((evs ++ r1.2) ++ r2.2) := by
      unfold_let p3
      exact pairInv_congr h2 rfl rfl rfl rfl rfl
    have h4 := ih ((evs ++ r1.2) ++ r2.2) h3
    rw [List.append_assoc evs r1.2 r2.2] at h4
    rw [List.append_assoc] at h4
    exact h4
  | case8 p hb hst he hpart hlen =>
    intro evs h
    have hm : processBuffer xmlParse p
        = ({ (emitThinkingDelta p (p.buffer.take (p.buffer.length - 15))).1 with
              buffer := p.buffer.drop (p.buffer.length - 15) },
           (emitThinkingDelta p (p.buffer.take (p.buffer.length - 15))).2) := by
      rw [processBuffer]
      simp only [dif_neg hb, hst, he]
      rw [if_pos hpart, if_pos hlen]
    rw [hm]
    exact pairInv_congr (pairInv_emitThinkingDelta h _) rfl rfl rfl rfl rfl
  | case9 p hb hst he hpart hlen =>
    intro evs h
    have hm : processBuffer xmlParse p = (p, []) := by
      rw [processBuffer]
      simp only [dif_neg hb, hst, he]
      rw [if_pos hpart, if_neg hlen]
    rw [hm]
    simpa using h
  | case10 p hb hst he hnp =>
    intro evs h
    rw [Bool.not_eq_true] at hnp
    have hm : processBuffer xmlParse p
        = ({ (emitThinkingDelta p p.buffer).1 with buffer := [] },
           (emitThinkingDelta p p.buffer).2) := by
      rw [processBuffer]
      simp only [dif_neg hb, hst, he, hnp, Bool.false_eq_true, if_false]
    rw [hm]
    exact pairInv_congr (pairInv_emitThinkingDelta h _) rfl rfl rfl rfl rfl
  | case11 p hb hst ei he fullXML r1 p2 ih =>
    intro evs h
    have hm : processBuffer xmlParse p
        = ((processBuffer xmlParse p2).1,
           r1.2 ++ (processBuffer xmlParse p2).2) := by
      rw [processBuffer]
      simp only [dif_neg hb, hst, he]
      try rfl
    rw [hm]
    have h1 : PairInv r1.1 (evs ++ r1.2) := by
      unfold_let r1
      cases hx : xmlParse fullXML with
      | some na => exact pairInv_emitToolCall h na.1 na.2
      | none => simpa using h
    have h2 : PairInv p2 (evs ++ r1.2) := by
      unfold_let p2
      exact pairInv_congr h1 rfl rfl rfl rfl rfl
    have h3 := ih (evs ++ r1.2) h2
    rw [List.append_assoc] at h3
    exact h3
  | case12 p hb hst he =>
    intro evs h
    have hm : processBuffer xmlParse p = (p, []) := by
      rw [processBuffer]
      simp only [dif_neg hb, hst, he]
    rw [hm]
    simpa using h

theorem pairInv_init : PairInv initParams [] := by
  constructor
  · exact ⟨fun _ => rfl, fun _ => rfl, fun hc => Bool.noConfusion hc,
      fun hc => Bool.noConfusion hc, le_rfl, fun hc _ => Bool.noConfusion hc⟩
  · intro pre e rest i hdec hi
    cases pre with
    | nil => exact List.noConfusion hdec
    | cons x xs => exact List.noConfusion hdec

/-- One `PaCoReToClaudeResponse` invocation preserves the pairing invariant
of the emitted stream. -/
theorem step_pairInv (xmlParse : Str → Option (Str × Str)) (model : Str)
    (p : Params) (ch : Chunk) (evs : List Event) (h : PairInv p evs) :
    PairInv (PaCoReToClaudeResponse xmlParse model ch p).1
      (evs ++ (PaCoReToClaudeResponse xmlParse model ch p).2) := by
  unfold PaCoReToClaudeResponse
  dsimp only
  obtain ⟨r0, hr0⟩ : ∃ r0, (if p.messageStarted then (p, ([] : List Event))
      else ({ p with model := model, messageStarted := true },
        [Event.messageStart model])) = r0 := ⟨_, rfl⟩
  rw [hr0]
  have h0 : PairInv r0.1 (evs ++ r0.2) := by
    rw [← hr0]
    by_cases hms : p.messageStarted
    · rw [if_pos hms]
      simpa using h
    · rw [if_neg hms]
      refine pairInv_congr (pairInv_inert h ?_ ?_) rfl rfl rfl rfl rfl
      · intro e he
        simp at he
        subst he
        rfl
      · intro i
        simp [stopsAfter]
  have hp1 : PairInv r0.1 evs := by
    rw [← hr0]
    by_cases hms : p.messageStarted
    · rw [if_pos hms]
      exact h
    · rw [if_neg hms]
      exact pairInv_congr h rfl rfl rfl rfl rfl
  by_cases hc : chunkContentOf ch = []
  · rw [if_pos hc]
    by_cases hf : finishReasonOf ch ≠ []
    · rw [if_pos hf]
      exact pairInv_handleFinish hp1 _
    · rw [if_neg hf]
      exact h0
  · rw [if_neg hc]
    have h2 : PairInv { r0.1 with buffer := r0.1.buffer ++ chunkContentOf ch }
        (evs ++ r0.2) :=
      pairInv_congr h0 rfl rfl rfl rfl rfl
    have h3 := processBuffer_pairInv xmlParse _ (evs ++ r0.2) h2
    rw [List.append_assoc] at h3
    exact h3

theorem foldl_pairInv (xmlParse : Str → Option (Str × Str)) (model : Str)
    (cs : List Chunk) :
    ∀ acc : Params × List Event, PairInv acc.1 acc.2 →
      PairInv (cs.foldl (stepChunk xmlParse model) acc).1
        (cs.foldl (stepChunk xmlParse model) acc).2 := by
  induction cs with
  | nil =>
    intro acc h
    exact h
  | cons c cs ih =>
    intro acc h
    simp only [List.foldl_cons]
    exact ih _ (step_pairInv xmlParse model acc.1 c acc.2 h)

/-- Processing a finish chunk leaves both content blocks closed, whatever
the prior state. -/
theorem step_finish_closed (xmlParse : Str → Option (Str × Str)) (model : Str)
    (p : Params) (ch : Chunk) (hcl : isFinishChunk ch = true) :
    (PaCoReToClaudeResponse xmlParse model ch p).1.textContentBlockStarted
        = false
      ∧ (PaCoReToClaudeResponse xmlParse model ch
          p).1.thinkingContentBlockStarted = false := by
  have hcc : chunkContentOf ch = [] := by
    simp [isFinishChunk] at hcl
    exact hcl.1
  have hcf : finishReasonOf ch ≠ [] := by
    simp [isFinishChunk] at hcl
    exact hcl.2
  unfold PaCoReToClaudeResponse
  dsimp only
  rw [if_pos hcc, if_pos hcf]
  exact handleFinish_closed _ _

/-- CLAIM C2 (amended): in a transcoder run whose LAST chunk carries a
finish reason, every emitted `content_block_start(index=i)` — text,
thinking or tool_use alike — is followed by exactly one
`content_block_stop(index=i)` before the end of the stream.  (The unamended
claim only asks that a finish chunk be processed at some point; it is
refuted by `pacore_block_pairing_cex`, because the code keeps emitting and
opening blocks on chunks fed after the finish chunk, and nothing ever
closes those.) -/
theorem pacore_block_pairing (xmlParse : Str → Option (Str × Str))
    (model : Str) (cs : List Chunk) (clast : Chunk)
    (hcl : isFinishChunk clast = true) :
    ∀ pre e rest i,
      (runChunks xmlParse model (cs ++ [clast])).2 = pre ++ e :: rest →
      startIdxOf e = some i → stopsAfter i rest = 1 := by
  intro pre e rest i hdec hi
  have hinv : PairInv (runChunks xmlParse model (cs ++ [clast])).1
      (runChunks xmlParse model (cs ++ [clast])).2 :=
    foldl_pairInv xmlParse model (cs ++ [clast]) (initParams, []) pairInv_init
  have hclosed : isOpen (runChunks xmlParse model (cs ++ [clast])).1 i
      = false := by
    rw [runChunks_snoc]
    show isOpen (PaCoReToClaudeResponse xmlParse model clast
      (runChunks xmlParse model cs).1).1 i = false
    unfold isOpen
    rw [(step_finish_closed xmlParse model _ clast hcl).1,
      (step_finish_closed xmlParse model _ clast hcl).2]
    simp
  obtain ⟨-, hb⟩ := hinv
  have hres := hb pre e rest i hdec hi
  rw [hclosed] at hres
  simpa using hres.2.2

/-- CLAIM C2 counterexample (refuting the unamended claim): the finish chunk
is processed first, then a content chunk opens text block 0 — the run ends
with that `content_block_start(0)` never matched by a
`content_block_stop(0)`. -/
theorem pacore_block_pairing_cex :
    (∃ c ∈ [Chunk.json [] "stop".toList, contentChunk "b".toList],
        isFinishChunk c = true)
    ∧ ∃ pre e rest i,
        (runChunks xmlParseNone "m".toList
            [Chunk.json [] "stop".toList, contentChunk "b".toList]).2
          = pre ++ e :: rest
        ∧ startIdxOf e = some i ∧ stopsAfter i rest ≠ 1 := by
  have h1 : runChunks xmlParseNone "m".toList [Chunk.json [] "stop".toList]
      = ({ state := PState.normal, buffer := [], messageStarted := true,
           model := "m".toList, nextContentBlockIndex := 0,
           textContentBlockIndex := -1, thinkingContentBlockIndex := -1,
           textContentBlockStarted := false,
           thinkingContentBlockStarted := false },
         [Event.messageDelta "end_turn".toList, Event.messageStop]) := by
    decide
  have h2 : runChunks xmlParseNone "m".toList
      [Chunk.json [] "stop".toList, contentChunk "b".toList]
      = ({ state := PState.normal, buffer := [], messageStarted := true,
           model := "m".toList, nextContentBlockIndex := 1,
           textContentBlockIndex := 0, thinkingContentBlockIndex := -1,
           textContentBlockStarted := true,
           thinkingContentBlockStarted := false },
         [Event.messageDelta "end_turn".toList, Event.messageStop,
          Event.blockStartText 0, Event.deltaText 0 "b".toList]) := by
    rw [show [Chunk.json ([] : Str) "stop".toList, contentChunk "b".toList]
        = [Chunk.json [] "stop".toList] ++ [contentChunk "b".toList] from rfl,
      runChunks_snoc, h1]
    simp [stepChunk, PaCoReToClaudeResponse, contentChunk, chunkContentOf,
      finishReasonOf]
    rw [processBuffer_eq_flushAll xmlParseNone _ (by decide) (by rfl) (by rfl)
      (by rfl)]
    simp [emitTextDelta]
  refine ⟨⟨Chunk.json [] "stop".toList, by simp, by decide⟩,
    [Event.messageDelta "end_turn".toList, Event.messageStop],
    Event.blockStartText 0, [Event.deltaText 0 "b".toList], 0, ?_, rfl,
    by decide⟩
  rw [h2]
  rfl

/-- Witness for `pacore_block_pairing`: a content chunk followed by a final
finish chunk. -/
theorem pacore_block_pairing_witness :
    isFinishChunk (Chunk.json [] "stop".toList) = true
    ∧ ∀ pre e rest i,
        (runChunks xmlParseNone "m".toList
            ([contentChunk "ab".toList] ++ [Chunk.json [] "stop".toList])).2
          = pre ++ e :: rest →
        startIdxOf e = some i → stopsAfter i rest = 1 :=
  ⟨by decide,
    pacore_block_pairing xmlParseNone "m".toList [contentChunk "ab".toList]
      (Chunk.json [] "stop".toList) (by decide)⟩

end Pacore

namespace Util

/-- The tag name used by the websearch tool intents. -/
def websearchTag : Str := "websearch".toList

/-- The nested tag carrying the question. -/
def questionTag : Str := "question".toList

/-- Go `"<" + tag + ">"`. -/
def tagOpen (tag : Str) : Str := '<' :: (tag ++ ['>'])

/-- Go `"</" + tag + ">"`. -/
def tagClose (tag : Str) : Str := '<' :: '/' :: (tag ++ ['>'])

theorem tagOpen_ne_nil (tag : Str) : tagOpen tag ≠ [] := by
  simp [tagOpen]

theorem tagClose_ne_nil (tag : Str) : tagClose tag ≠ [] := by
  simp [tagClose]

/-- `util.ToolIntent`: `Arguments` always is the one-key map
`{"question": …}`, kept here as the `question` field. -/
structure ToolIntent where
  name : Str
  question : Str
  raw : Str
deriving DecidableEq, Repr

/-- Go `unicode.IsSpace` on the code points `strings.TrimSpace` strips
(`\t \n \v \f \r`, space, NEL, NBSP). -/
def goIsSpace (c : Char) : Bool :=
  c.val = 9 || c.val = 10 || c.val = 11 || c.val = 12 || c.val = 13
    || c.val = 32 || c.val = 133 || c.val = 160

def trimLeftSpace : Str → Str
  | [] => []
  | c :: cs => if goIsSpace c then trimLeftSpace cs else c :: cs

/-- Translation of `strings.TrimSpace` (trim both ends). -/
def trimSpace (s : Str) : Str :=
  (trimLeftSpace (trimLeftSpace s).reverse).reverse

/-- Translation of `findTagBlock`: `(-1, -1, "")` becomes `none`; on success
it returns `(start, end, input[start:end])` with `end` pointing one past the
closing tag. -/
def findTagBlock (input tag : Str) : Option (Nat × Nat × Str) :=
  match firstIdx input (tagOpen tag) with
  | none => none
  | some start =>
    match firstIdx (input.drop start) (tagClose tag) with
    | none => none
    | some e =>
      some (start, start + e + (tagClose tag).length,
        (input.drop start).take (e + (tagClose tag).length))

/-- Translation of `extractTagValue`. -/
def extractTagValue (raw tag : Str) : Str :=
  match firstIdx raw (tagOpen tag) with
  | none => []
  | some s0 =>
    match firstIdx (raw.drop (s0 + (tagOpen tag).length)) (tagClose tag) with
    | none => []
    | some e => (raw.drop (s0 + (tagOpen tag).length)).take e

theorem findTagBlock_some {input tag : Str} {s e : Nat} {raw : Str}
    (h : findTagBlock input tag = some (s, e, raw)) :
    s < e ∧ e ≤ input.length := by
  unfold findTagBlock at h
  cases ho : firstIdx input (tagOpen tag) with
  | none =>
    rw [ho] at h
    cases h
  | some st =>
    rw [ho] at h
    dsimp only at h
    cases hc : firstIdx (input.drop st) (tagClose tag) with
    | none =>
      rw [hc] at h
      cases h
    | some ce =>
      rw [hc] at h
      simp at h
      obtain ⟨rfl, rfl, rfl⟩ := h
      have hcl : 0 < (tagClose tag).length := by
        simp [tagClose]
      have hle := firstIdx_le (tagClose_ne_nil tag) hc
      rw [List.length_drop] at hle
      have hsle := firstIdx_le (tagOpen_ne_nil tag) ho
      constructor
      · omega
      · omega

/-- Translation of the `ParseToolIntents` loop: each iteration excises the
block found by `findTagBlock` (`remaining[:start] + remaining[end:]`) and,
when the UNtrimmed `<question>` value is non-empty, records an intent whose
stored argument is the trimmed value. -/
def ParseToolIntents (remaining : Str) : Str × List ToolIntent :=
  match hfb : findTagBlock remaining websearchTag with
  | none => (remaining, [])
  | some (start, endIdx, raw) =>
    let question := extractTagValue raw questionTag
    let intents0 : List ToolIntent :=
      if question ≠ [] then
        [⟨"websearch".toList, trimSpace question, raw⟩]
      else []
    let r := ParseToolIntents (remaining.take start ++ remaining.drop endIdx)
    (r.1, intents0 ++ r.2)
termination_by remaining.length
decreasing_by
  have hb := findTagBlock_some hfb
  simp only [List.length_append, List.length_take, List.length_drop]
  omega

/-- Go `strings.LastIndex(text, "<")`. -/
def lastIdxLt (s : Str) : Option Nat :=
  match firstIdx s.reverse ['<'] with
  | none => none
  | some i => some (s.length - 1 - i)

/-- The fall-through tail of `splitFlushable`: keep from the last `<` when
no `>` follows it. -/
def fallbackSplit (text : Str) : Str × Str :=
  match lastIdxLt text with
  | none => (text, [])
  | some idx =>
    if firstIdx (text.drop idx) ['>'] ≠ none then (text, [])
    else (text.take idx, text.drop idx)

/-- Translation of `splitFlushable`. -/
def splitFlushable (text : Str) : Str × Str :=
  match firstIdx text (tagOpen websearchTag) with
  | some ws =>
    match firstIdx (text.drop ws) (tagClose websearchTag) with
    | none => (text.take ws, text.drop ws)
    | some we =>
      if ws + we + (tagClose websearchTag).length < text.length then
        match firstIdx (text.drop (ws + we + (tagClose websearchTag).length))
            (tagOpen websearchTag) with
        | some nws =>
          (text.take (ws + we + (tagClose websearchTag).length + nws),
           text.drop (ws + we + (tagClose websearchTag).length + nws))
        | none => fallbackSplit text
      else fallbackSplit text
  | none => fallbackSplit text

/-- Translation of `ToolIntentBuffer.Feed` on an explicit buffer state:
returns `(new buffer, flushable, intents)`; `maxBuffer` is `8192`. -/
def Feed (buffer text : Str) : Str × Str × List ToolIntent :=
  if text = [] then (buffer, [], [])
  else
    let r := ParseToolIntents (buffer ++ text)
    let fk := splitFlushable r.1
    if 8192 < fk.2.length then ([], fk.2, r.2)
    else (fk.2, fk.1, r.2)

theorem fallbackSplit_partition (text : Str) :
    (fallbackSplit text).1 ++ (fallbackSplit text).2 = text := by
  unfold fallbackSplit
  cases lastIdxLt text with
  | none => simp
  | some idx =>
    dsimp only
    split
    · simp
    · exact List.take_append_drop idx text

theorem splitFlushable_partition (text : Str) :
    (splitFlushable text).1 ++ (splitFlushable text).2 = text := by
  unfold splitFlushable
  cases firstIdx text (tagOpen websearchTag) with
  | none => exact fallbackSplit_partition text
  | some ws =>
    dsimp only
    cases firstIdx (text.drop ws) (tagClose websearchTag) with
    | none => exact List.take_append_drop ws text
    | some we =>
      dsimp only
      split
      · cases firstIdx
            (text.drop (ws + we + (tagClose websearchTag).length))
            (tagOpen websearchTag) with
        | some nws => exact List.take_append_drop _ text
        | none => exact fallbackSplit_partition text
      · exact fallbackSplit_partition text

/-- After `ParseToolIntents`, no complete `<websearch>…</websearch>` block
remains in the returned text. -/
theorem ParseToolIntents_no_block (s : Str) :
    findTagBlock (ParseToolIntents s).1 websearchTag = none := by
  induction s using ParseToolIntents.induct with
  | case1 s hfb =>
    rw [ParseToolIntents]
    rw [hfb]
    exact hfb
  | case2 s start endIdx raw hfb ih =>
    rw [ParseToolIntents]
    rw [hfb]
    exact ih

/-- CLAIM C7 (amended): every intent returned by `ParseToolIntents` is named
`websearch`, comes from a block whose nested `<question>` inner text is
non-empty BEFORE trimming, and stores the trimmed question.  (The code's
emptiness check `question != ""` runs on the untrimmed value, so a question
consisting solely of whitespace is NOT discarded and yields an intent whose
trimmed question argument is empty — the unamended claim is refuted by
`util_empty_question_cex`.) -/
theorem util_empty_question (text : Str) :
    ∀ it ∈ (ParseToolIntents text).2,
      it.name = "websearch".toList
        ∧ extractTagValue it.raw questionTag ≠ []
        ∧ it.question = trimSpace (extractTagValue it.raw questionTag) := by
  induction text using ParseToolIntents.induct with
  | case1 s hfb =>
    rw [ParseToolIntents, hfb]
    intro it hit
    exact absurd hit (List.not_mem_nil it)
  | case2 s start endIdx raw hfb ih =>
    rw [ParseToolIntents, hfb]
    dsimp only
    intro it hit
    rcases List.mem_append.mp hit with h1 | h2
    · by_cases hq : extractTagValue raw questionTag ≠ []
      · rw [if_pos hq] at h1
        simp at h1
        subst h1
        exact ⟨rfl, hq, rfl⟩
      · rw [if_neg hq] at h1
        exact absurd h1 (List.not_mem_nil it)
    · exact ih it h2

/-- CLAIM C6 (amended): in a `Feed` call on which the 8-KiB overflow does
not trigger, the returned flushable text followed by the retained buffer is
exactly the combined input with complete `<websearch>…</websearch>` blocks
iteratively excised (`ParseToolIntents`' remaining text) — no text is lost
— and that remaining text contains no complete block.  (The unamended
claim is refuted by `util_flushable_excision_cex`: the iterative excision
re-joins the text around an excised block and can synthesize — and then
silently excise — a block that was not present in the fed input, so the
concatenated flushable output is NOT the input with its complete blocks
removed; on overflow the code additionally drops the flushable part
entirely.) -/
theorem util_flushable_excision (buffer text : Str) (htext : text ≠ [])
    (hnof : ¬ 8192 < (splitFlushable
        (ParseToolIntents (buffer ++ text)).1).2.length) :
    (Feed buffer text).2.1 ++ (Feed buffer text).1
        = (ParseToolIntents (buffer ++ text)).1
      ∧ findTagBlock (ParseToolIntents (buffer ++ text)).1 websearchTag
          = none := by
  constructor
  · unfold Feed
    rw [if_neg htext]
    dsimp only
    rw [if_neg hnof]
    exact splitFlushable_partition _
  · exact ParseToolIntents_no_block _

/-- Reference definition following the CLAIM's words only (not the code):
the input with every complete `<websearch>…</websearch>` block removed in
one left-to-right pass over the original text, all text outside the blocks
kept verbatim.  Used to compare the code's behaviour against the claim. -/
def specExcise (s : Str) : Str :=
  match hw : firstIdx s (tagOpen websearchTag) with
  | none => s
  | some ws =>
    match hc : firstIdx (s.drop (ws + (tagOpen websearchTag).length))
        (tagClose websearchTag) with
    | none => s
    | some ce =>
      s.take ws ++ specExcise (s.drop
        (ws + (tagOpen websearchTag).length + ce
          + (tagClose websearchTag).length))
termination_by s.length
decreasing_by
  have h1 := firstIdx_le (tagOpen_ne_nil websearchTag) hw
  have h2 := firstIdx_le (tagClose_ne_nil websearchTag) hc
  rw [List.length_drop] at h2
  simp only [List.length_drop]
  have h3 : 0 < (tagOpen websearchTag).length := by
    simp [tagOpen]
  omega

theorem specExcise_eval_rest :
    specExcise "earch>z</websearch>w".toList = "earch>z</websearch>w".toList := by
  rw [specExcise]
  split
  · rfl
  · rename_i ws heq
    have h2 : firstIdx "earch>z</websearch>w".toList (tagOpen websearchTag)
        = none := by decide
    rw [h2] at heq
    exact Option.noConfusion heq

theorem specExcise_eval_t0 :
    specExcise "x<webs<websearch>junk</websearch>earch>z</websearch>w".toList
      = "x<websearch>z</websearch>w".toList := by
  rw [specExcise]
  split
  · rename_i heq
    exact absurd heq (by decide)
  · rename_i ws heq
    have hws : ws = 6 := by
      have h2 : firstIdx
          "x<webs<websearch>junk</websearch>earch>z</websearch>w".toList
          (tagOpen websearchTag) = some 6 := by decide
      rw [heq] at h2
      simpa using h2
    subst hws
    split
    · rename_i heq2
      exact absurd heq2 (by decide)
    · rename_i ce heq2
      have hce : ce = 4 := by
        have h2 : firstIdx
            ("x<webs<websearch>junk</websearch>earch>z</websearch>w".toList.drop
              (6 + (tagOpen websearchTag).length)) (tagClose websearchTag)
            = some 4 := by decide
        rw [heq2] at h2
        simpa using h2
      subst hce
      rw [show "x<webs<websearch>junk</websearch>earch>z</websearch>w".toList.drop
          (6 + (tagOpen websearchTag).length + 4
            + (tagClose websearchTag).length)
          = "earch>z</websearch>w".toList from by decide]
      rw [specExcise_eval_rest]
      decide

theorem parseToolIntents_eval_nil : ParseToolIntents ([] : Str) = ([], []) := by
  rw [ParseToolIntents]
  split
  · rfl
  · rename_i start endIdx raw heq
    have h2 : findTagBlock ([] : Str) websearchTag = none := by decide
    rw [h2] at heq
    exact Option.noConfusion heq

theorem parseToolIntents_eval_xw :
    ParseToolIntents "xw".toList = ("xw".toList, []) := by
  rw [ParseToolIntents]
  split
  · rfl
  · rename_i start endIdx raw heq
    have h2 : findTagBlock "xw".toList websearchTag = none := by decide
    rw [h2] at heq
    exact Option.noConfusion heq

theorem parseToolIntents_eval_t1 :
    ParseToolIntents "x<websearch>z</websearch>w".toList
      = ("xw".toList, []) := by
  rw [ParseToolIntents]
  split
  · rename_i heq
    exact absurd heq (by decide)
  · rename_i start endIdx raw heq
    have hvals : start = 1 ∧ endIdx = 25
        ∧ raw = "<websearch>z</websearch>".toList := by
      have h2 : findTagBlock "x<websearch>z</websearch>w".toList websearchTag
          = some (1, 25, "<websearch>z</websearch>".toList) := by decide
      rw [heq] at h2
      simpa using h2
    obtain ⟨rfl, rfl, rfl⟩ := hvals
    rw [show "x<websearch>z</websearch>w".toList.take 1
        ++ "x<websearch>z</websearch>w".toList.drop 25 = "xw".toList
        from by decide]
    rw [parseToolIntents_eval_xw]
    decide

theorem parseToolIntents_eval_t0 :
    ParseToolIntents
        "x<webs<websearch>junk</websearch>earch>z</websearch>w".toList
      = ("xw".toList, []) := by
  rw [ParseToolIntents]
  split
  · rename_i heq
    exact absurd heq (by decide)
  · rename_i start endIdx raw heq
    have hvals : start = 6 ∧ endIdx = 33
        ∧ raw = "<websearch>junk</websearch>".toList := by
      have h2 : findTagBlock
          "x<webs<websearch>junk</websearch>earch>z</websearch>w".toList
          websearchTag
          = some (6, 33, "<websearch>junk</websearch>".toList) := by decide
      rw [heq] at h2
      simpa using h2
    obtain ⟨rfl, rfl, rfl⟩ := hvals
    rw [show
        "x<webs<websearch>junk</websearch>earch>z</websearch>w".toList.take 6
          ++ "x<webs<websearch>junk</websearch>earch>z</websearch>w".toList.drop
            33
        = "x<websearch>z</websearch>w".toList from by decide]
    rw [parseToolIntents_eval_t1]
    decide

theorem parseToolIntents_eval_ws :
    ParseToolIntents "<websearch><question> </question></websearch>".toList
      = ([], [⟨"websearch".toList, [],
          "<websearch><question> </question></websearch>".toList⟩]) := by
  rw [ParseToolIntents]
  split
  · rename_i heq
    exact absurd heq (by decide)
  · rename_i start endIdx raw heq
    have hvals : start = 0 ∧ endIdx = 45
        ∧ raw = "<websearch><question> </question></websearch>".toList := by
      have h2 : findTagBlock
          "<websearch><question> </question></websearch>".toList websearchTag
          = some (0, 45,
              "<websearch><question> </question></websearch>".toList) := by
        decide
      rw [heq] at h2
      simpa using h2
    obtain ⟨rfl, rfl, rfl⟩ := hvals
    rw [show "<websearch><question> </question></websearch>".toList.take 0
        ++ "<websearch><question> </question></websearch>".toList.drop 45
        = ([] : Str) from by decide]
    rw [parseToolIntents_eval_nil]
    decide

theorem parseToolIntents_eval_hi :
    ParseToolIntents "<websearch><question>hi</question></websearch>".toList
      = ([], [⟨"websearch".toList, "hi".toList,
          "<websearch><question>hi</question></websearch>".toList⟩]) := by
  rw [ParseToolIntents]
  split
  · rename_i heq
    exact absurd heq (by decide)
  · rename_i start endIdx raw heq
    have hvals : start = 0 ∧ endIdx = 46
        ∧ raw = "<websearch><question>hi</question></websearch>".toList := by
      have h2 : findTagBlock
          "<websearch><question>hi</question></websearch>".toList websearchTag
          = some (0, 46,
              "<websearch><question>hi</question></websearch>".toList) := by
        decide
      rw [heq] at h2
      simpa using h2
    obtain ⟨rfl, rfl, rfl⟩ := hvals
    rw [show "<websearch><question>hi</question></websearch>".toList.take 0
        ++ "<websearch><question>hi</question></websearch>".toList.drop 46
        = ([] : Str) from by decide]
    rw [parseToolIntents_eval_nil]
    decide

theorem parseToolIntents_eval_aw :
    ParseToolIntents "a<websearch>q".toList
      = ("a<websearch>q".toList, []) := by
  rw [ParseToolIntents]
  split
  · rfl
  · rename_i start endIdx raw heq
    have h2 : findTagBlock "a<websearch>q".toList websearchTag = none := by
      decide
    rw [h2] at heq
    exact Option.noConfusion heq

/-- CLAIM C7 counterexample (refuting the unamended claim): a `<question>`
holding a single space passes the code's untrimmed `question != ""` check,
so `ParseToolIntents` returns an intent whose trimmed question argument is
empty instead of discarding the block. -/
theorem util_empty_question_cex :
    ∃ it ∈ (ParseToolIntents
        "<websearch><question> </question></websearch>".toList).2,
      it.question = [] := by
  refine ⟨⟨"websearch".toList, [],
    "<websearch><question> </question></websearch>".toList⟩, ?_, rfl⟩
  rw [parseToolIntents_eval_ws]
  simp

/-- Witness for `util_empty_question` at a concrete parse. -/
theorem util_empty_question_witness :
    ((⟨"websearch".toList, "hi".toList,
        "<websearch><question>hi</question></websearch>".toList⟩ : ToolIntent)
      ∈ (ParseToolIntents
          "<websearch><question>hi</question></websearch>".toList).2)
    ∧ ((⟨"websearch".toList, "hi".toList,
          "<websearch><question>hi</question></websearch>".toList⟩
            : ToolIntent).name = "websearch".toList
        ∧ extractTagValue
            (⟨"websearch".toList, "hi".toList,
              "<websearch><question>hi</question></websearch>".toList⟩
                : ToolIntent).raw questionTag ≠ []
        ∧ (⟨"websearch".toList, "hi".toList,
            "<websearch><question>hi</question></websearch>".toList⟩
              : ToolIntent).question
            = trimSpace (extractTagValue
                (⟨"websearch".toList, "hi".toList,
                  "<websearch><question>hi</question></websearch>".toList⟩
                    : ToolIntent).raw questionTag)) := by
  have hm : (⟨"websearch".toList, "hi".toList,
      "<websearch><question>hi</question></websearch>".toList⟩ : ToolIntent)
      ∈ (ParseToolIntents
          "<websearch><question>hi</question></websearch>".toList).2 := by
    rw [parseToolIntents_eval_hi]
    simp
  exact ⟨hm, util_empty_question
    "<websearch><question>hi</question></websearch>".toList _ hm⟩

/-- CLAIM C6 counterexample (refuting the unamended claim): a single `Feed`
call, after which the internal buffer is empty, whose flushable output is
NOT the fed input with its complete `<websearch>…</websearch>` blocks
removed.  Excising the inner block re-joins `"x<webs"` and
`"earch>z</websearch>w"`, synthesizing a block that was never in the input;
the loop then excises that too, so text outside the input's complete blocks
is lost from the flushable output. -/
theorem util_flushable_excision_cex :
    (Feed []
        "x<webs<websearch>junk</websearch>earch>z</websearch>w".toList).1 = []
    ∧ (Feed []
        "x<webs<websearch>junk</websearch>earch>z</websearch>w".toList).2.1
      = "xw".toList
    ∧ specExcise
        "x<webs<websearch>junk</websearch>earch>z</websearch>w".toList
      = "x<websearch>z</websearch>w".toList
    ∧ (Feed []
        "x<webs<websearch>junk</websearch>earch>z</websearch>w".toList).2.1
      ≠ specExcise
        "x<webs<websearch>junk</websearch>earch>z</websearch>w".toList := by
  have hFeed : Feed []
      "x<webs<websearch>junk</websearch>earch>z</websearch>w".toList
      = ([], "xw".toList, []) := by
    unfold Feed
    rw [if_neg (by decide :
      ¬ "x<webs<websearch>junk</websearch>earch>z</websearch>w".toList
        = [])]
    dsimp only
    rw [List.nil_append, parseToolIntents_eval_t0]
    decide
  refine ⟨by rw [hFeed], by rw [hFeed], specExcise_eval_t0, ?_⟩
  rw [hFeed, specExcise_eval_t0]
  decide

/-- Witness for `util_flushable_excision`: one flush call holding back an
incomplete block. -/
theorem util_flushable_excision_witness :
    ("a<websearch>q".toList ≠ ([] : Str)
      ∧ ¬ 8192 < (splitFlushable
          (ParseToolIntents (([] : Str) ++ "a<websearch>q".toList)).1).2.length)
    ∧ ((Feed [] "a<websearch>q".toList).2.1
          ++ (Feed [] "a<websearch>q".toList).1
        = (ParseToolIntents (([] : Str) ++ "a<websearch>q".toList)).1
      ∧ findTagBlock
          (ParseToolIntents (([] : Str) ++ "a<websearch>q".toList)).1
          websearchTag = none) := by
  have hPTI : ParseToolIntents (([] : Str) ++ "a<websearch>q".toList)
      = ("a<websearch>q".toList, []) := by
    rw [List.nil_append]
    exact parseToolIntents_eval_aw
  have h2 : ¬ 8192 < (splitFlushable
      (ParseToolIntents (([] : Str) ++ "a<websearch>q".toList)).1).2.length := by
    rw [hPTI]
    decide
  exact ⟨⟨by decide, h2⟩,
    util_flushable_excision [] "a<websearch>q".toList (by decide) h2⟩

end Util

namespace Usage

/-- Times are `time.Time` values modelled as integer nanoseconds;
`t.After(u)` is `u < t`. -/
abbrev Time := Int

/-- `usage.TokenStats` (only the field the tests exercise matters for the
claims; reconstructed from `persistence_test.go`). -/
structure TokenStats where
  TotalTokens : Int
deriving DecidableEq, Repr

/-- `usage.RequestDetail` (fields per `persistence_test.go` and the
management handler). -/
structure RequestDetail where
  Timestamp : Time
  Tokens : TokenStats
deriving DecidableEq, Repr

/-- `usage.ModelSnapshot`. -/
structure ModelSnapshot where
  TotalRequests : Int
  TotalTokens : Int
  Details : List RequestDetail
deriving DecidableEq, Repr

/-- `usage.APISnapshot`; the Go `map[string]ModelSnapshot` becomes an
association list. -/
structure APISnapshot where
  TotalRequests : Int
  TotalTokens : Int
  Models : List (Str × ModelSnapshot)
deriving DecidableEq, Repr

/-- `usage.StatisticsSnapshot`. -/
structure StatisticsSnapshot where
  TotalRequests : Int
  TotalTokens : Int
  SuccessCount : Int
  FailureCount : Int
  APIs : List (Str × APISnapshot)
deriving DecidableEq, Repr

/-- The in-memory store of a `RequestStatistics` value (its `Snapshot()`
contents). -/
def RequestStatistics := StatisticsSnapshot

instance : DecidableEq RequestStatistics := by
  unfold RequestStatistics
  infer_instance

def nsPerHour : Int := 3600000000000

/-- Two's-complement wrap of `Int` into the `int64` range, as Go `int` /
`time.Duration` arithmetic behaves on overflow. -/
def wrap64 (x : Int) : Int :=
  (x + 9223372036854775808) % 18446744073709551616 - 9223372036854775808

theorem wrap64_eq {x : Int} (h1 : -9223372036854775808 ≤ x)
    (h2 : x < 9223372036854775808) : wrap64 x = x := by
  unfold wrap64
  rw [Int.emod_eq_of_lt (by omega) (by omega)]
  omega

/-- The cutoff instant `time.Now().Add(-time.Duration(retentionDays) * 24 *
time.Hour)`: Go evaluates the duration expression in `time.Duration`
(`int64`) arithmetic, so the conversion, the unary minus and each
multiplication wrap at 64 bits (the product overflows `int64` as soon as
`rd ≥ 106752`); `Add` then shifts the unbounded time value. -/
def cutoffOf (rd : Int) (now : Time) : Time :=
  now + wrap64 (wrap64 ((- wrap64 rd) * 24) * nsPerHour)

/-- Translation of `stripRequestDetails`; `now` stands for `time.Now()` so
that `cutoffTime = now.Add(-time.Duration(retentionDays)*24*time.Hour)` in
`int64` duration arithmetic. -/
def stripRequestDetails (snapshot : StatisticsSnapshot) (retentionDays : Int)
    (now : Time) : StatisticsSnapshot :=
  if snapshot.APIs = [] then snapshot
  else
    let rd := if retentionDays ≤ 0 then 30 else retentionDays
    let cutoffTime := cutoffOf rd now
    { snapshot with
      APIs := snapshot.APIs.map (fun kv =>
        (kv.1,
         if kv.2.Models = [] then kv.2
         else { kv.2 with
           Models := kv.2.Models.map (fun mv =>
             (mv.1,
              if mv.2.Details = [] then mv.2
              else { mv.2 with
                Details := mv.2.Details.filter
                  (fun d => cutoffTime < d.Timestamp) })) })) }

theorem forall₂_map_self {α : Type} (f : α → α) (R : α → α → Prop)
    (l : List α) (h : ∀ a ∈ l, R (f a) a) : List.Forall₂ R (l.map f) l := by
  induction l with
  | nil => exact List.Forall₂.nil
  | cons x xs ih =>
    exact List.Forall₂.cons (h x (List.mem_cons_self x xs))
      (ih fun a ha => h a (List.mem_cons_of_mem x ha))

theorem forall₂_self {α : Type} (R : α → α → Prop) (l : List α)
    (h : ∀ a ∈ l, R a a) : List.Forall₂ R l l := by
  induction l with
  | nil => exact List.Forall₂.nil
  | cons x xs ih =>
    exact List.Forall₂.cons (h x (List.mem_cons_self x xs))
      (ih fun a ha => h a (List.mem_cons_of_mem x ha))

/-- The filter `stripRequestDetails` actually applies, with the cutoff in
`int64` duration arithmetic (`cutoffOf`): counters and keys preserved at
every level, and each detail list replaced by its order-preserving filter
against the wrapped cutoff. -/
theorem usage_retention_filter_wrapped (snapshot : StatisticsSnapshot)
    (retentionDays : Int) (now : Time) :
    (stripRequestDetails snapshot retentionDays now).TotalRequests
        = snapshot.TotalRequests
    ∧ (stripRequestDetails snapshot retentionDays now).TotalTokens
        = snapshot.TotalTokens
    ∧ List.Forall₂ (fun (a b : Str × APISnapshot) =>
        a.1 = b.1
        ∧ a.2.TotalRequests = b.2.TotalRequests
        ∧ a.2.TotalTokens = b.2.TotalTokens
        ∧ List.Forall₂ (fun (m n : Str × ModelSnapshot) =>
            m.1 = n.1
            ∧ m.2.TotalRequests = n.2.TotalRequests
            ∧ m.2.TotalTokens = n.2.TotalTokens
            ∧ m.2.Details = n.2.Details.filter (fun d =>
                cutoffOf (if retentionDays ≤ 0 then 30 else retentionDays)
                  now < d.Timestamp))
          a.2.Models b.2.Models)
      (stripRequestDetails snapshot retentionDays now).APIs snapshot.APIs := by
  unfold stripRequestDetails
  by_cases hA : snapshot.APIs = []
  · rw [if_pos hA]
    refine ⟨rfl, rfl, ?_⟩
    rw [hA]
    exact List.Forall₂.nil
  · rw [if_neg hA]
    refine ⟨rfl, rfl, ?_⟩
    dsimp only
    refine forall₂_map_self _ _ _ ?_
    intro kv _
    by_cases hM : kv.2.Models = []
    · rw [if_pos hM]
      refine ⟨rfl, rfl, rfl, ?_⟩
      rw [hM]
      exact List.Forall₂.nil
    · rw [if_neg hM]
      refine ⟨rfl, rfl, rfl, ?_⟩
      refine forall₂_map_self _ _ _ ?_
      intro mv _
      by_cases hD : mv.2.Details = []
      · rw [if_pos hD]
        refine ⟨rfl, rfl, rfl, ?_⟩
        rw [hD]
        rfl
      · rw [if_neg hD]
        exact ⟨rfl, rfl, rfl, rfl⟩

/-- Below the overflow threshold the wrapped cutoff is the mathematical
one: for `0 < rd < 106752`, `rd·24·3600s` fits `int64`. -/
theorem cutoffOf_eq {rd : Int} (h1 : 0 < rd) (h2 : rd < 106752)
    (now : Time) : cutoffOf rd now = now - rd * 24 * nsPerHour := by
  unfold cutoffOf
  have e1 : wrap64 rd = rd := wrap64_eq (by omega) (by omega)
  rw [e1]
  have e2 : wrap64 ((-rd) * 24) = (-rd) * 24 := wrap64_eq (by omega) (by omega)
  rw [e2]
  have e3 : wrap64 ((-rd) * 24 * nsPerHour) = (-rd) * 24 * nsPerHour := by
    apply wrap64_eq
    · simp only [nsPerHour]
      omega
    · simp only [nsPerHour]
      omega
  rw [e3]
  ring

/-- CLAIM C8 (amended): for every retention_days whose effective value
(`≤ 0` is treated as `30`) stays below `106752` — the point at which
`retentionDays·24·time.Hour` overflows `int64` — `stripRequestDetails`
keeps for every `(api, model)` exactly the details with
`timestamp > now − retention_days·24h` (strict: a detail exactly at the
cutoff is removed), preserves their relative order (it is a `filter` of the
original list), keeps every api/model key, and leaves every
`total_requests` / `total_tokens` counter at store, api and model level
unchanged.  (Unamended — over EVERY integer retention_days — the claim is
refuted by `usage_retention_filter_cex`: at `retention_days = 106752` the
Go `time.Duration` product wraps to a negative duration, the cutoff lands
far in the future, and the program removes every detail instead of keeping
the ones newer than the mathematical cutoff.) -/
theorem usage_retention_filter (snapshot : StatisticsSnapshot)
    (retentionDays : Int) (now : Time)
    (hsmall : (if retentionDays ≤ 0 then 30 else retentionDays) < 106752) :
    (stripRequestDetails snapshot retentionDays now).TotalRequests
        = snapshot.TotalRequests
    ∧ (stripRequestDetails snapshot retentionDays now).TotalTokens
        = snapshot.TotalTokens
    ∧ List.Forall₂ (fun (a b : Str × APISnapshot) =>
        a.1 = b.1
        ∧ a.2.TotalRequests = b.2.TotalRequests
        ∧ a.2.TotalTokens = b.2.TotalTokens
        ∧ List.Forall₂ (fun (m n : Str × ModelSnapshot) =>
            m.1 = n.1
            ∧ m.2.TotalRequests = n.2.TotalRequests
            ∧ m.2.TotalTokens = n.2.TotalTokens
            ∧ m.2.Details = n.2.Details.filter (fun d =>
                now - (if retentionDays ≤ 0 then 30 else retentionDays)
                  * 24 * nsPerHour < d.Timestamp))
          a.2.Models b.2.Models)
      (stripRequestDetails snapshot retentionDays now).APIs snapshot.APIs := by
  have h := usage_retention_filter_wrapped snapshot retentionDays now
  have hrd : 0 < (if retentionDays ≤ 0 then 30 else retentionDays) := by
    split <;> omega
  have hcut := cutoffOf_eq hrd hsmall now
  rw [hcut] at h
  exact h

/-- CLAIM C8 counterexample (refuting the unamended claim): at
`retention_days = 106752` the `int64` duration product wraps, the cutoff
jumps into the far future, and `stripRequestDetails` removes a detail only
a microsecond old — which the claim's mathematical filter
(`timestamp > now − rd·24h`) keeps. -/
theorem usage_retention_filter_cex :
    (stripRequestDetails
        ⟨1, 100, 1, 0, [("a".toList, ⟨1, 100,
          [("m".toList, ⟨1, 100, [⟨-1000, ⟨100⟩⟩]⟩)]⟩)]⟩ 106752 0).APIs
      = [("a".toList, ⟨1, 100, [("m".toList, ⟨1, 100, []⟩)]⟩)]
    ∧ List.filter
        (fun d => (0 : Int) - 106752 * 24 * nsPerHour < d.Timestamp)
        [(⟨-1000, ⟨100⟩⟩ : RequestDetail)]
      = [(⟨-1000, ⟨100⟩⟩ : RequestDetail)] := by
  constructor
  · decide
  · decide

/-- Witness for `usage_retention_filter` at `retention_days = 30` on a
two-detail snapshot straddling the cutoff. -/
theorem usage_retention_filter_witness :
    ((if (30 : Int) ≤ 0 then 30 else 30) < 106752)
    ∧ ((stripRequestDetails
          ⟨2, 200, 2, 0, [("a".toList, ⟨2, 200,
            [("m".toList, ⟨2, 200, [⟨-1000, ⟨100⟩⟩,
              ⟨-10000000000000000, ⟨100⟩⟩]⟩)]⟩)]⟩ 30 0).TotalRequests
        = (⟨2, 200, 2, 0, [("a".toList, ⟨2, 200,
            [("m".toList, ⟨2, 200, [⟨-1000, ⟨100⟩⟩,
              ⟨-10000000000000000, ⟨100⟩⟩]⟩)]⟩)]⟩
                : StatisticsSnapshot).TotalRequests
      ∧ (stripRequestDetails
          ⟨2, 200, 2, 0, [("a".toList, ⟨2, 200,
            [("m".toList, ⟨2, 200, [⟨-1000, ⟨100⟩⟩,
              ⟨-10000000000000000, ⟨100⟩⟩]⟩)]⟩)]⟩ 30 0).TotalTokens
        = (⟨2, 200, 2, 0, [("a".toList, ⟨2, 200,
            [("m".toList, ⟨2, 200, [⟨-1000, ⟨100⟩⟩,
              ⟨-10000000000000000, ⟨100⟩⟩]⟩)]⟩)]⟩
                : StatisticsSnapshot).TotalTokens
      ∧ List.Forall₂ (fun (a b : Str × APISnapshot) =>
          a.1 = b.1
          ∧ a.2.TotalRequests = b.2.TotalRequests
          ∧ a.2.TotalTokens = b.2.TotalTokens
          ∧ List.Forall₂ (fun (m n : Str × ModelSnapshot) =>
              m.1 = n.1
              ∧ m.2.TotalRequests = n.2.TotalRequests
              ∧ m.2.TotalTokens = n.2.TotalTokens
              ∧ m.2.Details = n.2.Details.filter (fun d =>
                  (0 : Int) - (if (30 : Int) ≤ 0 then 30 else 30)
                    * 24 * nsPerHour < d.Timestamp))
            a.2.Models b.2.Models)
        (stripRequestDetails
          ⟨2, 200, 2, 0, [("a".toList, ⟨2, 200,
            [("m".toList, ⟨2, 200, [⟨-1000, ⟨100⟩⟩,
              ⟨-10000000000000000, ⟨100⟩⟩]⟩)]⟩)]⟩ 30 0).APIs
        (⟨2, 200, 2, 0, [("a".toList, ⟨2, 200,
          [("m".toList, ⟨2, 200, [⟨-1000, ⟨100⟩⟩,
            ⟨-10000000000000000, ⟨100⟩⟩]⟩)]⟩)]⟩
              : StatisticsSnapshot).APIs) :=
  ⟨by decide,
    usage_retention_filter
      ⟨2, 200, 2, 0, [("a".toList, ⟨2, 200,
        [("m".toList, ⟨2, 200, [⟨-1000, ⟨100⟩⟩,
          ⟨-10000000000000000, ⟨100⟩⟩]⟩)]⟩)]⟩ 30 0 (by decide)⟩

/-- Outcome of `os.ReadFile` + `json.Unmarshal` as `LoadFromFile` observes
it: a read failure that is not `IsNotExist`, a missing file, an empty file,
malformed JSON, or a decoded `ImportPayload` (version + usage snapshot). -/
inductive LoadInput where
  | readError
  | notExist
  | empty
  | malformed
  | parsed (version : Int) (usage : StatisticsSnapshot)
deriving DecidableEq, Repr

/-- The error classes `LoadFromFile` returns (`fmt.Errorf` wrappers). -/
inductive LoadError where
  | readFailed
  | parseFailed
  | unsupportedVersion (v : Int)
deriving DecidableEq, Repr

/-- Filesystem accesses performed by the persistence layer. -/
inductive FSEffect where
  | readFile (path : Str)
  | mkdirAll (dir : Str)
  | writeFile (path : Str)
  | rename (fromPath toPath : Str)
deriving DecidableEq, Repr

/-- Translation of `(*RequestStatistics).LoadFromFile`.  The receiver is
`Option RequestStatistics` (`none` = nil pointer); `replace` stands for the
`s.Replace` method (defined in a part of the package outside `src/`, so it
is kept abstract — every theorem holds for every such function).  Returns
`(error, new store, filesystem accesses)`. -/
def LoadFromFile
    (replace : RequestStatistics → StatisticsSnapshot → RequestStatistics)
    (s : Option RequestStatistics) (path : Str) (input : LoadInput) :
    Option LoadError × Option RequestStatistics × List FSEffect :=
  if s.isNone || path = [] then (none, s, [])
  else
    match input with
    | LoadInput.readError =>
      (some LoadError.readFailed, s, [FSEffect.readFile path])
    | LoadInput.notExist => (none, s, [FSEffect.readFile path])
    | LoadInput.empty => (none, s, [FSEffect.readFile path])
    | LoadInput.malformed =>
      (some LoadError.parseFailed, s, [FSEffect.readFile path])
    | LoadInput.parsed v usage =>
      if v ≠ 0 && v ≠ 1 then
        (some (LoadError.unsupportedVersion v), s, [FSEffect.readFile path])
      else (none, s.map (fun st => replace st usage), [FSEffect.readFile path])

/-- Errors `SaveToFile` can return, mirroring its `fmt.Errorf` sites. -/
inductive SaveError where
  | encodeFailed
  | prepareDirFailed
  | writeFailed
  | finalizeFailed
deriving DecidableEq, Repr

/-- Host-filesystem outcome of the effectful steps of `SaveToFile`. -/
inductive FSOutcome where
  | mkdirFailed
  | writeFailed
  | renameFailed
  | ok
deriving DecidableEq, Repr

/-- Translation of `(*RequestStatistics).SaveToFile`.  `dirOf` stands for
`filepath.Dir`, `fs` for the host filesystem's reaction to the three
accesses (`json.MarshalIndent` on these types cannot fail); `now` feeds the
retention cutoff passed to `stripRequestDetails`.  The store itself is
never modified (`Snapshot` only reads it).  Returns `(error, filesystem
accesses)`. -/
def SaveToFile (dirOf : Str → Str)
    (s : Option RequestStatistics) (path : Str) (retentionDays : Int)
    (now : Time) (fs : FSOutcome) : Option SaveError × List FSEffect :=
  if s.isNone || path = [] then (none, [])
  else
    match fs with
    | FSOutcome.mkdirFailed =>
      (some SaveError.prepareDirFailed, [FSEffect.mkdirAll (dirOf path)])
    | FSOutcome.writeFailed =>
      (some SaveError.writeFailed,
       [FSEffect.mkdirAll (dirOf path),
        FSEffect.writeFile (path ++ ".tmp".toList)])
    | FSOutcome.renameFailed =>
      (some SaveError.finalizeFailed,
       [FSEffect.mkdirAll (dirOf path),
        FSEffect.writeFile (path ++ ".tmp".toList),
        FSEffect.rename (path ++ ".tmp".toList) path])
    | FSOutcome.ok =>
      (none,
       [FSEffect.mkdirAll (dirOf path),
        FSEffect.writeFile (path ++ ".tmp".toList),
        FSEffect.rename (path ++ ".tmp".toList) path])

/-- What the management import handler observes of the request body. -/
inductive ImportBody where
  | readFailed
  | malformed
  | parsed (version : Int) (usage : StatisticsSnapshot)
deriving DecidableEq, Repr

/-- The HTTP-level outcome of `ImportUsageStatistics`. -/
inductive ImportResult where
  | badRequest (msg : Str)
  | ok
deriving DecidableEq, Repr

/-- Translation of the management handler `ImportUsageStatistics`; `merge`
stands for `h.usageStats.MergeSnapshot` (defined outside `src/`, kept
abstract).  Returns the HTTP outcome and the store afterwards (`none`
models a nil handler or nil `usageStats`). -/
def ImportUsageStatistics
    (merge : RequestStatistics → StatisticsSnapshot → RequestStatistics)
    (s : Option RequestStatistics) (body : ImportBody) :
    ImportResult × Option RequestStatistics :=
  match s with
  | none => (ImportResult.badRequest "usage statistics unavailable".toList, none)
  | some st =>
    match body with
    | ImportBody.readFailed =>
      (ImportResult.badRequest "failed to read request body".toList, some st)
    | ImportBody.malformed =>
      (ImportResult.badRequest "invalid json".toList, some st)
    | ImportBody.parsed v usage =>
      if v ≠ 0 && v ≠ 1 then
        (ImportResult.badRequest "unsupported version".toList, some st)
      else (ImportResult.ok, some (merge st usage))

/-- CLAIM C9: both import paths gate on the payload version: versions `0`
and `1` are accepted (and only then is `Replace` / `MergeSnapshot`
invoked), any other version fails with the unsupported-version diagnostic
and leaves the in-memory store untouched — for EVERY replace/merge
function, so the rejected payload can never influence the store. -/
theorem usage_import_version_gate
    (replace merge : RequestStatistics → StatisticsSnapshot → RequestStatistics)
    (st : RequestStatistics) (path : Str) (v : Int)
    (usage : StatisticsSnapshot) (hpath : path ≠ []) :
    (v ≠ 0 → v ≠ 1 →
      LoadFromFile replace (some st) path (LoadInput.parsed v usage)
          = (some (LoadError.unsupportedVersion v), some st,
             [FSEffect.readFile path])
        ∧ ImportUsageStatistics merge (some st) (ImportBody.parsed v usage)
          = (ImportResult.badRequest "unsupported version".toList, some st))
    ∧ (v = 0 ∨ v = 1 →
      LoadFromFile replace (some st) path (LoadInput.parsed v usage)
          = (none, some (replace st usage), [FSEffect.readFile path])
        ∧ ImportUsageStatistics merge (some st) (ImportBody.parsed v usage)
          = (ImportResult.ok, some (merge st usage))) := by
  constructor
  · intro h0 h1
    have hv : (v ≠ 0 && v ≠ 1) = true := by
      simp [h0, h1]
    constructor
    · unfold LoadFromFile
      rw [if_neg (by simp [hpath])]
      dsimp only
      rw [if_pos (by simpa using hv)]
    · unfold ImportUsageStatistics
      dsimp only
      rw [if_pos (by simpa using hv)]
  · intro hor
    have hv : ¬ (v ≠ 0 && v ≠ 1) = true := by
      rcases hor with rfl | rfl <;> simp
    constructor
    · unfold LoadFromFile
      rw [if_neg (by simp [hpath])]
      dsimp only
      rw [if_neg (by simpa using hv)]
      rfl
    · unfold ImportUsageStatistics
      dsimp only
      rw [if_neg (by simpa using hv)]

/-- Witness for `usage_import_version_gate` at version `7` (rejected) — the
accept side is also exercised through the hypotheses of the application. -/
theorem usage_import_version_gate_witness :
    (("p".toList : Str) ≠ []
      ∧ (7 : Int) ≠ 0 ∧ (7 : Int) ≠ 1)
    ∧ ((7 : Int) ≠ 0 → (7 : Int) ≠ 1 →
      LoadFromFile (fun _ snap => snap)
          (some ⟨0, 0, 0, 0, []⟩) "p".toList
          (LoadInput.parsed 7 ⟨1, 2, 3, 4, []⟩)
          = (some (LoadError.unsupportedVersion 7), some ⟨0, 0, 0, 0, []⟩,
             [FSEffect.readFile "p".toList])
        ∧ ImportUsageStatistics (fun st _ => st)
            (some ⟨0, 0, 0, 0, []⟩) (ImportBody.parsed 7 ⟨1, 2, 3, 4, []⟩)
          = (ImportResult.badRequest "unsupported version".toList,
             some ⟨0, 0, 0, 0, []⟩))
    ∧ ((7 : Int) = 0 ∨ (7 : Int) = 1 →
      LoadFromFile (fun _ snap => snap)
          (some ⟨0, 0, 0, 0, []⟩) "p".toList
          (LoadInput.parsed 7 ⟨1, 2, 3, 4, []⟩)
          = (none, some ((fun _ snap => snap) (⟨0, 0, 0, 0, []⟩ :
              RequestStatistics) (⟨1, 2, 3, 4, []⟩ : StatisticsSnapshot)),
             [FSEffect.readFile "p".toList])
        ∧ ImportUsageStatistics (fun st _ => st)
            (some ⟨0, 0, 0, 0, []⟩) (ImportBody.parsed 7 ⟨1, 2, 3, 4, []⟩)
          = (ImportResult.ok, some ((fun (st : RequestStatistics)
              (_ : StatisticsSnapshot) => st) ⟨0, 0, 0, 0, []⟩
                ⟨1, 2, 3, 4, []⟩))) := by
  refine ⟨⟨by decide, by decide, by decide⟩, ?_, ?_⟩
  · exact (usage_import_version_gate (fun _ snap => snap) (fun st _ => st)
      ⟨0, 0, 0, 0, []⟩ "p".toList 7 ⟨1, 2, 3, 4, []⟩ (by decide)).1
  · exact (usage_import_version_gate (fun _ snap => snap) (fun st _ => st)
      ⟨0, 0, 0, 0, []⟩ "p".toList 7 ⟨1, 2, 3, 4, []⟩ (by decide)).2

/-- CLAIM C10: with a nil receiver or an empty path, both persistence entry
points return a nil error, perform no filesystem access, and leave the
store unchanged — persistence is silently skipped. -/
theorem usage_nil_empty_path_noop
    (replace : RequestStatistics → StatisticsSnapshot → RequestStatistics)
    (dirOf : Str → Str) (s : Option RequestStatistics) (path : Str)
    (input : LoadInput) (retentionDays : Int) (now : Time) (fs : FSOutcome)
    (h : s = none ∨ path = []) :
    LoadFromFile replace s path input = (none, s, [])
      ∧ SaveToFile dirOf s path retentionDays now fs = (none, []) := by
  have hc : (s.isNone || path = []) = true := by
    rcases h with rfl | rfl <;> simp
  constructor
  · unfold LoadFromFile
    rw [if_pos (by simpa using hc)]
  · unfold SaveToFile
    rw [if_pos (by simpa using hc)]

/-- Witness for `usage_nil_empty_path_noop` at a nil receiver. -/
theorem usage_nil_empty_path_noop_witness :
    ((none : Option RequestStatistics) = none ∨ ("q".toList : Str) = [])
    ∧ LoadFromFile (fun _ snap => snap) none "q".toList LoadInput.readError
        = (none, none, [])
    ∧ SaveToFile (fun d => d) none "q".toList 30 0 FSOutcome.ok
        = (none, []) :=
  ⟨Or.inl rfl,
    (usage_nil_empty_path_noop (fun _ snap => snap) (fun d => d) none
      "q".toList LoadInput.readError 30 0 FSOutcome.ok (Or.inl rfl)).1,
    (usage_nil_empty_path_noop (fun _ snap => snap) (fun d => d) none
      "q".toList LoadInput.readError 30 0 FSOutcome.ok (Or.inl rfl)).2⟩

end Usage
